import Mathlib

/-!
# Console line discipline (kernel/console.c)

A shallow embedding of `consputc`, `consoleintr` and `consoleread` together
with the global state they touch: the `cons` input queue with its three `uint`
cursors, and the history globals `history_buf`, `history_index`,
`history_count`, `word_index`.

Conventions of the embedding.

* `uint` cursors are natural numbers below `UINT_MOD = 2^32`; every `++`, `--`
  and subtraction on them is reduced `% UINT_MOD` (`uadd`, `usub`).
* `char` cells hold the values `0 .. 255` (the RISC-V ABI has an unsigned plain
  `char`); storing an `int` into a cell reduces it modulo `256`.
* `history_buf[i][j]` of the array `char history_buf[5][128]` is the cell at
  flat offset `i * 128 + j`, which is the address computation of the C
  expression. The array has `5 * 128 = 640` cells. A store to an offset of 640 or
  more leaves the array; where it lands depends on the layout of the globals
  (it may hit `cons.buf`, the cursors or `history_index`), so the behaviour of
  the program is undefined from that store on. The embedding does not perform
  such a store: the run of `consoleread` ends there with the outcome `fault`,
  and nothing is stated about the program after a `fault`. Every cell the
  embedding reads or writes has an offset below 640: no run of `consoleread`
  changes a cell outside the array (`history_cells_outside`), and `consoleintr`
  reads only cells inside it, the row index of a recall being reduced modulo 5
  before the row is read (`consoleintr_inside`).
* The spin lock, `wakeup`, `procdump` and the diagnostic `printf` calls do not
  touch the modelled globals; the bytes recorded as output of `consoleintr` are
  the arguments of `uartputc_sync` reached through its own `consputc` calls.
* `consoleread` runs with the lock held until it returns or reaches `sleep`;
  one such run is `consoleread`, and the run after a wake-up is
  `consoleread_loop` again on the saved locals.
-/

namespace Console

/-! ## Constants -/

/-- The macro `BACKSPACE` (0x100). -/
def BACKSPACE : Nat := 0x100

/-- The macro `C(x)`, that is `x - '@'`: the control character of a letter. -/
def C (x : Char) : Nat := x.toNat - '@'.toNat

/-- The macro `HISTORY_SIZE`. -/
def HISTORY_SIZE : Nat := 5

/-- The macro `INPUT_BUF_SIZE`. -/
def INPUT_BUF_SIZE : Nat := 128

/-- Number of values of the C type `uint` (32 bits). -/
def UINT_MOD : Nat := 4294967296

/-- Number of values of the C type `char`. -/
def CHAR_MOD : Nat := 256

/-- The character constant `'\n'`. -/
def NEWLINE : Nat := 10

/-- The character constant `'\r'`. -/
def CR : Nat := 13

/-- The character constant `'\x7f'` (the delete key). -/
def DEL : Nat := 127

/-- Addition of two `uint` values. -/
def uadd (a b : Nat) : Nat := (a + b) % UINT_MOD

/-- Subtraction `a - b` of two `uint` values: `a + (2^32 - b)` modulo `2^32`. -/
def usub (a b : Nat) : Nat := (UINT_MOD - b + a) % UINT_MOD

/-! ## State -/

/-- The globals of console.c: the fields `buf`, `r`, `w`, `e` of `cons`, and
`history_buf`, `history_index`, `history_count`, `word_index`.

`buf` is only ever indexed modulo `INPUT_BUF_SIZE`, so its cells are those of
`char buf[128]`. `history_buf` stands for the 640 cells of
`char history_buf[5][128]` at the flat offsets `0 .. 639`; the functions below
never read or write it at another offset. The three history counters are `int`
in the source: `history_index` and `history_count` stay below 6, and
`word_index` cannot pass 640 without a `fault`, so no `int` arithmetic on them
overflows. -/
@[ext]
structure ConsState where
  buf : Nat → Nat
  r : Nat
  w : Nat
  e : Nat
  history_buf : Nat → Nat
  history_index : Nat
  history_count : Nat
  word_index : Nat

/-- The state at boot: all globals are zero-initialised. -/
def init : ConsState :=
  { buf := fun _ => 0, r := 0, w := 0, e := 0,
    history_buf := fun _ => 0, history_index := 0, history_count := 0, word_index := 0 }

/-- Writing `v` into cell `i` of an array. -/
def store (a : Nat → Nat) (i v : Nat) : Nat → Nat :=
  fun j => if j = i then v else a j

/-- Flat offset of `history_buf[i][j]`. -/
def hidx (i j : Nat) : Nat := i * INPUT_BUF_SIZE + j

/-! ## consputc -/

/-- The function `consputc`: the bytes handed to `uartputc_sync`. -/
def consputc (c : Nat) : List Nat :=
  if c = BACKSPACE then [8, 32, 8] else [c]

/-! ## consoleintr -/

/-- The loop of `case C('U')`: `k` bounds the number of iterations. -/
def killLoop : Nat → ConsState → ConsState × List Nat
  | 0, s => (s, [])
  | k + 1, s =>
    if s.e ≠ s.w ∧ s.buf (usub s.e 1 % INPUT_BUF_SIZE) ≠ NEWLINE then
      let r := killLoop k { s with e := usub s.e 1 }
      (r.1, consputc BACKSPACE ++ r.2)
    else (s, [])

/-- The `for` loop of the navigation cases: starting at column `i`, with `k`
columns left before `INPUT_BUF_SIZE`, echo row `row` up to the first newline. -/
def echoLoop (h : Nat → Nat) (row : Nat) : Nat → Nat → List Nat
  | 0, _ => []
  | k + 1, i =>
    if h (hidx row i) ≠ NEWLINE then consputc (h (hidx row i)) ++ echoLoop h row k (i + 1)
    else []

/-- The function `consoleintr`: new state and echoed bytes. -/
def consoleintr (s : ConsState) (c : Nat) : ConsState × List Nat :=
  if c = C 'P' then (s, [])
  else if c = C 'U' then killLoop (usub s.e s.w) s
  else if c = C 'H' ∨ c = DEL then
    if s.e ≠ s.w then ({ s with e := usub s.e 1 }, consputc BACKSPACE)
    else (s, [])
  else if c = C 'W' then
    if 0 < s.history_count then
      let hi := (s.history_index + HISTORY_SIZE - 1) % HISTORY_SIZE
      ({ s with history_index := hi }, echoLoop s.history_buf hi INPUT_BUF_SIZE 0)
    else (s, [])
  else if c = C 'S' then
    if 0 < s.history_count then
      let hi := (s.history_index + 1) % HISTORY_SIZE
      ({ s with history_index := hi }, echoLoop s.history_buf hi INPUT_BUF_SIZE 0)
    else (s, [])
  else
    if c ≠ 0 ∧ usub s.e s.r < INPUT_BUF_SIZE then
      let c1 := if c = CR then NEWLINE else c
      let e1 := uadd s.e 1
      let s1 := { s with buf := store s.buf (s.e % INPUT_BUF_SIZE) (c1 % CHAR_MOD), e := e1 }
      if c1 = NEWLINE ∨ c1 = C 'D' ∨ usub e1 s.r = INPUT_BUF_SIZE then
        ({ s1 with w := e1 }, consputc c1)
      else (s1, consputc c1)
    else (s, [])

/-- Feeding a sequence of bytes to `consoleintr`, one call per byte. -/
def feed (s : ConsState) : List Nat → ConsState × List Nat
  | [] => (s, [])
  | c :: cs =>
    let r1 := consoleintr s c
    let r2 := feed r1.1 cs
    (r2.1, r1.2 ++ r2.2)

/-! ## consoleread -/

/-- What `consoleread` depends on outside console.c: whether `killed(myproc())`
holds when it is tested, and whether `either_copyout` to `dst + k` succeeds. -/
structure Env where
  killed : Bool
  copyout : Nat → Bool

/-- How a run of `consoleread` ends: it returns a value, it reaches
`sleep(&cons.r, &cons.lock)` with `n` bytes of budget left, or it is about to
execute the store `history_buf[history_index][word_index] = c` at a flat offset
outside the 640 cells of the array (`fault`): from there on the behaviour of the
program is undefined. -/
inductive Outcome where
  | ret (v : Int)
  | asleep (n : Nat)
  | fault
  deriving DecidableEq, Repr

/-- Result of a run of `consoleread`: the globals, the bytes copied to `dst`
(in order), and the outcome. With the outcome `fault` the globals and the bytes
are those at the point where the store outside the array is about to happen. -/
structure ReadResult where
  st : ConsState
  out : List Nat
  res : Outcome

/-- The loop `while(n > 0)` of `consoleread`, for the local `target` and the
current value of `n`; the destination offset of the next byte is `target - n`.
The store into `history_buf` follows the copy to `dst` and `--n`; it is performed
only when its flat offset lies inside the array, otherwise the run ends with
`fault`. -/
def consoleread_loop (env : Env) (target : Nat) : Nat → ConsState → ReadResult
  | 0, s => ⟨s, [], .ret ((target : Int) - 0)⟩
  | n + 1, s =>
    if s.r = s.w then
      if env.killed then ⟨s, [], .ret (-1)⟩ else ⟨s, [], .asleep (n + 1)⟩
    else
      let c := s.buf (s.r % INPUT_BUF_SIZE)
      let s1 := { s with r := uadd s.r 1 }
      if c = C 'D' then
        if n + 1 < target then
          ⟨{ s1 with r := usub s1.r 1 }, [], .ret ((target : Int) - (n + 1 : Nat))⟩
        else ⟨s1, [], .ret ((target : Int) - (n + 1 : Nat))⟩
      else if env.copyout (target - (n + 1)) = false then
        ⟨s1, [], .ret ((target : Int) - (n + 1 : Nat))⟩
      else if HISTORY_SIZE * INPUT_BUF_SIZE ≤ hidx s1.history_index s1.word_index then
        ⟨s1, [c], .fault⟩
      else
        let s2 := { s1 with
          history_buf := store s1.history_buf (hidx s1.history_index s1.word_index) c,
          word_index := s1.word_index + 1 }
        if c = NEWLINE then
          ⟨{ s2 with
              word_index := 0,
              history_index := (s2.history_index + 1) % HISTORY_SIZE,
              history_count :=
                if s2.history_count < HISTORY_SIZE then s2.history_count + 1
                else s2.history_count },
            [c], .ret ((target : Int) - (n : Nat))⟩
        else
          let r := consoleread_loop env target n s2
          ⟨r.st, c :: r.out, r.res⟩

/-- The function `consoleread` for the argument `n` (an `int`): `target = n`,
and the loop runs only for a positive `n`. -/
def consoleread (env : Env) (s : ConsState) (n : Int) : ReadResult :=
  consoleread_loop env n.toNat n.toNat s


/-! ## Vocabulary of the properties -/

/-- The cursors are values of the type `uint`. -/
def uintOK (s : ConsState) : Prop :=
  s.r < UINT_MOD ∧ s.w < UINT_MOD ∧ s.e < UINT_MOD

/-- An ordinary byte: a non-zero byte that is not CR, LF, Ctrl-D, Ctrl-H,
Ctrl-U, Ctrl-P, Ctrl-W, Ctrl-S or DEL. -/
def ordinary (c : Nat) : Prop :=
  c ≠ 0 ∧ c < CHAR_MOD ∧ c ≠ NEWLINE ∧ c ≠ CR ∧ c ≠ C 'D' ∧ c ≠ C 'H' ∧ c ≠ C 'U' ∧
    c ≠ C 'P' ∧ c ≠ C 'W' ∧ c ≠ C 'S' ∧ c ≠ DEL

instance : DecidablePred ordinary := fun c => by unfold ordinary; infer_instance

instance (s : ConsState) : Decidable (uintOK s) := by unfold uintOK; infer_instance

/-- The queue is empty: consumed = committed = edited. -/
def emptyQueue (s : ConsState) : Prop := s.r = s.w ∧ s.w = s.e

instance (s : ConsState) : Decidable (emptyQueue s) := by unfold emptyQueue; infer_instance

/-- Every `either_copyout` to `dst + k` with `k < m` succeeds. -/
def copyOK (env : Env) (m : Nat) : Prop := ∀ k, k < m → env.copyout k = true

/-- The next `k` stores of `consoleread` into `history_buf`, which go to
`history_buf[history_index][word_index + i]` for `i < k`, stay inside the 640
cells of the array. -/
def histRoom (s : ConsState) (k : Nat) : Prop :=
  ∀ i, i < k → hidx s.history_index (s.word_index + i) < HISTORY_SIZE * INPUT_BUF_SIZE

instance (s : ConsState) (k : Nat) : Decidable (histRoom s k) := by
  unfold histRoom; infer_instance

/-- An environment in which the caller is not killed and every copy succeeds. -/
def quietEnv : Env := ⟨false, fun _ => true⟩

/-- Writing the list `xs` into consecutive cells from `base` on. -/
def storeList (a : Nat → Nat) (base : Nat) : List Nat → Nat → Nat
  | [] => a
  | c :: cs => storeList (store a base c) (base + 1) cs

/-- The `len` cells of the circular buffer that start at cursor `start`. -/
def window (buf : Nat → Nat) : Nat → Nat → List Nat
  | _, 0 => []
  | start, len + 1 => buf (start % INPUT_BUF_SIZE) :: window buf (start + 1) len

/-- The effect of `consoleintr` storing one byte without committing. -/
def push (s : ConsState) (c : Nat) : ConsState :=
  { s with buf := store s.buf (s.e % INPUT_BUF_SIZE) c, e := uadd s.e 1 }

/-- The effect of `consoleread` delivering one byte that is not a newline, its
store into `history_buf` being inside the array. -/
def deliver (s : ConsState) (c : Nat) : ConsState :=
  { s with r := uadd s.r 1,
           history_buf := store s.history_buf (hidx s.history_index s.word_index) c,
           word_index := s.word_index + 1 }

/-- The effect of `consoleread` on the history counters when it has delivered a newline. -/
def endLine (s : ConsState) : ConsState :=
  { s with word_index := 0,
           history_index := (s.history_index + 1) % HISTORY_SIZE,
           history_count :=
             if s.history_count < HISTORY_SIZE then s.history_count + 1 else s.history_count }

/-- The cells between the cursors `r` and `e` hold the list `q`. -/
def Queue (s : ConsState) (q : List Nat) : Prop :=
  uintOK s ∧ usub s.e s.r = q.length ∧ q.length ≤ 128 ∧ window s.buf s.r q.length = q

instance (s : ConsState) (q : List Nat) : Decidable (Queue s q) := by
  unfold Queue; infer_instance

/-- A state whose queue holds the list `q`, all of it committed. -/
def Committed (s : ConsState) (q : List Nat) : Prop :=
  Queue s q ∧ s.w = s.e

instance (s : ConsState) (q : List Nat) : Decidable (Committed s q) := by
  unfold Committed; infer_instance

/-- The state `consoleread` leaves after it has delivered the data bytes `l`
and then a newline, all stores into `history_buf` being inside the array. -/
def lineDelivered (s : ConsState) (l : List Nat) : ConsState :=
  endLine (deliver (l.foldl deliver s) NEWLINE)

/-- The byte stream of a list of lines, each followed by a newline. -/
def joinLines : List (List Nat) → List Nat
  | [] => []
  | l :: ls => l ++ [NEWLINE] ++ joinLines ls

/-- Successive calls of `consoleread`, each with its own environment and budget:
the final state, and what each call delivered and returned. -/
def readAll (s : ConsState) : List (Env × Int) → ConsState × List (List Nat × Outcome)
  | [] => (s, [])
  | call :: calls =>
    let r := consoleread call.1 s call.2
    let rr := readAll r.st calls
    (rr.1, (r.out, r.res) :: rr.2)

/-- The cursor invariant `committed - consumed ≤ edited - consumed ≤ N`, the
differences taken in `uint` arithmetic. -/
def cursorInv (s : ConsState) : Prop :=
  usub s.w s.r ≤ usub s.e s.r ∧ usub s.e s.r ≤ INPUT_BUF_SIZE

instance (s : ConsState) : Decidable (cursorInv s) := by unfold cursorInv; infer_instance

/-- The cursor invariant on three `uint` values. -/
def inv3 (r w e : Nat) : Prop :=
  r < UINT_MOD ∧ w < UINT_MOD ∧ e < UINT_MOD ∧ usub w r ≤ usub e r ∧ usub e r ≤ INPUT_BUF_SIZE

/-- The states the console can be in while the behaviour of the program is
defined: the state at boot, and every state that a call of `consoleintr` on an
input byte, a call of `consoleread`, or a run of its loop resumed after a
wake-up leaves behind, as long as that run of `consoleread` has made no store
outside `history_buf` (its outcome is not `fault`). -/
inductive Reachable : ConsState → Prop
  | boot : Reachable init
  | intr (s : ConsState) (c : Nat) : Reachable s → c < CHAR_MOD → Reachable (consoleintr s c).1
  | read (s : ConsState) (env : Env) (n : Int) : Reachable s →
      (consoleread env s n).res ≠ .fault → Reachable (consoleread env s n).st
  | resume (s : ConsState) (env : Env) (target n : Nat) : Reachable s → n ≤ target →
      (consoleread_loop env target n s).res ≠ .fault →
      Reachable (consoleread_loop env target n s).st

/-- The `len` cells of row `k` of `history_buf` from column `i` on. -/
def rowPrefix (h : Nat → Nat) (k : Nat) : Nat → Nat → List Nat
  | _, 0 => []
  | i, len + 1 => h (hidx k i) :: rowPrefix h k (i + 1) len

/-- Row `k` of `history_buf` starts with the line `m` followed by a newline. -/
def SlotHolds (h : Nat → Nat) (k : Nat) (m : List Nat) : Prop :=
  rowPrefix h k 0 (m.length + 1) = m ++ [NEWLINE]

/-- Typing the line `l` and a newline, then one `consoleread` for the call `call`. -/
def typeAndRead (s : ConsState) (l : List Nat) (call : Env × Int) : ConsState :=
  (consoleread call.1 (feed s (l ++ [NEWLINE])).1 call.2).st

/-- An event of a session without navigation: a line typed with its newline, or
one call of `consoleread`. -/
inductive Ev where
  | type (l : List Nat)
  | read (call : Env × Int)

/-- The state after a sequence of events. -/
def run (s : ConsState) : List Ev → ConsState
  | [] => s
  | .type l :: evs => run (feed s (l ++ [NEWLINE])).1 evs
  | .read call :: evs => run (consoleread call.1 s call.2).st evs

/-- `Schedule pending evs lines`: with the lines `pending` typed and not yet read,
the events `evs` type the lines `lines` in order, each of ordinary bytes and
fitting into the queue, and deliver every line by one call of `consoleread`
whose budget covers it and whose copies succeed; at the end no line is pending. -/
inductive Schedule : List (List Nat) → List Ev → List (List Nat) → Prop
  | done : Schedule [] [] []
  | type (pending : List (List Nat)) (evs : List Ev) (lines : List (List Nat)) (l : List Nat) :
      (∀ c ∈ l, ordinary c) → (joinLines pending).length + l.length + 1 ≤ 128 →
      Schedule (pending ++ [l]) evs lines → Schedule pending (.type l :: evs) (l :: lines)
  | read (l : List Nat) (rest : List (List Nat)) (evs : List Ev) (lines : List (List Nat))
      (call : Env × Int) :
      ((l.length + 1 : Nat) : Int) ≤ call.2 → copyOK call.1 (l.length + 1) →
      Schedule rest evs lines → Schedule (l :: rest) (.read call :: evs) lines

/-- The history after the lines `done` have been delivered, each by one call:
`history_index` is their number modulo 5, and each of the last five lines sits at
the start of the slot given by its position modulo 5. -/
def Hist (s : ConsState) (done : List (List Nat)) : Prop :=
  s.history_index = done.length % HISTORY_SIZE ∧
  (0 < done.length → 0 < s.history_count) ∧
  ∀ j l, done[j]? = some l → done.length ≤ j + HISTORY_SIZE →
    SlotHolds s.history_buf (j % HISTORY_SIZE) l

/-- A line of fewer than 128 ordinary bytes. -/
def goodBytes (l : List Nat) : Prop := (∀ c ∈ l, ordinary c) ∧ l.length < 128

/-- The echo of each byte of a sequence fed to `consoleintr`. -/
def feedEchoes (s : ConsState) : List Nat → List (List Nat)
  | [] => []
  | c :: cs => (consoleintr s c).2 :: feedEchoes (consoleintr s c).1 cs

/-- The normalisation of the default case: carriage return becomes newline. -/
def normCR (c : Nat) : Nat := if c = CR then NEWLINE else c

/-- The echo of `k` erased bytes: `k` times backspace, space, backspace. -/
def bsSeq : Nat → List Nat
  | 0 => []
  | k + 1 => [8, 32, 8] ++ bsSeq k

/-- The editable region (the cells from `w` up to `e`) holds no newline. -/
def NoNL (s : ConsState) : Prop :=
  ∀ i, i < usub s.e s.w → s.buf ((s.w + i) % INPUT_BUF_SIZE) ≠ NEWLINE

/-- Feeding the bytes `xs` to `consoleintr` and then one call of `consoleread`. -/
def feedAndRead (s : ConsState) (xs : List Nat) (call : Env × Int) : ConsState :=
  (consoleread call.1 (feed s xs).1 call.2).st

/-- `k` rounds of typing 128 bytes `a` (the full buffer commits them) and reading
them with one `consoleread` of 128 bytes. -/
def fullRounds : Nat → ConsState → ConsState
  | 0, s => s
  | k + 1, s => fullRounds k (feedAndRead s (List.replicate 128 97) (quietEnv, 128))

/-! ## Basic facts -/

theorem C_P : C 'P' = 16 := rfl
theorem C_U : C 'U' = 21 := rfl
theorem C_H : C 'H' = 8 := rfl
theorem C_W : C 'W' = 23 := rfl
theorem C_S : C 'S' = 19 := rfl
theorem C_D : C 'D' = 4 := rfl

/-! ### Arithmetic of the cursors -/

theorem usub_lt (a b : Nat) : usub a b < UINT_MOD := Nat.mod_lt _ (by decide)

theorem uadd_lt (a b : Nat) : uadd a b < UINT_MOD := Nat.mod_lt _ (by decide)

theorem usub_self (r : Nat) (hr : r < UINT_MOD) : usub r r = 0 := by
  simp only [usub, UINT_MOD] at *
  omega

theorem usub_eq_zero (a b : Nat) (ha : a < UINT_MOD) (hb : b < UINT_MOD) :
    usub a b = 0 ↔ a = b := by
  simp only [usub, UINT_MOD] at *
  omega

theorem usub_uadd_one (e r : Nat) (h : usub e r < 128) : usub (uadd e 1) r = usub e r + 1 := by
  simp only [usub, uadd, UINT_MOD] at *
  omega

theorem usub_pred (e r k : Nat) (h : usub e r = k + 1) : usub (usub e 1) r = k := by
  simp only [usub, UINT_MOD] at *
  omega

theorem usub_uadd_cancel (r : Nat) (hr : r < UINT_MOD) : usub (uadd r 1) 1 = r := by
  simp only [usub, uadd, UINT_MOD] at *
  omega

theorem uadd_usub_cancel (e : Nat) (he : e < UINT_MOD) :
    uadd (usub e 1) 1 = e := by
  simp only [usub, uadd, UINT_MOD] at *
  omega

theorem usub_uadd_right (w r : Nat) (hw : w < UINT_MOD) (hr : r < UINT_MOD) (hne : r ≠ w) :
    usub w (uadd r 1) + 1 = usub w r := by
  simp only [usub, uadd, UINT_MOD] at *
  omega

theorem usub_succ_right (e r k : Nat) (hr : r < UINT_MOD) (h : usub e r = k + 1) :
    usub e (uadd r 1) = k := by
  simp only [usub, uadd, UINT_MOD] at *
  omega

theorem uadd_mod (e : Nat) : uadd e 1 % INPUT_BUF_SIZE = (e + 1) % INPUT_BUF_SIZE := by
  simp only [uadd, UINT_MOD, INPUT_BUF_SIZE]
  omega

theorem add_usub_mod (e r : Nat) (hr : r < UINT_MOD) :
    (r + usub e r) % INPUT_BUF_SIZE = e % INPUT_BUF_SIZE := by
  simp only [usub, UINT_MOD, INPUT_BUF_SIZE] at *
  omega

theorem slot_ne (r i d : Nat) (hi : i < d) (hd : d < 128) :
    (r + i) % INPUT_BUF_SIZE ≠ (r + d) % INPUT_BUF_SIZE := by
  simp only [INPUT_BUF_SIZE]
  omega

/-! ### Windows of the circular buffer -/

theorem window_length (buf : Nat → Nat) (len : Nat) :
    ∀ start, (window buf start len).length = len := by
  induction len with
  | zero => intro start; rfl
  | succ k ih => intro start; simp [window, ih]

theorem window_congr (buf : Nat → Nat) (len : Nat) :
    ∀ a b, a % INPUT_BUF_SIZE = b % INPUT_BUF_SIZE → window buf a len = window buf b len := by
  induction len with
  | zero => intro a b _; rfl
  | succ k ih =>
    intro a b hab
    simp only [window, hab]
    rw [ih (a + 1) (b + 1) (by simp only [INPUT_BUF_SIZE] at hab ⊢; omega)]

theorem window_snoc (buf : Nat → Nat) (len : Nat) :
    ∀ start, window buf start (len + 1)
      = window buf start len ++ [buf ((start + len) % INPUT_BUF_SIZE)] := by
  induction len with
  | zero => intro start; simp [window]
  | succ k ih =>
    intro start
    rw [window, ih (start + 1)]
    simp only [window, List.cons_append]
    rw [show start + 1 + k = start + (k + 1) by omega]

theorem window_add (buf : Nat → Nat) (a : Nat) :
    ∀ start b, window buf start (a + b) = window buf start a ++ window buf (start + a) b := by
  induction a with
  | zero => intro start b; simp [window]
  | succ k ih =>
    intro start b
    rw [show k + 1 + b = (k + b) + 1 by omega]
    simp only [window, List.cons_append]
    rw [ih (start + 1) b, show start + 1 + k = start + (k + 1) by omega]

theorem window_store (buf : Nat → Nat) (j v : Nat) (len : Nat) :
    ∀ start, (∀ i, i < len → (start + i) % INPUT_BUF_SIZE ≠ j) →
      window (store buf j v) start len = window buf start len := by
  induction len with
  | zero => intro start _; rfl
  | succ k ih =>
    intro start h
    simp only [window]
    rw [ih (start + 1) (fun i hi => by
      have := h (i + 1) (by omega)
      rwa [show start + (i + 1) = start + 1 + i by omega] at this)]
    have h0 := h 0 (by omega)
    simp only [Nat.add_zero] at h0
    simp [store, h0]

/-! ## One call of consoleintr -/

theorem uintOK_push (s : ConsState) (c : Nat) (hs : uintOK s) : uintOK (push s c) :=
  ⟨hs.1, hs.2.1, uadd_lt s.e 1⟩

theorem intr_ordinary (s : ConsState) (c : Nat) (hc : ordinary c)
    (hd : usub s.e s.r < 127) : consoleintr s c = (push s c, [c]) := by
  obtain ⟨h0, h256, hnl, hcr, hD, hH, hU, hP, hW, hS, hdel⟩ := hc
  have hmod : c % CHAR_MOD = c := Nat.mod_eq_of_lt h256
  have hroom : usub s.e s.r < INPUT_BUF_SIZE := by simp only [INPUT_BUF_SIZE]; omega
  have hfull : ¬ usub (uadd s.e 1) s.r = INPUT_BUF_SIZE := by
    rw [usub_uadd_one s.e s.r (by omega)]; simp only [INPUT_BUF_SIZE]; omega
  have hbs : c ≠ BACKSPACE := by simp only [CHAR_MOD, BACKSPACE] at *; omega
  simp [consoleintr, hP, hU, hH, hdel, hW, hS, h0, hroom, hcr, hnl, hD, hfull, hmod, consputc,
    hbs, push]

theorem intr_ordinary_full (s : ConsState) (c : Nat) (hc : ordinary c)
    (hd : usub s.e s.r = 127) :
    consoleintr s c = ({ push s c with w := uadd s.e 1 }, [c]) := by
  obtain ⟨h0, h256, hnl, hcr, hD, hH, hU, hP, hW, hS, hdel⟩ := hc
  have hmod : c % CHAR_MOD = c := Nat.mod_eq_of_lt h256
  have hroom : usub s.e s.r < INPUT_BUF_SIZE := by simp only [INPUT_BUF_SIZE]; omega
  have hfull : usub (uadd s.e 1) s.r = INPUT_BUF_SIZE := by
    rw [usub_uadd_one s.e s.r (by omega)]; simp only [INPUT_BUF_SIZE]; omega
  have hbs : c ≠ BACKSPACE := by simp only [CHAR_MOD, BACKSPACE] at *; omega
  simp [consoleintr, hP, hU, hH, hdel, hW, hS, h0, hroom, hcr, hnl, hD, hfull, hmod, consputc,
    hbs, push]

theorem intr_ordinary_drop (s : ConsState) (c : Nat) (hc : ordinary c)
    (hd : ¬ usub s.e s.r < 128) : consoleintr s c = (s, []) := by
  obtain ⟨h0, h256, hnl, hcr, hD, hH, hU, hP, hW, hS, hdel⟩ := hc
  have hroom : ¬ usub s.e s.r < INPUT_BUF_SIZE := by
    simpa only [INPUT_BUF_SIZE] using hd
  simp [consoleintr, hP, hU, hH, hdel, hW, hS, hroom]

theorem intr_newline (s : ConsState) (hd : usub s.e s.r < 128) :
    consoleintr s NEWLINE = ({ push s NEWLINE with w := uadd s.e 1 }, [NEWLINE]) := by
  have hroom : usub s.e s.r < INPUT_BUF_SIZE := by
    simpa only [INPUT_BUF_SIZE] using hd
  simp [consoleintr, C_P, C_U, C_H, C_W, C_S, NEWLINE, DEL, CR, CHAR_MOD, hroom, consputc,
    BACKSPACE, push]

theorem intr_ctrlD (s : ConsState) (hd : usub s.e s.r < 128) :
    consoleintr s (C 'D') = ({ push s (C 'D') with w := uadd s.e 1 }, [C 'D']) := by
  have hroom : usub s.e s.r < INPUT_BUF_SIZE := by
    simpa only [INPUT_BUF_SIZE] using hd
  simp [consoleintr, C_P, C_U, C_H, C_W, C_S, C_D, NEWLINE, DEL, CR, CHAR_MOD, hroom, consputc,
    BACKSPACE, push]

theorem intr_del (s : ConsState) (h : s.e ≠ s.w) :
    consoleintr s DEL = ({ s with e := usub s.e 1 }, [8, 32, 8]) := by
  simp [consoleintr, C_P, C_U, C_H, DEL, h, consputc]

/-! ## The queue as a list -/

theorem Queue_empty (s : ConsState) (hs : uintOK s) (h : s.r = s.e) : Queue s [] := by
  refine ⟨hs, ?_, by simp, rfl⟩
  rw [← h]
  exact usub_self s.r hs.1

theorem window_push (s : ConsState) (c : Nat) (hs : uintOK s) (hd : usub s.e s.r < 128) :
    window (push s c).buf s.r (usub s.e s.r + 1) = window s.buf s.r (usub s.e s.r) ++ [c] := by
  have he := add_usub_mod s.e s.r hs.1
  rw [window_snoc, he]
  have h1 : window (push s c).buf s.r (usub s.e s.r) = window s.buf s.r (usub s.e s.r) := by
    apply window_store
    intro i hi
    rw [← he]
    exact slot_ne s.r i (usub s.e s.r) hi hd
  rw [h1]
  simp [push, store]

theorem Queue_push (s : ConsState) (q : List Nat) (c : Nat) (h : Queue s q)
    (hlen : q.length < 128) : Queue (push s c) (q ++ [c]) := by
  obtain ⟨hs, hd, _, hw⟩ := h
  refine ⟨uintOK_push s c hs, ?_, by simp; omega, ?_⟩
  · have := usub_uadd_one s.e s.r (by omega)
    rw [hd] at this
    simpa [push] using this
  · have := window_push s c hs (by omega)
    rw [hd, hw] at this
    simpa using this

theorem Queue_set_w (s : ConsState) (q : List Nat) (v : Nat) (h : Queue s q) (hv : v < UINT_MOD) :
    Queue { s with w := v } q := by
  obtain ⟨hs, hd, hl, hw⟩ := h
  exact ⟨⟨hs.1, hv, hs.2.2⟩, hd, hl, hw⟩

theorem Queue_foldl_push (xs : List Nat) : ∀ (s : ConsState) (q : List Nat), Queue s q →
    q.length + xs.length ≤ 128 → Queue (xs.foldl push s) (q ++ xs) := by
  induction xs with
  | nil => intro s q h _; simpa using h
  | cons c cs ih =>
    intro s q h hl
    simp only [List.length_cons] at hl
    have := ih (push s c) (q ++ [c]) (Queue_push s q c h (by omega)) (by simp; omega)
    simpa using this

theorem foldl_push_frame (xs : List Nat) : ∀ s : ConsState,
    (xs.foldl push s).r = s.r ∧ (xs.foldl push s).w = s.w ∧
    (xs.foldl push s).history_buf = s.history_buf ∧
    (xs.foldl push s).history_index = s.history_index ∧
    (xs.foldl push s).history_count = s.history_count ∧
    (xs.foldl push s).word_index = s.word_index := by
  induction xs with
  | nil => intro s; exact ⟨rfl, rfl, rfl, rfl, rfl, rfl⟩
  | cons c cs ih => intro s; simp only [List.foldl_cons]; exact ih (push s c)

theorem feed_append (xs ys : List Nat) : ∀ s : ConsState,
    feed s (xs ++ ys) = ((feed (feed s xs).1 ys).1, (feed s xs).2 ++ (feed (feed s xs).1 ys).2) := by
  induction xs with
  | nil => intro s; simp [feed]
  | cons c cs ih => intro s; simp [feed, ih]

theorem feed_ordinary (xs : List Nat) : ∀ (s : ConsState) (q : List Nat), Queue s q →
    (∀ c ∈ xs, ordinary c) → q.length + xs.length ≤ 127 →
    feed s xs = (xs.foldl push s, xs) := by
  induction xs with
  | nil => intro s q _ _ _; rfl
  | cons c cs ih =>
    intro s q h hord hd
    simp only [List.length_cons] at hd
    have hc := hord c (List.mem_cons_self c cs)
    simp only [feed, List.foldl_cons]
    rw [intr_ordinary s c hc (by rw [h.2.1]; omega)]
    simp only
    rw [ih (push s c) (q ++ [c]) (Queue_push s q c h (by omega))
      (fun x hx => hord x (List.mem_cons_of_mem c hx)) (by simp; omega)]
    rfl

/-- Feeding ordinary bytes that leave the queue short of full appends them to
the queue, echoes them, and moves neither `r` nor `w` nor the history. -/
theorem feed_ordinary_Queue (xs : List Nat) (s : ConsState) (q : List Nat) (h : Queue s q)
    (hord : ∀ c ∈ xs, ordinary c) (hl : q.length + xs.length ≤ 127) :
    Queue (feed s xs).1 (q ++ xs) ∧ (feed s xs).2 = xs ∧
      (feed s xs).1.r = s.r ∧ (feed s xs).1.w = s.w ∧
      (feed s xs).1.history_buf = s.history_buf ∧
      (feed s xs).1.history_index = s.history_index ∧
      (feed s xs).1.history_count = s.history_count ∧
      (feed s xs).1.word_index = s.word_index := by
  rw [feed_ordinary xs s q h hord hl]
  exact ⟨Queue_foldl_push xs s q h (by omega), rfl, foldl_push_frame xs s⟩

/-- An accepted newline is appended to the queue and commits it. -/
theorem intr_newline_Queue (s : ConsState) (q : List Nat) (h : Queue s q)
    (hl : q.length < 128) :
    Queue (consoleintr s NEWLINE).1 (q ++ [NEWLINE]) ∧
      (consoleintr s NEWLINE).2 = [NEWLINE] ∧
      (consoleintr s NEWLINE).1.r = s.r ∧
      (consoleintr s NEWLINE).1.w = (consoleintr s NEWLINE).1.e ∧
      (consoleintr s NEWLINE).1.history_buf = s.history_buf ∧
      (consoleintr s NEWLINE).1.history_index = s.history_index ∧
      (consoleintr s NEWLINE).1.history_count = s.history_count ∧
      (consoleintr s NEWLINE).1.word_index = s.word_index := by
  rw [intr_newline s (by rw [h.2.1]; exact hl)]
  exact ⟨Queue_set_w _ _ _ (Queue_push s q NEWLINE h hl) (uadd_lt s.e 1),
    rfl, rfl, rfl, rfl, rfl, rfl, rfl⟩

/-- An accepted Ctrl-D is appended to the queue and commits it. -/
theorem intr_ctrlD_Queue (s : ConsState) (q : List Nat) (h : Queue s q)
    (hl : q.length < 128) :
    Queue (consoleintr s (C 'D')).1 (q ++ [C 'D']) ∧
      (consoleintr s (C 'D')).1.r = s.r ∧
      (consoleintr s (C 'D')).1.w = (consoleintr s (C 'D')).1.e ∧
      (consoleintr s (C 'D')).1.history_buf = s.history_buf ∧
      (consoleintr s (C 'D')).1.history_index = s.history_index ∧
      (consoleintr s (C 'D')).1.history_count = s.history_count ∧
      (consoleintr s (C 'D')).1.word_index = s.word_index := by
  rw [intr_ctrlD s (by rw [h.2.1]; exact hl)]
  exact ⟨Queue_set_w _ _ _ (Queue_push s q (C 'D') h hl) (uadd_lt s.e 1),
    rfl, rfl, rfl, rfl, rfl, rfl⟩

/-- DEL with a non-empty editable region removes the last byte of the queue. -/
theorem intr_del_Queue (s : ConsState) (q : List Nat) (b : Nat) (h : Queue s (q ++ [b]))
    (hw : usub s.w s.r ≤ q.length) :
    Queue (consoleintr s DEL).1 q ∧ (consoleintr s DEL).1.r = s.r ∧
      (consoleintr s DEL).1.w = s.w ∧
      (consoleintr s DEL).1.history_buf = s.history_buf ∧
      (consoleintr s DEL).1.history_index = s.history_index ∧
      (consoleintr s DEL).1.history_count = s.history_count ∧
      (consoleintr s DEL).1.word_index = s.word_index := by
  obtain ⟨hs, hd, hl, hwin⟩ := h
  simp only [List.length_append, List.length_singleton] at hd hl hwin
  have hne : s.e ≠ s.w := by
    intro he
    rw [he] at hd
    omega
  rw [intr_del s hne]
  refine ⟨⟨?_, ?_, by omega, ?_⟩, rfl, rfl, rfl, rfl, rfl, rfl⟩
  · exact ⟨hs.1, hs.2.1, usub_lt s.e 1⟩
  · exact usub_pred s.e s.r q.length hd
  · rw [window_snoc] at hwin
    exact (List.append_inj hwin (window_length _ _ _)).1

theorem killLoop_frame (k : Nat) : ∀ s : ConsState,
    (killLoop k s).1.r = s.r ∧ (killLoop k s).1.w = s.w ∧ (killLoop k s).1.buf = s.buf ∧
    (killLoop k s).1.history_buf = s.history_buf ∧
    (killLoop k s).1.history_index = s.history_index ∧
    (killLoop k s).1.history_count = s.history_count ∧
    (killLoop k s).1.word_index = s.word_index := by
  induction k with
  | zero => intro s; exact ⟨rfl, rfl, rfl, rfl, rfl, rfl, rfl⟩
  | succ k ih =>
    intro s
    simp only [killLoop]
    split
    · exact ih { s with e := usub s.e 1 }
    · exact ⟨rfl, rfl, rfl, rfl, rfl, rfl, rfl⟩

/-- Only the navigation bytes Ctrl-W and Ctrl-S make `consoleintr` touch a history
variable. -/
theorem intr_history_frame (s : ConsState) (c : Nat) (hW : c ≠ C 'W') (hS : c ≠ C 'S') :
    (consoleintr s c).1.history_buf = s.history_buf ∧
    (consoleintr s c).1.history_index = s.history_index ∧
    (consoleintr s c).1.history_count = s.history_count ∧
    (consoleintr s c).1.word_index = s.word_index := by
  obtain ⟨-, -, -, k1, k2, k3, k4⟩ := killLoop_frame (usub s.e s.w) s
  unfold consoleintr
  simp only [hW, hS, if_false]
  split_ifs <;> first | exact ⟨rfl, rfl, rfl, rfl⟩ | exact ⟨k1, k2, k3, k4⟩

theorem feed_history_frame (cs : List Nat) : ∀ s : ConsState,
    (∀ c ∈ cs, c ≠ C 'W' ∧ c ≠ C 'S') →
    (feed s cs).1.history_buf = s.history_buf ∧
    (feed s cs).1.history_index = s.history_index ∧
    (feed s cs).1.history_count = s.history_count ∧
    (feed s cs).1.word_index = s.word_index := by
  induction cs with
  | nil => intro s _; exact ⟨rfl, rfl, rfl, rfl⟩
  | cons c cs ih =>
    intro s h
    obtain ⟨hW, hS⟩ := h c (List.mem_cons_self c cs)
    obtain ⟨a1, a2, a3, a4⟩ := intr_history_frame s c hW hS
    obtain ⟨b1, b2, b3, b4⟩ := ih (consoleintr s c).1
      (fun x hx => h x (List.mem_cons_of_mem c hx))
    exact ⟨b1.trans a1, b2.trans a2, b3.trans a3, b4.trans a4⟩

theorem ordinary_not_nav (c : Nat) (h : ordinary c) : c ≠ C 'W' ∧ c ≠ C 'S' :=
  ⟨h.2.2.2.2.2.2.2.2.1, h.2.2.2.2.2.2.2.2.2.1⟩

/-! ## One iteration of the loop of consoleread -/

theorem read_zero (env : Env) (target : Nat) (s : ConsState) :
    consoleread_loop env target 0 s = ⟨s, [], .ret target⟩ := by
  simp [consoleread_loop]

theorem read_killed (env : Env) (target n : Nat) (s : ConsState) (h : s.r = s.w)
    (hk : env.killed = true) :
    consoleread_loop env target (n + 1) s = ⟨s, [], .ret (-1)⟩ := by
  simp [consoleread_loop, h, hk]

theorem read_asleep (env : Env) (target n : Nat) (s : ConsState) (h : s.r = s.w)
    (hk : env.killed = false) :
    consoleread_loop env target (n + 1) s = ⟨s, [], .asleep (n + 1)⟩ := by
  simp [consoleread_loop, h, hk]

theorem histRoom_one (s : ConsState) (k : Nat) (h : histRoom s (k + 1)) :
    ¬ HISTORY_SIZE * INPUT_BUF_SIZE ≤ hidx s.history_index s.word_index := by
  have := h 0 (Nat.succ_pos k)
  simp only [hidx, Nat.add_zero] at this ⊢
  omega

theorem histRoom_deliver (s : ConsState) (c k : Nat) (h : histRoom s (k + 1)) :
    histRoom (deliver s c) k := by
  intro i hi
  have := h (i + 1) (by omega)
  simp only [deliver, hidx] at this ⊢
  omega

theorem histRoom_mono (s : ConsState) (j k : Nat) (hjk : j ≤ k) (h : histRoom s k) :
    histRoom s j :=
  fun i hi => h i (by omega)

theorem histRoom_of_not (s : ConsState)
    (h : ¬ HISTORY_SIZE * INPUT_BUF_SIZE ≤ hidx s.history_index s.word_index) : histRoom s 1 := by
  intro i hi
  have h0 : i = 0 := by omega
  subst h0
  simp only [hidx, Nat.add_zero] at h ⊢
  omega

theorem histRoom_congr (s t : ConsState) (k : Nat) (h1 : t.history_index = s.history_index)
    (h2 : t.word_index = s.word_index) (h : histRoom s k) : histRoom t k := by
  unfold histRoom at *
  rw [h1, h2]
  exact h

theorem histRoom_row (s : ConsState) (k : Nat) (hi : s.history_index < HISTORY_SIZE)
    (hw : s.word_index + k ≤ INPUT_BUF_SIZE) : histRoom s k := by
  intro i hik
  simp only [hidx, HISTORY_SIZE, INPUT_BUF_SIZE] at *
  omega

theorem read_step (env : Env) (target n : Nat) (s : ConsState) (hne : s.r ≠ s.w)
    (hD : s.buf (s.r % INPUT_BUF_SIZE) ≠ C 'D') (hN : s.buf (s.r % INPUT_BUF_SIZE) ≠ NEWLINE)
    (hc : env.copyout (target - (n + 1)) = true) (hin : histRoom s 1) :
    consoleread_loop env target (n + 1) s =
      ⟨(consoleread_loop env target n (deliver s (s.buf (s.r % INPUT_BUF_SIZE)))).st,
        s.buf (s.r % INPUT_BUF_SIZE) ::
          (consoleread_loop env target n (deliver s (s.buf (s.r % INPUT_BUF_SIZE)))).out,
        (consoleread_loop env target n (deliver s (s.buf (s.r % INPUT_BUF_SIZE)))).res⟩ := by
  have hin1 := histRoom_one s 0 hin
  simp [consoleread_loop, hne, hD, hN, hc, hin1, deliver]

theorem read_newline (env : Env) (target n : Nat) (s : ConsState) (hne : s.r ≠ s.w)
    (hN : s.buf (s.r % INPUT_BUF_SIZE) = NEWLINE)
    (hc : env.copyout (target - (n + 1)) = true) (hin : histRoom s 1) :
    consoleread_loop env target (n + 1) s =
      ⟨endLine (deliver s NEWLINE), [NEWLINE], .ret ((target : Int) - (n : Nat))⟩ := by
  have hin1 := histRoom_one s 0 hin
  simp [consoleread_loop, hne, hN, hc, hin1, deliver, endLine, NEWLINE, C_D]

/-- A byte that is not Ctrl-D is copied out, and the store into `history_buf`
that follows would leave the array: the run ends with `fault`. -/
theorem read_fault (env : Env) (target n : Nat) (s : ConsState) (hne : s.r ≠ s.w)
    (hD : s.buf (s.r % INPUT_BUF_SIZE) ≠ C 'D')
    (hc : env.copyout (target - (n + 1)) = true)
    (hout : HISTORY_SIZE * INPUT_BUF_SIZE ≤ hidx s.history_index s.word_index) :
    consoleread_loop env target (n + 1) s =
      ⟨{ s with r := uadd s.r 1 }, [s.buf (s.r % INPUT_BUF_SIZE)], .fault⟩ := by
  simp [consoleread_loop, hne, hD, hc, hout]

theorem read_ctrlD_first (env : Env) (target n : Nat) (s : ConsState) (hne : s.r ≠ s.w)
    (hD : s.buf (s.r % INPUT_BUF_SIZE) = C 'D') (hn : ¬ n + 1 < target) :
    consoleread_loop env target (n + 1) s =
      ⟨{ s with r := uadd s.r 1 }, [], .ret ((target : Int) - (n + 1 : Nat))⟩ := by
  simp [consoleread_loop, hne, hD, hn]

theorem read_ctrlD_later (env : Env) (target n : Nat) (s : ConsState) (hne : s.r ≠ s.w)
    (hD : s.buf (s.r % INPUT_BUF_SIZE) = C 'D') (hn : n + 1 < target) :
    consoleread_loop env target (n + 1) s =
      ⟨{ s with r := usub (uadd s.r 1) 1 }, [], .ret ((target : Int) - (n + 1 : Nat))⟩ := by
  simp [consoleread_loop, hne, hD, hn]

theorem read_copyfail (env : Env) (target n : Nat) (s : ConsState) (hne : s.r ≠ s.w)
    (hD : s.buf (s.r % INPUT_BUF_SIZE) ≠ C 'D')
    (hc : env.copyout (target - (n + 1)) = false) :
    consoleread_loop env target (n + 1) s =
      ⟨{ s with r := uadd s.r 1 }, [], .ret ((target : Int) - (n + 1 : Nat))⟩ := by
  simp [consoleread_loop, hne, hD, hc]

/-! ## Delivering a run of data bytes -/

theorem Queue_head (s : ConsState) (c : Nat) (q : List Nat) (h : Queue s (c :: q)) :
    s.buf (s.r % INPUT_BUF_SIZE) = c := by
  have := h.2.2.2
  simp only [List.length_cons, window] at this
  exact (List.cons.inj this).1

theorem Queue_deliver (s : ConsState) (c c1 : Nat) (q : List Nat) (h : Queue s (c :: q)) :
    Queue (deliver s c1) q := by
  obtain ⟨hs, hd, hl, hw⟩ := h
  simp only [List.length_cons] at hd hl
  refine ⟨⟨uadd_lt s.r 1, hs.2.1, hs.2.2⟩, usub_succ_right s.e s.r q.length hs.1 hd, by omega, ?_⟩
  simp only [List.length_cons, window] at hw
  have h2 := (List.cons.inj hw).2
  rw [← window_congr s.buf q.length (uadd s.r 1) (s.r + 1) (uadd_mod s.r)] at h2
  exact h2

theorem committed_ne (s : ConsState) (hs : uintOK s) (h : 0 < usub s.w s.r) : s.r ≠ s.w := by
  intro he
  rw [he, usub_self s.w hs.2.1] at h
  exact Nat.lt_irrefl 0 h

theorem committed_deliver (s : ConsState) (c : Nat) (hs : uintOK s) (k : Nat)
    (h : usub s.w s.r = k + 1) : usub (deliver s c).w (deliver s c).r = k :=
  usub_succ_right s.w s.r k hs.1 h

/-- The loop of `consoleread` delivers a run `xs` of committed bytes that contains
neither Ctrl-D nor a newline, and goes on with the budget that is left. -/
theorem read_data (env : Env) (target : Nat) (xs : List Nat) :
    ∀ (s : ConsState) (n : Nat) (rest : List Nat), Queue s (xs ++ rest) →
      xs.length ≤ usub s.w s.r → (∀ c ∈ xs, c ≠ C 'D' ∧ c ≠ NEWLINE) →
      (∀ k, target - (xs.length + n) ≤ k → k < target - n → env.copyout k = true) →
      xs.length + n ≤ target → histRoom s xs.length →
      consoleread_loop env target (xs.length + n) s =
        ⟨(consoleread_loop env target n (xs.foldl deliver s)).st,
          xs ++ (consoleread_loop env target n (xs.foldl deliver s)).out,
          (consoleread_loop env target n (xs.foldl deliver s)).res⟩ := by
  induction xs with
  | nil => intro s n rest _ _ _ _ _ _; simp
  | cons c cs ih =>
    intro s n rest hq hw hx hcopy ht hin
    simp only [List.length_cons] at hw hcopy ht hin
    simp only [List.cons_append] at hq
    have hc := Queue_head s c (cs ++ rest) hq
    have hne := committed_ne s hq.1 (by omega)
    have hcx := hx c (List.mem_cons_self c cs)
    obtain ⟨k, hk⟩ : ∃ k, usub s.w s.r = k + 1 := ⟨usub s.w s.r - 1, by omega⟩
    rw [show (c :: cs).length + n = (cs.length + n) + 1 by simp only [List.length_cons]; omega]
    rw [read_step env target (cs.length + n) s hne (by rw [hc]; exact hcx.1)
      (by rw [hc]; exact hcx.2) (hcopy _ (by omega) (by omega))
      (histRoom_mono s 1 _ (by omega) hin)]
    rw [hc]
    rw [ih (deliver s c) n rest (Queue_deliver s c c (cs ++ rest) hq)
      (by rw [committed_deliver s c hq.1 k hk]; omega)
      (fun x hx1 => hx x (List.mem_cons_of_mem c hx1))
      (fun j h1 h2 => hcopy j (by omega) h2) (by omega) (histRoom_deliver s c _ hin)]
    simp

theorem foldl_deliver_frame (xs : List Nat) : ∀ s : ConsState,
    (xs.foldl deliver s).buf = s.buf ∧ (xs.foldl deliver s).w = s.w ∧
    (xs.foldl deliver s).e = s.e ∧
    (xs.foldl deliver s).history_index = s.history_index ∧
    (xs.foldl deliver s).history_count = s.history_count ∧
    (xs.foldl deliver s).word_index = s.word_index + xs.length ∧
    (xs.foldl deliver s).history_buf
      = storeList s.history_buf (hidx s.history_index s.word_index) xs := by
  induction xs with
  | nil => intro s; exact ⟨rfl, rfl, rfl, rfl, rfl, rfl, rfl⟩
  | cons c cs ih =>
    intro s
    simp only [List.foldl_cons, List.length_cons]
    obtain ⟨h1, h2, h3, h4, h5, h6, h7⟩ := ih (deliver s c)
    refine ⟨h1, h2, h3, h4, h5, ?_, ?_⟩
    · rw [h6]; simp only [deliver]; omega
    · rw [h7]; simp only [deliver, storeList, hidx]; rfl

theorem histRoom_foldl_deliver (xs : List Nat) : ∀ (s : ConsState) (k : Nat),
    histRoom s (xs.length + k) → histRoom (xs.foldl deliver s) k := by
  induction xs with
  | nil => intro s k h; simpa using h
  | cons c cs ih =>
    intro s k h
    simp only [List.length_cons] at h
    simp only [List.foldl_cons]
    exact ih (deliver s c) k (histRoom_deliver s c _ (by
      rw [show cs.length + k + 1 = cs.length + 1 + k by omega]; exact h))

theorem Queue_foldl_deliver (xs : List Nat) : ∀ (s : ConsState) (rest : List Nat),
    Queue s (xs ++ rest) → Queue (xs.foldl deliver s) rest := by
  induction xs with
  | nil => intro s rest h; simpa using h
  | cons c cs ih =>
    intro s rest h
    simp only [List.cons_append] at h
    exact ih (deliver s c) rest (Queue_deliver s c c (cs ++ rest) h)

theorem committed_foldl_deliver (xs : List Nat) : ∀ (s : ConsState), uintOK s →
    xs.length ≤ usub s.w s.r →
    usub (xs.foldl deliver s).w (xs.foldl deliver s).r + xs.length = usub s.w s.r := by
  induction xs with
  | nil => intro s _ _; rfl
  | cons c cs ih =>
    intro s hs h
    simp only [List.length_cons] at h
    obtain ⟨k, hk⟩ : ∃ k, usub s.w s.r = k + 1 := ⟨usub s.w s.r - 1, by omega⟩
    have h1 := committed_deliver s c hs k hk
    have h2 := ih (deliver s c) ⟨uadd_lt s.r 1, hs.2.1, hs.2.2⟩ (by rw [h1]; omega)
    simp only [List.foldl_cons, List.length_cons]
    omega

/-- A whole committed line `xs ++ "\n"` at the head of the queue is delivered by
one `consoleread` whose budget covers it. -/
theorem read_line (env : Env) (xs : List Nat) (s : ConsState) (m : Nat) (rest : List Nat)
    (hq : Queue s (xs ++ NEWLINE :: rest)) (hw : xs.length + 1 ≤ usub s.w s.r)
    (hx : ∀ c ∈ xs, c ≠ C 'D' ∧ c ≠ NEWLINE) (hcopy : copyOK env (xs.length + 1))
    (hin : histRoom s (xs.length + 1)) :
    consoleread_loop env (xs.length + 1 + m) (xs.length + 1 + m) s =
      ⟨endLine (deliver (xs.foldl deliver s) NEWLINE), xs ++ [NEWLINE],
        .ret ((xs.length + 1 : Nat) : Int)⟩ := by
  have hq1 := Queue_foldl_deliver xs s (NEWLINE :: rest) hq
  have hc1 := committed_foldl_deliver xs s hq.1 (by omega)
  have hne := committed_ne (xs.foldl deliver s) hq1.1 (by omega)
  have hhead := Queue_head _ _ _ hq1
  have e1 : consoleread_loop env (xs.length + 1 + m) (xs.length + 1 + m) s
      = consoleread_loop env (xs.length + 1 + m) (xs.length + (m + 1)) s := by
    rw [show xs.length + (m + 1) = xs.length + 1 + m by omega]
  rw [e1, read_data env (xs.length + 1 + m) xs s (m + 1) (NEWLINE :: rest) hq (by omega) hx
    (fun k _ h2 => hcopy k (by omega)) (by omega) (histRoom_mono s _ _ (by omega) hin)]
  rw [read_newline env (xs.length + 1 + m) m (xs.foldl deliver s) hne hhead
    (hcopy _ (by omega)) (histRoom_foldl_deliver xs s 1 hin)]
  have e2 : ((xs.length + 1 + m : Nat) : Int) - (m : Nat) = ((xs.length + 1 : Nat) : Int) := by
    push_cast; omega
  rw [e2]

theorem ordinary_data (c : Nat) (h : ordinary c) : c ≠ C 'D' ∧ c ≠ NEWLINE :=
  ⟨h.2.2.2.2.1, h.2.2.1⟩

theorem feed_singleton (s : ConsState) (c : Nat) :
    feed s [c] = ((consoleintr s c).1, (consoleintr s c).2) := by
  simp [feed]

theorem Int_toNat_split (n : Int) (k : Nat) (h : (k : Int) ≤ n) :
    ∃ m : Nat, n.toNat = k + m := by
  refine ⟨n.toNat - k, ?_⟩
  omega

/-- State after the editing session `xs, b, DEL, ys, newline`. -/
theorem edit_session (s : ConsState) (xs ys : List Nat) (b : Nat)
    (hs : uintOK s) (hempty : emptyQueue s)
    (hxs : ∀ c ∈ xs, ordinary c) (hb : ordinary b) (hys : ∀ c ∈ ys, ordinary c)
    (hlen : xs.length + 1 + ys.length + 1 ≤ 128) :
    Committed (feed s (xs ++ [b, DEL] ++ ys ++ [NEWLINE])).1 (xs ++ ys ++ [NEWLINE]) := by
  have q0 : Queue s [] := Queue_empty s hs (hempty.1.trans hempty.2)
  have hxb : ∀ c ∈ xs ++ [b], ordinary c := by
    intro c hc
    rcases List.mem_append.1 hc with h | h
    · exact hxs c h
    · rw [List.mem_singleton.1 h]; exact hb
  obtain ⟨q1, -, r1, w1, -⟩ := feed_ordinary_Queue (xs ++ [b]) s [] q0 hxb
    (by simp only [List.length_nil, List.length_append, List.length_singleton]; omega)
  simp only [List.nil_append] at q1
  have hw1 : usub (feed s (xs ++ [b])).1.w (feed s (xs ++ [b])).1.r ≤ xs.length := by
    rw [r1, w1, hempty.1, usub_self s.w hs.2.1]; omega
  obtain ⟨q2, -, -⟩ := intr_del_Queue (feed s (xs ++ [b])).1 xs b q1 hw1
  obtain ⟨q3, -, -⟩ := feed_ordinary_Queue ys (consoleintr (feed s (xs ++ [b])).1 DEL).1 xs q2 hys
    (by omega)
  obtain ⟨q4, -, -, w4, -⟩ := intr_newline_Queue
    (feed (consoleintr (feed s (xs ++ [b])).1 DEL).1 ys).1 (xs ++ ys) q3
    (by simp only [List.length_append]; omega)
  have e : feed s (xs ++ [b, DEL] ++ ys ++ [NEWLINE]) =
      feed s ((xs ++ [b]) ++ ([DEL] ++ (ys ++ [NEWLINE]))) := by simp
  rw [e]
  simp only [feed_append, feed_singleton] at q4 w4 ⊢
  exact ⟨q4, w4⟩

/-- Reading back a queue that holds exactly one committed line. -/
theorem read_committed_line (env : Env) (s : ConsState) (xs : List Nat) (n : Int)
    (h : Committed s (xs ++ [NEWLINE])) (hx : ∀ c ∈ xs, ordinary c)
    (hn : ((xs.length + 1 : Nat) : Int) ≤ n) (hcopy : copyOK env (xs.length + 1))
    (hin : histRoom s (xs.length + 1)) :
    (consoleread env s n).res = .ret ((xs.length + 1 : Nat) : Int) ∧
      (consoleread env s n).out = xs ++ [NEWLINE] := by
  obtain ⟨m, hm⟩ := Int_toNat_split n (xs.length + 1) hn
  have hw : xs.length + 1 ≤ usub s.w s.r := by
    rw [h.2, h.1.2.1]; simp
  simp only [consoleread, hm]
  rw [read_line env xs s m [] h.1 hw (fun c hc => ordinary_data c (hx c hc)) hcopy hin]
  exact ⟨rfl, rfl⟩

/-! ## Whole lines -/

theorem storeList_append (xs ys : List Nat) : ∀ (a : Nat → Nat) (base : Nat),
    storeList a base (xs ++ ys) = storeList (storeList a base xs) (base + xs.length) ys := by
  induction xs with
  | nil => intro a base; rfl
  | cons c cs ih =>
    intro a base
    rw [List.cons_append]
    simp only [storeList, List.length_cons]
    rw [ih, show base + 1 + cs.length = base + (cs.length + 1) by omega]

theorem storeList_below (xs : List Nat) : ∀ (a : Nat → Nat) (base j : Nat), j < base →
    storeList a base xs j = a j := by
  induction xs with
  | nil => intro a base j _; rfl
  | cons c cs ih =>
    intro a base j hj
    simp only [storeList]
    rw [ih _ _ _ (by omega)]
    simp only [store]
    rw [if_neg (by omega)]

theorem storeList_above (xs : List Nat) : ∀ (a : Nat → Nat) (base j : Nat),
    base + xs.length ≤ j → storeList a base xs j = a j := by
  induction xs with
  | nil => intro a base j _; rfl
  | cons c cs ih =>
    intro a base j hj
    simp only [List.length_cons] at hj
    simp only [storeList]
    rw [ih _ _ _ (by omega)]
    simp only [store]
    rw [if_neg (by omega)]

theorem storeList_at (xs : List Nat) : ∀ (a : Nat → Nat) (base i : Nat) (hi : i < xs.length),
    storeList a base xs (base + i) = xs.get ⟨i, hi⟩ := by
  induction xs with
  | nil => intro a base i hi; exact absurd hi (Nat.not_lt_zero i)
  | cons c cs ih =>
    intro a base i hi
    simp only [storeList]
    cases i with
    | zero =>
      rw [storeList_below _ _ _ _ (by omega)]
      simp [store]
    | succ k =>
      simp only [List.length_cons] at hi
      rw [show base + (k + 1) = base + 1 + k by omega, ih _ _ k (by omega)]
      rfl

/-- Feeding one line to a queue whose content is committed. -/
theorem feed_line (s : ConsState) (q l : List Nat) (h : Committed s q)
    (hl : ∀ c ∈ l, ordinary c) (hlen : q.length + l.length + 1 ≤ 128) :
    Committed (feed s (l ++ [NEWLINE])).1 (q ++ (l ++ [NEWLINE])) ∧
      (feed s (l ++ [NEWLINE])).1.r = s.r ∧
      (feed s (l ++ [NEWLINE])).1.history_buf = s.history_buf ∧
      (feed s (l ++ [NEWLINE])).1.history_index = s.history_index ∧
      (feed s (l ++ [NEWLINE])).1.history_count = s.history_count ∧
      (feed s (l ++ [NEWLINE])).1.word_index = s.word_index := by
  obtain ⟨q1, -, r1, -, a1, a2, a3, a4⟩ := feed_ordinary_Queue l s q h.1 hl (by omega)
  obtain ⟨q2, -, r2, w2, b1, b2, b3, b4⟩ := intr_newline_Queue (feed s l).1 (q ++ l) q1
    (by simp only [List.length_append]; omega)
  simp only [feed_append, feed_singleton]
  refine ⟨⟨by simpa using q2, w2⟩, r2.trans r1, b1.trans a1, b2.trans a2, b3.trans a3,
    b4.trans a4⟩

theorem feed_lines (lines : List (List Nat)) : ∀ (s : ConsState) (q : List Nat),
    Committed s q → (∀ l ∈ lines, ∀ c ∈ l, ordinary c) →
    q.length + (joinLines lines).length ≤ 128 →
    Committed (feed s (joinLines lines)).1 (q ++ joinLines lines) := by
  induction lines with
  | nil => intro s q h _ _; simpa [joinLines, feed] using h
  | cons l ls ih =>
    intro s q h hord hlen
    simp only [joinLines, List.length_append, List.length_singleton] at hlen
    obtain ⟨h1, -⟩ := feed_line s q l h (hord l (List.mem_cons_self l ls)) (by omega)
    have h2 := ih (feed s (l ++ [NEWLINE])).1 (q ++ (l ++ [NEWLINE])) h1
      (fun l1 hl1 => hord l1 (List.mem_cons_of_mem l hl1))
      (by simp only [List.length_append, List.length_singleton]; omega)
    simp only [joinLines, feed_append] at h2 ⊢
    simpa using h2

theorem Committed_lineDelivered (s : ConsState) (l rest : List Nat)
    (h : Committed s (l ++ NEWLINE :: rest)) : Committed (lineDelivered s l) rest := by
  have q1 := Queue_deliver _ NEWLINE NEWLINE rest
    (Queue_foldl_deliver l s (NEWLINE :: rest) h.1)
  obtain ⟨-, f2, f3, -⟩ := foldl_deliver_frame l s
  refine ⟨q1, ?_⟩
  show (l.foldl deliver s).w = (l.foldl deliver s).e
  rw [f2, f3]
  exact h.2

theorem lineDelivered_history (s : ConsState) (l : List Nat) :
    (lineDelivered s l).history_buf
        = storeList s.history_buf (hidx s.history_index s.word_index) (l ++ [NEWLINE]) ∧
      (lineDelivered s l).history_index = (s.history_index + 1) % HISTORY_SIZE ∧
      (lineDelivered s l).history_count
        = (if s.history_count < HISTORY_SIZE then s.history_count + 1 else s.history_count) ∧
      (lineDelivered s l).word_index = 0 := by
  obtain ⟨-, -, -, f4, f5, f6, f7⟩ := foldl_deliver_frame l s
  refine ⟨?_, ?_, ?_, rfl⟩
  · show store (l.foldl deliver s).history_buf
      (hidx (l.foldl deliver s).history_index (l.foldl deliver s).word_index) NEWLINE = _
    rw [f7, f4, f6, storeList_append]
    simp only [storeList, hidx]
    rw [Nat.add_assoc]
  · show ((l.foldl deliver s).history_index + 1) % HISTORY_SIZE = _
    rw [f4]
  · show (if (l.foldl deliver s).history_count < HISTORY_SIZE
      then (l.foldl deliver s).history_count + 1 else (l.foldl deliver s).history_count) = _
    rw [f5]

theorem histRoom_lineDelivered (s : ConsState) (l : List Nat) (k : Nat)
    (hk : k ≤ INPUT_BUF_SIZE) : histRoom (lineDelivered s l) k := by
  obtain ⟨-, h2, -, h4⟩ := lineDelivered_history s l
  refine histRoom_row _ k ?_ (by rw [h4]; omega)
  rw [h2]
  exact Nat.mod_lt _ (by decide)

/-- Reading the first line of a committed queue: the call returns the line and
its length, and leaves the rest of the queue committed. -/
theorem read_first_line (env : Env) (s : ConsState) (l rest : List Nat) (n : Int)
    (h : Committed s (l ++ NEWLINE :: rest)) (hx : ∀ c ∈ l, ordinary c)
    (hn : ((l.length + 1 : Nat) : Int) ≤ n) (hcopy : copyOK env (l.length + 1))
    (hin : histRoom s (l.length + 1)) :
    consoleread env s n
      = ⟨lineDelivered s l, l ++ [NEWLINE], .ret ((l.length + 1 : Nat) : Int)⟩ := by
  obtain ⟨m, hm⟩ := Int_toNat_split n (l.length + 1) hn
  have hw : l.length + 1 ≤ usub s.w s.r := by
    rw [h.2, h.1.2.1]; simp
  simp only [consoleread, hm]
  rw [read_line env l s m rest h.1 hw (fun c hc => ordinary_data c (hx c hc)) hcopy hin]
  rfl

theorem read_lines (lines : List (List Nat)) : ∀ (s : ConsState) (calls : List (Env × Int)),
    Committed s (joinLines lines) → (∀ l ∈ lines, ∀ c ∈ l, ordinary c) →
    List.Forall₂ (fun l (call : Env × Int) =>
      ((l.length + 1 : Nat) : Int) ≤ call.2 ∧ copyOK call.1 (l.length + 1)) lines calls →
    (∀ l, lines.head? = some l → histRoom s (l.length + 1)) →
    (readAll s calls).2
      = lines.map (fun l => (l ++ [NEWLINE], Outcome.ret ((l.length + 1 : Nat) : Int))) := by
  induction lines with
  | nil =>
    intro s calls _ _ hc _
    cases hc
    rfl
  | cons l ls ih =>
    intro s calls h hord hc hin
    cases hc with
    | cons hcall hrest =>
      rename_i call calls1
      have h1 : Committed s (l ++ NEWLINE :: joinLines ls) := by
        simpa [joinLines] using h
      have e := read_first_line call.1 s l (joinLines ls) call.2 h1
        (hord l (List.mem_cons_self l ls)) hcall.1 hcall.2 (hin l rfl)
      have h2 := Committed_lineDelivered s l (joinLines ls) h1
      simp only [readAll, e, List.map_cons]
      rw [ih (lineDelivered s l) calls1 h2
        (fun l1 hl1 => hord l1 (List.mem_cons_of_mem l hl1)) hrest
        (fun l1 hl1 => histRoom_lineDelivered s l _ (by
          have hq := h2.1.2.2.1
          cases ls with
          | nil => simp at hl1
          | cons l2 ls2 =>
            simp only [List.head?_cons, Option.some.injEq] at hl1
            subst hl1
            simp only [joinLines, List.length_append, List.length_singleton] at hq
            simp only [INPUT_BUF_SIZE]
            omega))]

theorem joinLines_not_nav (lines : List (List Nat)) (hord : ∀ l ∈ lines, ∀ c ∈ l, ordinary c) :
    ∀ c ∈ joinLines lines, c ≠ C 'W' ∧ c ≠ C 'S' := by
  induction lines with
  | nil => intro c hc; simp [joinLines] at hc
  | cons l ls ih =>
    intro c hc
    simp only [joinLines, List.mem_append, List.mem_singleton] at hc
    rcases hc with (h2 | h2) | h2
    · exact ordinary_not_nav c (hord l (List.mem_cons_self l ls) c h2)
    · rw [h2]; decide
    · exact ih (fun l1 hl1 => hord l1 (List.mem_cons_of_mem l hl1)) c h2

/-! ## C1: line editing followed by a read -/

/-- C1. From an empty queue, feeding `xs`, `b`, DEL, `ys`, newline (all of `xs`, `b`,
`ys` ordinary bytes, at most 128 bytes in all) to `consoleintr` and then calling
`consoleread` with a budget of at least `|xs| + |ys| + 1` returns `|xs| + |ys| + 1`
and delivers exactly `xs ++ ys ++ "\n"`: the erased byte `b` is not delivered.
The start state is one in which the `|xs| + |ys| + 1` stores of the read into
`history_buf` stay inside the array (`histRoom`); without that the read
overruns the array and its behaviour is undefined. -/
theorem C1_edit_then_read (env : Env) (s : ConsState) (xs ys : List Nat) (b : Nat) (n : Int)
    (hs : uintOK s) (hempty : emptyQueue s)
    (hxs : ∀ c ∈ xs, ordinary c) (hb : ordinary b) (hys : ∀ c ∈ ys, ordinary c)
    (hlen : xs.length + 1 + ys.length + 1 ≤ 128)
    (hn : ((xs.length + ys.length + 1 : Nat) : Int) ≤ n)
    (hcopy : copyOK env (xs.length + ys.length + 1))
    (hroom : histRoom s (xs.length + ys.length + 1)) :
    (consoleread env (feed s (xs ++ [b, DEL] ++ ys ++ [NEWLINE])).1 n).res
        = .ret ((xs.length + ys.length + 1 : Nat) : Int) ∧
      (consoleread env (feed s (xs ++ [b, DEL] ++ ys ++ [NEWLINE])).1 n).out
        = xs ++ ys ++ [NEWLINE] := by
  have h := edit_session s xs ys b hs hempty hxs hb hys hlen
  have hxy : ∀ c ∈ xs ++ ys, ordinary c := by
    intro c hc
    rcases List.mem_append.1 hc with h1 | h1
    · exact hxs c h1
    · exact hys c h1
  obtain ⟨-, f2, -, f4⟩ := feed_history_frame (xs ++ [b, DEL] ++ ys ++ [NEWLINE]) s (by
    intro c hc
    simp only [List.mem_append, List.mem_cons, List.mem_singleton, List.not_mem_nil,
      or_false] at hc
    rcases hc with ((h1 | h1 | h1) | h1) | h1
    · exact ordinary_not_nav c (hxs c h1)
    · rw [h1]; exact ordinary_not_nav b hb
    · rw [h1]; decide
    · exact ordinary_not_nav c (hys c h1)
    · rw [h1]; decide)
  have := read_committed_line env (feed s (xs ++ [b, DEL] ++ ys ++ [NEWLINE])).1 (xs ++ ys) n h
    hxy (by simpa using hn) (by simpa using hcopy)
    (histRoom_congr s _ _ f2 f4 (by simpa using hroom))
  simpa using this

/-- C1, the scenario of the specification: `a`, `b`, DEL, space, `c`, newline, then a
read of 10 bytes returns the 4 bytes `"a c\n"`. -/
theorem C1_witness :
    (consoleread quietEnv (feed init ([97] ++ [98, DEL] ++ [32, 99] ++ [NEWLINE])).1 10).res
        = .ret 4 ∧
      (consoleread quietEnv (feed init ([97] ++ [98, DEL] ++ [32, 99] ++ [NEWLINE])).1 10).out
        = [97, 32, 99, 10] :=
  C1_edit_then_read quietEnv init [97] [32, 99] 98 10 (by decide) (by decide) (by decide)
    (by decide) (by decide) (by decide) (by decide) (fun _ _ => rfl) (by decide)

/-! ## C2: FIFO delivery of committed lines -/

/-- C2. From an empty queue, feeding `k` lines of ordinary bytes, each ended by a
newline and at most 128 bytes in all, and then calling `consoleread` `k` times,
each call with a budget that covers its line and without copy failure, delivers
the `k` lines in the order they were committed, one line per call, each call
returning the length of its line. The start state is one in which the stores of
the first line into `history_buf` stay inside the array (`histRoom`); the
later lines start a fresh slot and always fit. -/
theorem C2_fifo (s : ConsState) (lines : List (List Nat)) (calls : List (Env × Int))
    (hs : uintOK s) (hempty : emptyQueue s)
    (hord : ∀ l ∈ lines, ∀ c ∈ l, ordinary c)
    (hlen : (joinLines lines).length ≤ 128)
    (hcalls : List.Forall₂ (fun l (call : Env × Int) =>
      ((l.length + 1 : Nat) : Int) ≤ call.2 ∧ copyOK call.1 (l.length + 1)) lines calls)
    (hroom : ∀ l, lines.head? = some l → histRoom s (l.length + 1)) :
    (readAll (feed s (joinLines lines)).1 calls).2
      = lines.map (fun l => (l ++ [NEWLINE], Outcome.ret ((l.length + 1 : Nat) : Int))) := by
  have h0 : Committed s [] := ⟨Queue_empty s hs (hempty.1.trans hempty.2), hempty.2⟩
  have h1 := feed_lines lines s [] h0 hord (by simpa using hlen)
  obtain ⟨-, f2, -, f4⟩ := feed_history_frame (joinLines lines) s
    (joinLines_not_nav lines hord)
  exact read_lines lines _ calls (by simpa using h1) hord hcalls
    (fun l hl => histRoom_congr s _ _ f2 f4 (hroom l hl))

/-- C2 on the lines `"ab"`, `""` and `"c"`: three reads return `"ab\n"`, `"\n"`, `"c\n"`. -/
theorem C2_witness :
    (readAll (feed init (joinLines [[97, 98], [], [99]])).1
        [(quietEnv, 10), (quietEnv, 1), (quietEnv, 2)]).2
      = [([97, 98, 10], .ret 3), ([10], .ret 1), ([99, 10], .ret 2)] :=
  C2_fifo init [[97, 98], [], [99]] [(quietEnv, 10), (quietEnv, 1), (quietEnv, 2)]
    (by decide) (by decide) (by decide) (by decide)
    (.cons ⟨by decide, fun _ _ => rfl⟩ (.cons ⟨by decide, fun _ _ => rfl⟩
      (.cons ⟨by decide, fun _ _ => rfl⟩ .nil)))
    (by decide)

/-! ## C3: the cursor invariant -/

theorem inv3_iff (s : ConsState) : uintOK s ∧ cursorInv s ↔ inv3 s.r s.w s.e := by
  simp only [uintOK, cursorInv, inv3, and_assoc]

theorem inv3_dec_e (r w e : Nat) (h : inv3 r w e) (hne : e ≠ w) : inv3 r w (usub e 1) := by
  simp only [inv3, usub, UINT_MOD, INPUT_BUF_SIZE] at *
  omega

theorem inv3_inc_e (r w e : Nat) (h : inv3 r w e) (hroom : usub e r < INPUT_BUF_SIZE) :
    inv3 r w (uadd e 1) ∧ inv3 r (uadd e 1) (uadd e 1) := by
  simp only [inv3, usub, uadd, UINT_MOD, INPUT_BUF_SIZE] at *
  omega

theorem inv3_inc_r (r w e : Nat) (h : inv3 r w e) (hne : r ≠ w) : inv3 (uadd r 1) w e := by
  simp only [inv3, usub, uadd, UINT_MOD, INPUT_BUF_SIZE] at *
  omega

theorem inv3_killLoop (k : Nat) : ∀ s : ConsState, inv3 s.r s.w s.e →
    inv3 (killLoop k s).1.r (killLoop k s).1.w (killLoop k s).1.e := by
  induction k with
  | zero => intro s h; exact h
  | succ k ih =>
    intro s h
    simp only [killLoop]
    split
    · rename_i hc
      exact ih _ (inv3_dec_e s.r s.w s.e h hc.1)
    · exact h

theorem inv3_consoleintr (s : ConsState) (c : Nat) (h : inv3 s.r s.w s.e) :
    inv3 (consoleintr s c).1.r (consoleintr s c).1.w (consoleintr s c).1.e := by
  have hk := inv3_killLoop (usub s.e s.w) s h
  by_cases hacc : c ≠ 0 ∧ usub s.e s.r < INPUT_BUF_SIZE
  · have hi := inv3_inc_e s.r s.w s.e h hacc.2
    unfold consoleintr
    simp only []
    split_ifs <;>
      first
      | exact h
      | exact hk
      | exact hi.1
      | exact hi.2
      | exact inv3_dec_e s.r s.w s.e h (by assumption)
  · unfold consoleintr
    simp only []
    split_ifs <;>
      first
      | exact h
      | exact hk
      | exact inv3_dec_e s.r s.w s.e h (by assumption)

theorem inv3_consoleread_loop (env : Env) (target n : Nat) : ∀ s : ConsState,
    inv3 s.r s.w s.e →
    inv3 (consoleread_loop env target n s).st.r (consoleread_loop env target n s).st.w
      (consoleread_loop env target n s).st.e := by
  induction n with
  | zero => intro s h; exact h
  | succ n ih =>
    intro s h
    simp only [consoleread_loop]
    have hback : inv3 (usub (uadd s.r 1) 1) s.w s.e := by
      rw [usub_uadd_cancel s.r h.1]
      exact h
    split_ifs <;>
      first
      | exact h
      | exact hback
      | exact inv3_inc_r s.r s.w s.e h (by assumption)
      | exact ih (deliver s (s.buf (s.r % INPUT_BUF_SIZE)))
          (inv3_inc_r s.r s.w s.e h (by assumption))

/-- C3. The cursor invariant `committed - consumed ≤ edited - consumed ≤ 128` (in
`uint` arithmetic) holds in the initial state, is preserved by `consoleintr` for
every input byte, and is preserved by `consoleread` for every budget and every
way the run ends (return, with or without a copy failure, killed, or going to
sleep), also when the loop is resumed after a wake-up. The runs of `consoleread`
covered are those that make no store outside `history_buf` (outcome other than
`fault`); after such a store the behaviour of the program is undefined. -/
theorem C3_cursor_invariant :
    (uintOK init ∧ cursorInv init) ∧
    (∀ (s : ConsState) (c : Nat), uintOK s ∧ cursorInv s →
      uintOK (consoleintr s c).1 ∧ cursorInv (consoleintr s c).1) ∧
    (∀ (env : Env) (s : ConsState) (n : Int), uintOK s ∧ cursorInv s →
      (consoleread env s n).res ≠ .fault →
      uintOK (consoleread env s n).st ∧ cursorInv (consoleread env s n).st) ∧
    (∀ (env : Env) (target n : Nat) (s : ConsState), uintOK s ∧ cursorInv s →
      (consoleread_loop env target n s).res ≠ .fault →
      uintOK (consoleread_loop env target n s).st ∧
        cursorInv (consoleread_loop env target n s).st) := by
  refine ⟨by decide, ?_, ?_, ?_⟩
  · intro s c h
    exact (inv3_iff _).2 (inv3_consoleintr s c ((inv3_iff s).1 h))
  · intro env s n h _
    exact (inv3_iff _).2 (inv3_consoleread_loop env _ _ s ((inv3_iff s).1 h))
  · intro env target n s h _
    exact (inv3_iff _).2 (inv3_consoleread_loop env target n s ((inv3_iff s).1 h))

/-- C3 at queues about to wrap around `2^32`. The cursors `r = 2^32 - 100`,
`w = e = 28` (a full queue) satisfy the invariant, and so does the state after a
dropped byte. The cursors `r = 2^32 - 2`, `w = e = 2` satisfy it, and so does the
state after a read of 200 bytes by a killed caller, which delivers the four
committed bytes without leaving `history_buf` and returns -1. -/
theorem C3_witness :
    (uintOK (consoleintr { init with r := 4294967196, w := 28, e := 28 } 97).1 ∧
      cursorInv (consoleintr { init with r := 4294967196, w := 28, e := 28 } 97).1) ∧
    (uintOK (consoleread ⟨true, fun _ => true⟩
        { init with r := 4294967294, w := 2, e := 2 } 200).st ∧
      cursorInv (consoleread ⟨true, fun _ => true⟩
        { init with r := 4294967294, w := 2, e := 2 } 200).st) :=
  ⟨C3_cursor_invariant.2.1 { init with r := 4294967196, w := 28, e := 28 } 97 (by decide),
    C3_cursor_invariant.2.2.1 ⟨true, fun _ => true⟩
      { init with r := 4294967294, w := 2, e := 2 } 200 (by decide) (by decide)⟩

/-! ## C4: overflow drops, never overwrites -/

/-- Feeding ordinary bytes that fill the queue exactly commits all of it. -/
theorem feed_fill (xs : List Nat) : ∀ (s : ConsState) (q : List Nat), Queue s q →
    (∀ c ∈ xs, ordinary c) → xs ≠ [] → q.length + xs.length = 128 →
    Committed (feed s xs).1 (q ++ xs) ∧ (feed s xs).1.r = s.r ∧ (feed s xs).2 = xs := by
  induction xs with
  | nil => intro s q _ _ hne _; exact absurd rfl hne
  | cons c cs ih =>
    intro s q h hord _ hlen
    simp only [List.length_cons] at hlen
    have hc := hord c (List.mem_cons_self c cs)
    by_cases hcs : cs = []
    · subst hcs
      simp only [List.length_nil] at hlen
      rw [feed_singleton, intr_ordinary_full s c hc (by rw [h.2.1]; omega)]
      exact ⟨⟨Queue_set_w _ _ _ (Queue_push s q c h (by omega)) (uadd_lt s.e 1), rfl⟩, rfl, rfl⟩
    · have hpos : 0 < cs.length := List.length_pos.2 hcs
      obtain ⟨h1, h2, h3⟩ := ih (push s c) (q ++ [c]) (Queue_push s q c h (by omega))
        (fun x hx => hord x (List.mem_cons_of_mem c hx)) hcs
        (by simp only [List.length_append, List.length_singleton]; omega)
      simp only [feed]
      rw [intr_ordinary s c hc (by rw [h.2.1]; omega)]
      simp only
      refine ⟨by simpa using h1, h2, ?_⟩
      rw [h3]
      rfl

/-- With 128 bytes in the queue, ordinary bytes are dropped: no effect, no echo. -/
theorem feed_full (ys : List Nat) (s : ConsState) (hfull : usub s.e s.r = 128)
    (hord : ∀ c ∈ ys, ordinary c) : feed s ys = (s, []) := by
  induction ys with
  | nil => rfl
  | cons c cs ih =>
    simp only [feed]
    rw [intr_ordinary_drop s c (hord c (List.mem_cons_self c cs)) (by omega)]
    simp only
    rw [ih (fun x hx => hord x (List.mem_cons_of_mem c hx))]
    rfl

/-- A committed queue without Ctrl-D and newline is read in full by a call whose
budget is exactly its length. -/
theorem read_exact (env : Env) (s : ConsState) (xs : List Nat) (h : Committed s xs)
    (hx : ∀ c ∈ xs, c ≠ C 'D' ∧ c ≠ NEWLINE) (hcopy : copyOK env xs.length)
    (hin : histRoom s xs.length) :
    consoleread env s (xs.length : Nat)
      = ⟨xs.foldl deliver s, xs, .ret ((xs.length : Nat) : Int)⟩ := by
  have hw : xs.length ≤ usub s.w s.r := by rw [h.2, h.1.2.1]
  have e := read_data env xs.length xs s 0 [] (by simpa using h.1) hw hx
    (fun k _ h2 => hcopy k (by omega)) (by omega) hin
  simp only [Nat.add_zero] at e
  simp only [consoleread, Int.toNat_ofNat]
  rw [e, read_zero]
  simp

/-- C4. From an empty queue, feeding 128 ordinary bytes `xs` and then any number
of further ordinary bytes `ys`, with no read in between, leaves the queue holding exactly the
128 bytes `xs`, all committed (`w = e`, `e - r = 128`); the excess bytes change
nothing at all (neither the cursors nor any buffer cell) and are not echoed, every
further ordinary byte is dropped too, and a `consoleread` with budget 128 delivers
exactly `xs`. The statements about `consoleintr` hold for every such start state;
the statement about the read holds when its 128 stores into `history_buf` stay
inside the array (`histRoom`), since a read that overruns the array has no
defined behaviour. -/
theorem C4_overflow_drops (env : Env) (s : ConsState) (xs ys : List Nat)
    (hs : uintOK s) (hempty : emptyQueue s)
    (hxs : ∀ c ∈ xs, ordinary c) (hys : ∀ c ∈ ys, ordinary c)
    (hlen : xs.length = 128) (hcopy : copyOK env 128) :
    (feed s (xs ++ ys)).1 = (feed s xs).1 ∧
    (feed (feed s xs).1 ys).2 = [] ∧
    (∀ c, ordinary c → consoleintr (feed s (xs ++ ys)).1 c = ((feed s (xs ++ ys)).1, [])) ∧
    (feed s (xs ++ ys)).1.r = s.r ∧
    (feed s (xs ++ ys)).1.w = (feed s (xs ++ ys)).1.e ∧
    usub (feed s (xs ++ ys)).1.e (feed s (xs ++ ys)).1.r = 128 ∧
    window (feed s (xs ++ ys)).1.buf s.r 128 = xs ∧
    (histRoom s 128 →
      (consoleread env (feed s (xs ++ ys)).1 128).res = .ret 128 ∧
      (consoleread env (feed s (xs ++ ys)).1 128).out = xs) := by
  have q0 : Queue s [] := Queue_empty s hs (hempty.1.trans hempty.2)
  have hne : xs ≠ [] := by
    intro h0
    rw [h0] at hlen
    exact absurd hlen (by decide)
  obtain ⟨h1, h2, -⟩ := feed_fill xs s [] q0 hxs hne (by simpa using hlen)
  simp only [List.nil_append] at h1
  have hfull : usub (feed s xs).1.e (feed s xs).1.r = 128 := by rw [h1.1.2.1, hlen]
  have hdrop := feed_full ys (feed s xs).1 hfull hys
  have e1 : (feed s (xs ++ ys)).1 = (feed s xs).1 := by rw [feed_append, hdrop]
  have hwin := h1.1.2.2.2
  rw [hlen, h2] at hwin
  obtain ⟨-, f2, -, f4⟩ := feed_history_frame xs s (fun c hc => ordinary_not_nav c (hxs c hc))
  rw [e1]
  refine ⟨rfl, by rw [hdrop], ?_, h2, h1.2, hfull, hwin, ?_⟩
  · intro c hc
    exact intr_ordinary_drop _ c hc (by omega)
  · intro hroom
    have hread := read_exact env (feed s xs).1 xs h1 (fun c hc => ordinary_data c (hxs c hc))
      (by rw [hlen]; exact hcopy) (histRoom_congr s _ _ f2 f4 (by rw [hlen]; exact hroom))
    rw [hlen] at hread
    constructor
    · show (consoleread env (feed s xs).1 ((128 : Nat) : Int)).res = _
      rw [hread]
      rfl
    · show (consoleread env (feed s xs).1 ((128 : Nat) : Int)).out = _
      rw [hread]

/-- C4 for 128 bytes `a` followed by the excess bytes `b`, `c`. -/
theorem C4_witness :
    (feed init (List.replicate 128 97 ++ [98, 99])).1 = (feed init (List.replicate 128 97)).1 ∧
    (consoleread quietEnv (feed init (List.replicate 128 97 ++ [98, 99])).1 128).out
      = List.replicate 128 97 :=
  have h := C4_overflow_drops quietEnv init (List.replicate 128 97) [98, 99] (by decide)
    (by decide) (fun c hc => by rw [List.eq_of_mem_replicate hc]; decide) (by decide)
    (List.length_replicate 128 97) (fun _ _ => rfl)
  ⟨h.1, (h.2.2.2.2.2.2.2 (by decide)).2⟩

/-! ## C5: end-of-file framing -/

/-- Feeding ordinary bytes and then Ctrl-D commits them together with the sentinel. -/
theorem feed_eof (s : ConsState) (q xs : List Nat) (h : Committed s q)
    (hxs : ∀ c ∈ xs, ordinary c) (hlen : q.length + xs.length ≤ 127) :
    Committed (feed s (xs ++ [C 'D'])).1 (q ++ (xs ++ [C 'D'])) ∧
      (feed s (xs ++ [C 'D'])).1.r = s.r ∧
      (feed s (xs ++ [C 'D'])).1.history_buf = s.history_buf ∧
      (feed s (xs ++ [C 'D'])).1.history_index = s.history_index ∧
      (feed s (xs ++ [C 'D'])).1.history_count = s.history_count ∧
      (feed s (xs ++ [C 'D'])).1.word_index = s.word_index := by
  obtain ⟨q1, -, r1, -, a1, a2, a3, a4⟩ := feed_ordinary_Queue xs s q h.1 hxs hlen
  obtain ⟨q2, r2, w2, b1, b2, b3, b4⟩ := intr_ctrlD_Queue (feed s xs).1 (q ++ xs) q1
    (by simp only [List.length_append]; omega)
  simp only [feed_append, feed_singleton]
  exact ⟨⟨by simpa using q2, w2⟩, r2.trans r1, b1.trans a1, b2.trans a2, b3.trans a3,
    b4.trans a4⟩

/-- A read that meets Ctrl-D as its first byte consumes it and returns 0. -/
theorem read_sentinel_first (env : Env) (s : ConsState) (rest : List Nat) (n : Int)
    (h : Committed s (C 'D' :: rest)) (hn : 1 ≤ n) :
    consoleread env s n = ⟨{ s with r := uadd s.r 1 }, [], .ret 0⟩ := by
  obtain ⟨m, hm⟩ := Int_toNat_split n 1 (by simpa using hn)
  have hw : 0 < usub s.w s.r := by
    rw [h.2, h.1.2.1]; simp
  simp only [consoleread, hm]
  rw [show 1 + m = m + 1 by omega,
    read_ctrlD_first env (m + 1) m s (committed_ne s h.1.1 hw) (Queue_head s _ _ h.1)
      (Nat.lt_irrefl _)]
  simp

/-- A read that delivers the data bytes before a Ctrl-D stops in front of it. -/
theorem read_until_sentinel (env : Env) (s : ConsState) (xs rest : List Nat) (n : Int)
    (h : Committed s (xs ++ C 'D' :: rest)) (hne : xs ≠ [])
    (hx : ∀ c ∈ xs, c ≠ C 'D' ∧ c ≠ NEWLINE)
    (hn : ((xs.length : Nat) : Int) ≤ n) (hcopy : copyOK env xs.length)
    (hin : histRoom s xs.length) :
    consoleread env s n = ⟨xs.foldl deliver s, xs, .ret ((xs.length : Nat) : Int)⟩ := by
  obtain ⟨m, hm⟩ := Int_toNat_split n xs.length hn
  have hpos : 0 < xs.length := List.length_pos.2 hne
  have hw : xs.length + 1 ≤ usub s.w s.r := by
    rw [h.2, h.1.2.1]; simp
  simp only [consoleread, hm]
  rw [read_data env (xs.length + m) xs s m (C 'D' :: rest) h.1 (by omega) hx
    (fun k _ h2 => hcopy k (by omega)) (by omega) hin]
  have hq1 := Queue_foldl_deliver xs s (C 'D' :: rest) h.1
  have hc1 := committed_foldl_deliver xs s h.1.1 (by omega)
  cases m with
  | zero =>
    rw [read_zero]
    simp
  | succ j =>
    rw [read_ctrlD_later env (xs.length + (j + 1)) j (xs.foldl deliver s)
      (committed_ne _ hq1.1 (by omega)) (Queue_head _ _ _ hq1) (by omega),
      usub_uadd_cancel _ hq1.1.1]
    have e2 : ((xs.length + (j + 1) : Nat) : Int) - ((j + 1 : Nat) : Int)
        = ((xs.length : Nat) : Int) := by
      push_cast; omega
    rw [e2]
    simp

/-- C5. From an empty queue, feeding `N ≤ 127` ordinary bytes `xs` and then Ctrl-D:
the first `consoleread` (budget at least `N` and at least 1) returns `N` and
delivers exactly `xs`. When `N = 0` it has consumed the sentinel (the queue is
empty again). When `N ≥ 1` the sentinel is left at the head of the queue, and a
second `consoleread` (budget at least 1) returns 0, delivers nothing and consumes
the sentinel. The start state is one in which the `N` stores of the first read
into `history_buf` stay inside the array (`histRoom`, which holds trivially when
`N = 0`); the reads that meet the sentinel first make no store. -/
theorem C5_eof_framing (env1 env2 : Env) (s : ConsState) (xs : List Nat) (n1 n2 : Int)
    (hs : uintOK s) (hempty : emptyQueue s) (hxs : ∀ c ∈ xs, ordinary c)
    (hN : xs.length ≤ 127) (hn1 : ((xs.length : Nat) : Int) ≤ n1) (hn1p : 1 ≤ n1)
    (hn2 : 1 ≤ n2) (hcopy : copyOK env1 xs.length)
    (hroom : histRoom s xs.length) :
    (consoleread env1 (feed s (xs ++ [C 'D'])).1 n1).res = .ret ((xs.length : Nat) : Int) ∧
    (consoleread env1 (feed s (xs ++ [C 'D'])).1 n1).out = xs ∧
    (xs = [] →
      (consoleread env1 (feed s (xs ++ [C 'D'])).1 n1).st.r = uadd s.r 1 ∧
      emptyQueue (consoleread env1 (feed s (xs ++ [C 'D'])).1 n1).st) ∧
    (xs ≠ [] →
      Committed (consoleread env1 (feed s (xs ++ [C 'D'])).1 n1).st [C 'D'] ∧
      (consoleread env2 (consoleread env1 (feed s (xs ++ [C 'D'])).1 n1).st n2).res = .ret 0 ∧
      (consoleread env2 (consoleread env1 (feed s (xs ++ [C 'D'])).1 n1).st n2).out = [] ∧
      emptyQueue (consoleread env2 (consoleread env1 (feed s (xs ++ [C 'D'])).1 n1).st n2).st) := by
  have h0 : Committed s [] := ⟨Queue_empty s hs (hempty.1.trans hempty.2), hempty.2⟩
  obtain ⟨h1, hr1, -⟩ := feed_eof s [] xs h0 hxs (by simpa using hN)
  simp only [List.nil_append] at h1
  by_cases hxe : xs = []
  · subst hxe
    simp only [List.nil_append] at h1 hr1 ⊢
    rw [read_sentinel_first env1 _ [] n1 h1 hn1p]
    refine ⟨rfl, rfl, fun _ => ⟨?_, ?_⟩, fun h => absurd rfl h⟩
    · show uadd (feed s [C 'D']).1.r 1 = uadd s.r 1
      rw [hr1]
    · have hq := Queue_deliver _ (C 'D') 0 [] h1.1
      exact ⟨(usub_eq_zero _ _ hq.1.2.2 hq.1.1).1 hq.2.1 |>.symm.trans h1.2.symm, h1.2⟩
  · obtain ⟨-, f2, -, f4⟩ := feed_history_frame (xs ++ [C 'D']) s (by
      intro c hc
      rcases List.mem_append.1 hc with h2 | h2
      · exact ordinary_not_nav c (hxs c h2)
      · rw [List.mem_singleton.1 h2]; decide)
    rw [read_until_sentinel env1 _ xs [] n1 h1 hxe (fun c hc => ordinary_data c (hxs c hc))
      hn1 hcopy (histRoom_congr s _ _ f2 f4 hroom)]
    have hq1 := Queue_foldl_deliver xs _ [C 'D'] h1.1
    obtain ⟨-, f2, f3, -⟩ := foldl_deliver_frame xs (feed s (xs ++ [C 'D'])).1
    have hc1 : Committed (xs.foldl deliver (feed s (xs ++ [C 'D'])).1) [C 'D'] :=
      ⟨hq1, by rw [f2, f3]; exact h1.2⟩
    refine ⟨rfl, rfl, fun h => absurd h hxe, fun _ => ⟨hc1, ?_⟩⟩
    rw [read_sentinel_first env2 _ [] n2 hc1 hn2]
    refine ⟨rfl, rfl, ?_⟩
    have hq := Queue_deliver _ (C 'D') 0 [] hc1.1
    exact ⟨(usub_eq_zero _ _ hq.1.2.2 hq.1.1).1 hq.2.1 |>.symm.trans hc1.2.symm, hc1.2⟩

/-- C5 for the input `"hi"`, Ctrl-D: a read of 2 bytes returns `"hi"` and leaves the
sentinel, and the next read returns 0. -/
theorem C5_witness :
    (consoleread quietEnv (feed init ([104, 105] ++ [C 'D'])).1 2).res = .ret 2 ∧
    (consoleread quietEnv (feed init ([104, 105] ++ [C 'D'])).1 2).out = [104, 105] ∧
    (consoleread quietEnv (consoleread quietEnv (feed init ([104, 105] ++ [C 'D'])).1 2).st 1).res
      = .ret 0 :=
  have h := C5_eof_framing quietEnv quietEnv init [104, 105] 2 1 (by decide) (by decide)
    (by decide) (by decide) (by decide) (by decide) (by decide) (fun _ _ => rfl)
    (by decide)
  ⟨h.1, h.2.1, (h.2.2.2 (by decide)).2.1⟩

/-! ## C6: a read that fails with -1 -/

theorem Reachable_feed (cs : List Nat) : ∀ s : ConsState, Reachable s →
    (∀ c ∈ cs, c < CHAR_MOD) → Reachable (feed s cs).1 := by
  induction cs with
  | nil => intro s h _; exact h
  | cons c cs ih =>
    intro s h hc
    exact ih _ (Reachable.intr s c h (hc c (List.mem_cons_self c cs)))
      (fun x hx => hc x (List.mem_cons_of_mem c hx))

/-- A run of the loop that does not end with `fault` has made every one of its
stores into `history_buf` at a flat offset inside the array: one store per
delivered byte, at consecutive offsets from `hidx history_index word_index` on. -/
theorem loop_stores_inside (env : Env) (target n : Nat) : ∀ s : ConsState,
    (consoleread_loop env target n s).res ≠ .fault →
    histRoom s (consoleread_loop env target n s).out.length := by
  induction n with
  | zero =>
    intro s _ i hi
    simp [consoleread_loop] at hi
  | succ n ih =>
    intro s h i hi
    by_cases h1 : s.r = s.w
    · by_cases hk : env.killed = true
      · rw [read_killed env target n s h1 hk] at hi
        simp at hi
      · rw [read_asleep env target n s h1 (by simpa using hk)] at hi
        simp at hi
    · by_cases hD : s.buf (s.r % INPUT_BUF_SIZE) = C 'D'
      · by_cases hlt : n + 1 < target
        · rw [read_ctrlD_later env target n s h1 hD hlt] at hi
          simp at hi
        · rw [read_ctrlD_first env target n s h1 hD hlt] at hi
          simp at hi
      · by_cases hc : env.copyout (target - (n + 1)) = true
        · by_cases hout : HISTORY_SIZE * INPUT_BUF_SIZE ≤ hidx s.history_index s.word_index
          · rw [read_fault env target n s h1 hD hc hout] at h
            exact absurd rfl h
          · have hin := histRoom_of_not s hout
            by_cases hN : s.buf (s.r % INPUT_BUF_SIZE) = NEWLINE
            · rw [read_newline env target n s h1 hN hc hin] at hi
              simp only [List.length_singleton, Nat.lt_one_iff] at hi
              subst hi
              simp only [hidx, Nat.add_zero] at hout ⊢
              omega
            · rw [read_step env target n s h1 hD hN hc hin] at h hi
              cases i with
              | zero =>
                simp only [hidx, Nat.add_zero] at hout ⊢
                omega
              | succ k =>
                simp only [List.length_cons, Nat.add_lt_add_iff_right] at hi
                have := ih (deliver s (s.buf (s.r % INPUT_BUF_SIZE))) h k hi
                simp only [deliver, hidx] at this ⊢
                omega
        · rw [read_copyfail env target n s h1 hD (by simpa using hc)] at hi
          simp at hi

/-- A run of the loop with budget `n` makes at most `n` stores into `history_buf`:
when the next `n` stores stay inside the array, the run does not end with
`fault`. -/
theorem loop_no_fault (env : Env) (target n : Nat) : ∀ s : ConsState, histRoom s n →
    (consoleread_loop env target n s).res ≠ .fault := by
  induction n with
  | zero => intro s _; rw [read_zero]; exact nofun
  | succ n ih =>
    intro s hin
    by_cases h1 : s.r = s.w
    · by_cases hk : env.killed = true
      · rw [read_killed env target n s h1 hk]; exact nofun
      · rw [read_asleep env target n s h1 (by simpa using hk)]; exact nofun
    · by_cases hD : s.buf (s.r % INPUT_BUF_SIZE) = C 'D'
      · by_cases hlt : n + 1 < target
        · rw [read_ctrlD_later env target n s h1 hD hlt]; exact nofun
        · rw [read_ctrlD_first env target n s h1 hD hlt]; exact nofun
      · by_cases hc : env.copyout (target - (n + 1)) = true
        · have hin1 := histRoom_mono s 1 (n + 1) (by omega) hin
          by_cases hN : s.buf (s.r % INPUT_BUF_SIZE) = NEWLINE
          · rw [read_newline env target n s h1 hN hc hin1]; exact nofun
          · rw [read_step env target n s h1 hD hN hc hin1]
            exact ih _ (histRoom_deliver s _ n hin)
        · rw [read_copyfail env target n s h1 hD (by simpa using hc)]; exact nofun

/-- No run of the loop changes a cell of `history_buf` at an offset outside the
array: the embedding never stores there. -/
theorem history_cells_outside (env : Env) (target n : Nat) : ∀ (s : ConsState) (j : Nat),
    HISTORY_SIZE * INPUT_BUF_SIZE ≤ j →
    (consoleread_loop env target n s).st.history_buf j = s.history_buf j := by
  induction n with
  | zero => intro s j _; rfl
  | succ n ih =>
    intro s j hj
    by_cases h1 : s.r = s.w
    · by_cases hk : env.killed = true
      · rw [read_killed env target n s h1 hk]
      · rw [read_asleep env target n s h1 (by simpa using hk)]
    · by_cases hD : s.buf (s.r % INPUT_BUF_SIZE) = C 'D'
      · by_cases hlt : n + 1 < target
        · rw [read_ctrlD_later env target n s h1 hD hlt]
        · rw [read_ctrlD_first env target n s h1 hD hlt]
      · by_cases hc : env.copyout (target - (n + 1)) = true
        · by_cases hout : HISTORY_SIZE * INPUT_BUF_SIZE ≤ hidx s.history_index s.word_index
          · rw [read_fault env target n s h1 hD hc hout]
          · have hin := histRoom_of_not s hout
            have hst : ∀ c, store s.history_buf (hidx s.history_index s.word_index) c j
                = s.history_buf j := by
              intro c
              simp only [store]
              rw [if_neg (by omega)]
            by_cases hN : s.buf (s.r % INPUT_BUF_SIZE) = NEWLINE
            · rw [read_newline env target n s h1 hN hc hin]
              exact hst NEWLINE
            · rw [read_step env target n s h1 hD hN hc hin]
              show (consoleread_loop env target n
                (deliver s (s.buf (s.r % INPUT_BUF_SIZE)))).st.history_buf j = _
              rw [ih _ j hj]
              exact hst _
        · rw [read_copyfail env target n s h1 hD (by simpa using hc)]

/-- No run of the loop takes `word_index` past 640: a store is made only at a
flat offset below 640, and `word_index` grows by one per store. -/
theorem loop_word_index (env : Env) (target n : Nat) : ∀ s : ConsState,
    s.word_index ≤ HISTORY_SIZE * INPUT_BUF_SIZE →
    (consoleread_loop env target n s).st.word_index ≤ HISTORY_SIZE * INPUT_BUF_SIZE := by
  induction n with
  | zero => intro s h; exact h
  | succ n ih =>
    intro s h
    by_cases h1 : s.r = s.w
    · by_cases hk : env.killed = true
      · rw [read_killed env target n s h1 hk]; exact h
      · rw [read_asleep env target n s h1 (by simpa using hk)]; exact h
    · by_cases hD : s.buf (s.r % INPUT_BUF_SIZE) = C 'D'
      · by_cases hlt : n + 1 < target
        · rw [read_ctrlD_later env target n s h1 hD hlt]; exact h
        · rw [read_ctrlD_first env target n s h1 hD hlt]; exact h
      · by_cases hc : env.copyout (target - (n + 1)) = true
        · by_cases hout : HISTORY_SIZE * INPUT_BUF_SIZE ≤ hidx s.history_index s.word_index
          · rw [read_fault env target n s h1 hD hc hout]; exact h
          · have hin := histRoom_of_not s hout
            by_cases hN : s.buf (s.r % INPUT_BUF_SIZE) = NEWLINE
            · rw [read_newline env target n s h1 hN hc hin]
              exact Nat.zero_le _
            · rw [read_step env target n s h1 hD hN hc hin]
              refine ih (deliver s (s.buf (s.r % INPUT_BUF_SIZE))) ?_
              show s.word_index + 1 ≤ HISTORY_SIZE * INPUT_BUF_SIZE
              simp only [hidx] at hout
              omega
        · rw [read_copyfail env target n s h1 hD (by simpa using hc)]; exact h

theorem ordinary_replicate_a : ∀ c ∈ List.replicate 128 97, ordinary c :=
  fun c hc => by rw [List.eq_of_mem_replicate hc]; decide

theorem usub_dec (r w e : Nat) (h : inv3 r w e) (hne : e ≠ w) :
    usub (usub e 1) r + 1 = usub e r := by
  simp only [inv3, usub, UINT_MOD, INPUT_BUF_SIZE] at *
  omega

theorem killLoop_le (k : Nat) : ∀ s : ConsState, inv3 s.r s.w s.e →
    usub (killLoop k s).1.e s.r ≤ usub s.e s.r := by
  induction k with
  | zero => intro s _; exact Nat.le_refl _
  | succ k ih =>
    intro s h
    simp only [killLoop]
    split
    · rename_i hc
      have h1 := ih { s with e := usub s.e 1 } (inv3_dec_e s.r s.w s.e h hc.1)
      have h2 := usub_dec s.r s.w s.e h hc.1
      exact Nat.le_trans h1 (by
        show usub (usub s.e 1) s.r ≤ usub s.e s.r
        omega)
    · exact Nat.le_refl _

theorem intr_ctrlU (s : ConsState) : consoleintr s (C 'U') = killLoop (usub s.e s.w) s := by
  simp [consoleintr, C_P, C_U]

theorem intr_ctrlH (s : ConsState) :
    consoleintr s (C 'H')
      = if s.e ≠ s.w then ({ s with e := usub s.e 1 }, consputc BACKSPACE) else (s, []) := by
  simp [consoleintr, C_P, C_U, C_H]

theorem intr_DEL (s : ConsState) :
    consoleintr s DEL
      = if s.e ≠ s.w then ({ s with e := usub s.e 1 }, consputc BACKSPACE) else (s, []) := by
  simp [consoleintr, C_P, C_U, C_H, DEL]

theorem erase_one_boundary (s : ConsState) (hs : uintOK s) (hinv : cursorInv s) :
    (if s.e ≠ s.w then ({ s with e := usub s.e 1 }, consputc BACKSPACE) else (s, [])).1.r = s.r ∧
    (if s.e ≠ s.w then ({ s with e := usub s.e 1 }, consputc BACKSPACE) else (s, [])).1.w = s.w ∧
    (if s.e ≠ s.w then ({ s with e := usub s.e 1 }, consputc BACKSPACE) else (s, [])).1.buf
      = s.buf ∧
    usub s.w s.r ≤
      usub (if s.e ≠ s.w then ({ s with e := usub s.e 1 }, consputc BACKSPACE)
        else (s, [])).1.e s.r ∧
    usub (if s.e ≠ s.w then ({ s with e := usub s.e 1 }, consputc BACKSPACE)
      else (s, [])).1.e s.r ≤ usub s.e s.r ∧
    (if s.e ≠ s.w then ({ s with e := usub s.e 1 }, consputc BACKSPACE) else (s, [])).1.e
      = (if s.e ≠ s.w then usub s.e 1 else s.e) := by
  have h3 := (inv3_iff s).1 ⟨hs, hinv⟩
  by_cases hne : s.e ≠ s.w
  · rw [if_pos hne, if_pos hne]
    have h4 := inv3_dec_e s.r s.w s.e h3 hne
    have h5 := usub_dec s.r s.w s.e h3 hne
    exact ⟨rfl, rfl, rfl, h4.2.2.2.1, by show usub (usub s.e 1) s.r ≤ _; omega, rfl⟩
  · rw [if_neg hne, if_neg hne]
    exact ⟨rfl, rfl, rfl, hinv.1, Nat.le_refl _, rfl⟩

/-- C7. In every state that satisfies the cursor invariant, `consoleintr` applied to
Ctrl-H, DEL or Ctrl-U leaves `r`, `w` and every buffer cell unchanged, and the new
`e` lies between `w` and the old `e` (as offsets from `r`); for Ctrl-H and DEL the
new `e` is `e - 1` when `e ≠ w` and `e` otherwise. So the committed bytes, the
window of `w - r` cells from `r`, are never erased by editing. -/
theorem C7_backspace_boundary (s : ConsState) (c : Nat) (hs : uintOK s) (hinv : cursorInv s)
    (hc : c = C 'H' ∨ c = DEL ∨ c = C 'U') :
    (consoleintr s c).1.r = s.r ∧ (consoleintr s c).1.w = s.w ∧
    (consoleintr s c).1.buf = s.buf ∧
    usub s.w s.r ≤ usub (consoleintr s c).1.e s.r ∧
    usub (consoleintr s c).1.e s.r ≤ usub s.e s.r ∧
    (c ≠ C 'U' → (consoleintr s c).1.e = (if s.e ≠ s.w then usub s.e 1 else s.e)) ∧
    window (consoleintr s c).1.buf (consoleintr s c).1.r
        (usub (consoleintr s c).1.w (consoleintr s c).1.r)
      = window s.buf s.r (usub s.w s.r) := by
  have main : (consoleintr s c).1.r = s.r ∧ (consoleintr s c).1.w = s.w ∧
      (consoleintr s c).1.buf = s.buf ∧
      usub s.w s.r ≤ usub (consoleintr s c).1.e s.r ∧
      usub (consoleintr s c).1.e s.r ≤ usub s.e s.r ∧
      (c ≠ C 'U' → (consoleintr s c).1.e = (if s.e ≠ s.w then usub s.e 1 else s.e)) := by
    rcases hc with hc | hc | hc
    · subst hc
      rw [intr_ctrlH]
      obtain ⟨a1, a2, a3, a4, a5, a6⟩ := erase_one_boundary s hs hinv
      exact ⟨a1, a2, a3, a4, a5, fun _ => a6⟩
    · subst hc
      rw [intr_DEL]
      obtain ⟨a1, a2, a3, a4, a5, a6⟩ := erase_one_boundary s hs hinv
      exact ⟨a1, a2, a3, a4, a5, fun _ => a6⟩
    · subst hc
      rw [intr_ctrlU]
      have h3 := (inv3_iff s).1 ⟨hs, hinv⟩
      obtain ⟨f1, f2, f3, -⟩ := killLoop_frame (usub s.e s.w) s
      have hk := inv3_killLoop (usub s.e s.w) s h3
      rw [f1, f2] at hk
      exact ⟨f1, f2, f3, hk.2.2.2.1, killLoop_le _ s h3, fun h => absurd rfl h⟩
  obtain ⟨a1, a2, a3, a4, a5, a6⟩ := main
  refine ⟨a1, a2, a3, a4, a5, a6, ?_⟩
  rw [a1, a2, a3]

/-- C7 after `"ok\n"` and `"ab"` have been typed: Ctrl-U, Ctrl-H and DEL leave the
committed line `"ok\n"` in place. -/
theorem C7_witness :
    window (consoleintr (feed init [111, 107, 10, 97, 98]).1 (C 'U')).1.buf
        (consoleintr (feed init [111, 107, 10, 97, 98]).1 (C 'U')).1.r
        (usub (consoleintr (feed init [111, 107, 10, 97, 98]).1 (C 'U')).1.w
          (consoleintr (feed init [111, 107, 10, 97, 98]).1 (C 'U')).1.r)
      = window (feed init [111, 107, 10, 97, 98]).1.buf (feed init [111, 107, 10, 97, 98]).1.r
          (usub (feed init [111, 107, 10, 97, 98]).1.w (feed init [111, 107, 10, 97, 98]).1.r) ∧
    (consoleintr (feed init [111, 107, 10, 97, 98]).1 DEL).1.e = 4 :=
  ⟨(C7_backspace_boundary (feed init [111, 107, 10, 97, 98]).1 (C 'U') (by decide) (by decide)
      (by decide)).2.2.2.2.2.2,
    (C7_backspace_boundary (feed init [111, 107, 10, 97, 98]).1 DEL (by decide) (by decide)
      (by decide)).2.2.2.2.2.1 (by decide)⟩

/-- The fuel of `killLoop` is enough: when it stops, the condition of the `while`
loop is false. -/
theorem killLoop_exit (k : Nat) : ∀ s : ConsState, uintOK s → usub s.e s.w ≤ k →
    ¬ ((killLoop k s).1.e ≠ (killLoop k s).1.w ∧
      (killLoop k s).1.buf (usub (killLoop k s).1.e 1 % INPUT_BUF_SIZE) ≠ NEWLINE) := by
  induction k with
  | zero =>
    intro s hs hk h
    exact h.1 ((usub_eq_zero s.e s.w hs.2.2 hs.2.1).1 (Nat.le_zero.1 hk))
  | succ k ih =>
    intro s hs hk
    simp only [killLoop]
    split
    · rename_i hc
      obtain ⟨j, hj⟩ : ∃ j, usub s.e s.w = j + 1 :=
        ⟨usub s.e s.w - 1, by
          have := (usub_eq_zero s.e s.w hs.2.2 hs.2.1).not.2 hc.1
          omega⟩
      exact ih { s with e := usub s.e 1 } ⟨hs.1, hs.2.1, usub_lt s.e 1⟩
        (by rw [show usub (usub s.e 1) s.w = j from usub_pred s.e s.w j hj]; omega)
    · rename_i hc
      exact hc

/-! ## C8: where the history is recorded -/

theorem intr_CR (s : ConsState) : consoleintr s CR = consoleintr s NEWLINE := by
  simp [consoleintr, C_P, C_U, C_H, C_W, C_S, CR, NEWLINE, DEL]

/-- C8, counterexample. After `l`, `s` have been typed at boot, the `consoleintr`
call that accepts the newline commits the line (`w = e = 3`) but records nothing:
`history_count` and `history_index` are still 0 and the first cell of slot 0 still
holds 0, not `l`. -/
theorem C8_counterexample :
    Reachable (feed init [108, 115]).1 ∧
    (consoleintr (feed init [108, 115]).1 NEWLINE).1.w = 3 ∧
    (consoleintr (feed init [108, 115]).1 NEWLINE).1.e = 3 ∧
    (consoleintr (feed init [108, 115]).1 NEWLINE).1.history_count = 0 ∧
    (consoleintr (feed init [108, 115]).1 NEWLINE).1.history_index = 0 ∧
    (consoleintr (feed init [108, 115]).1 NEWLINE).1.history_buf (hidx 0 0) = 0 :=
  ⟨Reachable_feed _ init Reachable.boot (by decide), by decide, by decide, by decide,
    by decide, by decide⟩

/-- C8, amended. The history is recorded by `consoleread` when it delivers the
line, not by `consoleintr`. When the queue holds the ordinary bytes `l` (fewer than
128, so none of them is committed), the `consoleintr` call that accepts a newline
or CR commits `l ++ "\n"` and leaves the history slots, `history_index`,
`history_count` and `word_index` unchanged; the `consoleread` that then delivers
the line (budget covering it, no copy failure) returns its length and copies its
bytes, terminator included, to the start of the slot `history_index`, advances
`history_index` by one modulo 5, increases `history_count` by one unless it is
already 5, and leaves `word_index` at 0. This is stated for a state in which
`history_index` is a slot of the array and the slot is started afresh
(`word_index = 0`, as at boot and after every delivered newline), so that every
store of the read stays inside row `history_index` of `history_buf`. -/
theorem C8_history_recorded_by_read (env : Env) (s : ConsState) (l : List Nat) (c : Nat)
    (n : Int) (hq : Queue s l) (hl : ∀ x ∈ l, ordinary x)
    (hlen : l.length < 128) (hc : c = NEWLINE ∨ c = CR)
    (hn : ((l.length + 1 : Nat) : Int) ≤ n) (hcopy : copyOK env (l.length + 1))
    (hslot : s.history_index < HISTORY_SIZE) (hwi : s.word_index = 0) :
    ((consoleintr s c).1.history_buf = s.history_buf ∧
      (consoleintr s c).1.history_index = s.history_index ∧
      (consoleintr s c).1.history_count = s.history_count ∧
      (consoleintr s c).1.word_index = s.word_index) ∧
    Committed (consoleintr s c).1 (l ++ [NEWLINE]) ∧
    (consoleread env (consoleintr s c).1 n).res = .ret ((l.length + 1 : Nat) : Int) ∧
    (consoleread env (consoleintr s c).1 n).out = l ++ [NEWLINE] ∧
    (∀ (i : Nat) (hi : i < (l ++ [NEWLINE]).length),
      (consoleread env (consoleintr s c).1 n).st.history_buf
          (hidx s.history_index i) = (l ++ [NEWLINE]).get ⟨i, hi⟩) ∧
    (consoleread env (consoleintr s c).1 n).st.history_index
      = (s.history_index + 1) % HISTORY_SIZE ∧
    (consoleread env (consoleintr s c).1 n).st.history_count
      = (if s.history_count < HISTORY_SIZE then s.history_count + 1 else s.history_count) ∧
    (consoleread env (consoleintr s c).1 n).st.word_index = 0 := by
  have hcn : consoleintr s c = consoleintr s NEWLINE := by
    rcases hc with hc | hc
    · rw [hc]
    · rw [hc, intr_CR]
  rw [hcn]
  obtain ⟨q1, -, -, w1, b1, b2, b3, b4⟩ := intr_newline_Queue s l hq hlen
  have hcom : Committed (consoleintr s NEWLINE).1 (l ++ [NEWLINE]) := ⟨q1, w1⟩
  rw [read_first_line env _ l [] n hcom hl hn hcopy
    (histRoom_congr s _ _ b2 b4 (histRoom_row s _ hslot (by
      rw [hwi]; simp only [INPUT_BUF_SIZE]; omega)))]
  obtain ⟨d1, d2, d3, d4⟩ := lineDelivered_history (consoleintr s NEWLINE).1 l
  rw [b1, b2, b4, hwi] at d1
  rw [b2] at d2
  rw [b3] at d3
  refine ⟨⟨b1, b2, b3, b4⟩, hcom, rfl, rfl, ?_, d2, d3, d4⟩
  intro i hi
  show (lineDelivered (consoleintr s NEWLINE).1 l).history_buf _ = _
  rw [d1, show hidx s.history_index i = hidx s.history_index 0 + i
    by simp only [hidx]; omega]
  exact storeList_at (l ++ [NEWLINE]) _ _ i hi

/-- C8, amended, on the line `"ls"` typed at boot: the newline records nothing, and
the read that delivers `"ls\n"` moves `history_index` to 1 and `history_count`
to 1. -/
theorem C8_witness :
    (consoleintr (feed init [108, 115]).1 NEWLINE).1.history_count = 0 ∧
    (consoleread quietEnv (consoleintr (feed init [108, 115]).1 NEWLINE).1 10).st.history_index
      = 1 ∧
    (consoleread quietEnv (consoleintr (feed init [108, 115]).1 NEWLINE).1 10).st.history_count
      = 1 :=
  have h := C8_history_recorded_by_read quietEnv (feed init [108, 115]).1 [108, 115] NEWLINE 10
    (by decide) (by decide) (by decide) (by decide) (by decide) (fun _ _ => rfl)
    (by decide) (by decide)
  ⟨h.1.2.2.1, h.2.2.2.2.2.1, h.2.2.2.2.2.2.1⟩

/-! ## C9: the history bound -/

theorem rowPrefix_congr (h1 h2 : Nat → Nat) (k : Nat) (len : Nat) : ∀ i,
    (∀ j, i ≤ j → j < i + len → h1 (hidx k j) = h2 (hidx k j)) →
    rowPrefix h1 k i len = rowPrefix h2 k i len := by
  induction len with
  | zero => intro i _; rfl
  | succ n ih =>
    intro i h
    simp only [rowPrefix]
    rw [h i (Nat.le_refl i) (by omega), ih (i + 1) (fun j a b => h j (by omega) (by omega))]

theorem rowPrefix_storeList (k : Nat) (xs : List Nat) : ∀ (a : Nat → Nat) (i : Nat),
    rowPrefix (storeList a (hidx k i) xs) k i xs.length = xs := by
  induction xs with
  | nil => intro a i; rfl
  | cons c cs ih =>
    intro a i
    simp only [storeList, List.length_cons, rowPrefix]
    have e : hidx k i + 1 = hidx k (i + 1) := by simp only [hidx]; omega
    rw [e, ih, ← e, storeList_below _ _ _ _ (Nat.lt_succ_self _)]
    simp [store]

/-- The navigation loop echoes the line stored at the start of a row. -/
theorem echoLoop_slot (h : Nat → Nat) (k : Nat) (m : List Nat) : ∀ (i fuel : Nat),
    rowPrefix h k i (m.length + 1) = m ++ [NEWLINE] →
    (∀ c ∈ m, c ≠ NEWLINE ∧ c ≠ BACKSPACE) → m.length < fuel →
    echoLoop h k fuel i = m := by
  induction m with
  | nil =>
    intro i fuel hrow _ hf
    obtain ⟨f, rfl⟩ : ∃ f, fuel = f + 1 := ⟨fuel - 1, by omega⟩
    simp only [List.length_nil, rowPrefix, List.nil_append] at hrow
    have h0 := (List.cons.inj hrow).1
    simp [echoLoop, h0]
  | cons c cs ih =>
    intro i fuel hrow hm hf
    simp only [List.length_cons] at hf
    obtain ⟨f, rfl⟩ : ∃ f, fuel = f + 1 := ⟨fuel - 1, by omega⟩
    simp only [List.length_cons, rowPrefix, List.cons_append] at hrow
    obtain ⟨h0, h1⟩ := List.cons.inj hrow
    have hc := hm c (List.mem_cons_self c cs)
    have ht := ih (i + 1) f (by simpa [rowPrefix] using h1)
      (fun x hx => hm x (List.mem_cons_of_mem c hx)) (by omega)
    simp [echoLoop, h0, hc.1, hc.2, consputc, ht]

theorem ordinary_echo (c : Nat) (h : ordinary c) : c ≠ NEWLINE ∧ c ≠ BACKSPACE :=
  ⟨h.2.2.1, by have := h.2.1; simp only [CHAR_MOD, BACKSPACE] at *; omega⟩

/-- A read that delivers the first line of a committed queue stores it at the start
of the slot `history_index` (when `word_index = 0`), moves `history_index` on, and
leaves the lines in the other slots alone. -/
theorem read_line_history (s : ConsState) (l rest : List Nat) (call : Env × Int)
    (hc : Committed s (l ++ NEWLINE :: rest)) (hwi : s.word_index = 0)
    (hord : ∀ c ∈ l, ordinary c) (hn : ((l.length + 1 : Nat) : Int) ≤ call.2)
    (hcopy : copyOK call.1 (l.length + 1)) (hslot : s.history_index < HISTORY_SIZE) :
    Committed (consoleread call.1 s call.2).st rest ∧
    (consoleread call.1 s call.2).st.word_index = 0 ∧
    (consoleread call.1 s call.2).st.history_index = (s.history_index + 1) % HISTORY_SIZE ∧
    0 < (consoleread call.1 s call.2).st.history_count ∧
    SlotHolds (consoleread call.1 s call.2).st.history_buf s.history_index l ∧
    (∀ j m, j ≠ s.history_index → m.length + 1 ≤ 128 → SlotHolds s.history_buf j m →
      SlotHolds (consoleread call.1 s call.2).st.history_buf j m) := by
  have hlen : l.length + 1 ≤ 128 := by
    have := hc.1.2.2.1
    simp only [List.length_append, List.length_cons] at this
    omega
  rw [read_first_line call.1 s l rest call.2 hc hord hn hcopy
    (histRoom_row s _ hslot (by rw [hwi]; simp only [INPUT_BUF_SIZE]; omega))]
  obtain ⟨d1, d2, d3, d4⟩ := lineDelivered_history s l
  rw [hwi] at d1
  refine ⟨Committed_lineDelivered s l rest hc, d4, d2, ?_, ?_, ?_⟩
  · show 0 < (lineDelivered s l).history_count
    rw [d3]
    by_cases hlt : s.history_count < HISTORY_SIZE
    · rw [if_pos hlt]; exact Nat.succ_pos _
    · rw [if_neg hlt]
      exact Nat.lt_of_lt_of_le (by decide : 0 < HISTORY_SIZE) (Nat.le_of_not_lt hlt)
  · show SlotHolds (lineDelivered s l).history_buf s.history_index l
    rw [d1]
    have := rowPrefix_storeList s.history_index (l ++ [NEWLINE]) s.history_buf 0
    simpa [SlotHolds] using this
  · intro j m hj hm hjm
    show SlotHolds (lineDelivered s l).history_buf j m
    rw [d1]
    unfold SlotHolds at hjm ⊢
    rw [← hjm]
    apply rowPrefix_congr
    intro i _ hi
    by_cases hlt : j < s.history_index
    · exact storeList_below _ _ _ _ (by simp only [hidx, INPUT_BUF_SIZE]; omega)
    · exact storeList_above _ _ _ _ (by
        simp only [hidx, INPUT_BUF_SIZE, List.length_append, List.length_singleton]; omega)

theorem intr_ctrlW (s : ConsState) (h : 0 < s.history_count) :
    consoleintr s (C 'W')
      = ({ s with history_index := (s.history_index + HISTORY_SIZE - 1) % HISTORY_SIZE },
          echoLoop s.history_buf ((s.history_index + HISTORY_SIZE - 1) % HISTORY_SIZE)
            INPUT_BUF_SIZE 0) := by
  simp [consoleintr, C_P, C_U, C_H, C_W, DEL, h]

theorem intr_ctrlS (s : ConsState) (h : 0 < s.history_count) :
    consoleintr s (C 'S')
      = ({ s with history_index := (s.history_index + 1) % HISTORY_SIZE },
          echoLoop s.history_buf ((s.history_index + 1) % HISTORY_SIZE) INPUT_BUF_SIZE 0) := by
  simp [consoleintr, C_P, C_U, C_H, C_W, C_S, DEL, h]

/-- A navigation byte echoes the line of one of the five slots and changes
neither the slots nor the count. -/
theorem nav_step (s : ConsState) (c : Nat) (M : Nat → List Nat) (hcnt : 0 < s.history_count)
    (hslots : ∀ k, k < 5 → SlotHolds s.history_buf k (M k) ∧ (∀ x ∈ M k, ordinary x) ∧
      (M k).length < 128)
    (hc : c = C 'W' ∨ c = C 'S') :
    (∃ k, k < 5 ∧ (consoleintr s c).2 = M k) ∧
    (consoleintr s c).1.history_buf = s.history_buf ∧
    (consoleintr s c).1.history_count = s.history_count := by
  have key : ∀ k, k < 5 → echoLoop s.history_buf k INPUT_BUF_SIZE 0 = M k := by
    intro k hk
    obtain ⟨h1, h2, h3⟩ := hslots k hk
    exact echoLoop_slot s.history_buf k (M k) 0 INPUT_BUF_SIZE h1
      (fun x hx => ordinary_echo x (h2 x hx)) h3
  rcases hc with hc | hc
  · subst hc
    rw [intr_ctrlW s hcnt]
    have hk : (s.history_index + HISTORY_SIZE - 1) % HISTORY_SIZE < 5 := Nat.mod_lt _ (by decide)
    exact ⟨⟨_, hk, key _ hk⟩, rfl, rfl⟩
  · subst hc
    rw [intr_ctrlS s hcnt]
    have hk : (s.history_index + 1) % HISTORY_SIZE < 5 := Nat.mod_lt _ (by decide)
    exact ⟨⟨_, hk, key _ hk⟩, rfl, rfl⟩

theorem nav_echoes (M : Nat → List Nat) (navs : List Nat) : ∀ s : ConsState,
    0 < s.history_count →
    (∀ k, k < 5 → SlotHolds s.history_buf k (M k) ∧ (∀ x ∈ M k, ordinary x) ∧
      (M k).length < 128) →
    (∀ c ∈ navs, c = C 'W' ∨ c = C 'S') →
    ∀ o ∈ feedEchoes s navs, ∃ k, k < 5 ∧ o = M k := by
  induction navs with
  | nil => intro s _ _ _ o ho; simp [feedEchoes] at ho
  | cons c cs ih =>
    intro s hcnt hslots hnav o ho
    obtain ⟨⟨k, hk, hek⟩, hb, hn⟩ := nav_step s c M hcnt hslots (hnav c (List.mem_cons_self c cs))
    simp only [feedEchoes, List.mem_cons] at ho
    rcases ho with ho | ho
    · exact ⟨k, hk, ho.trans hek⟩
    · exact ih (consoleintr s c).1 (by rw [hn]; exact hcnt) (by rw [hb]; exact hslots)
        (fun x hx => hnav x (List.mem_cons_of_mem c hx)) o ho

theorem joinLines_append (a b : List (List Nat)) :
    joinLines (a ++ b) = joinLines a ++ joinLines b := by
  induction a with
  | nil => rfl
  | cons l ls ih => simp [joinLines, ih]

theorem Hist_init : Hist init [] :=
  ⟨rfl, fun h => absurd h (Nat.lt_irrefl 0), fun j l h _ => by simp at h⟩

theorem Hist_slot (s : ConsState) (done : List (List Nat)) (h : Hist s done) :
    s.history_index < HISTORY_SIZE := by
  rw [h.1]
  exact Nat.mod_lt _ (by decide)

/-- Typing a line leaves the history as it is. -/
theorem Hist_type (s : ConsState) (done : List (List Nat)) (q l : List Nat)
    (hc : Committed s q) (hl : ∀ c ∈ l, ordinary c) (hlen : q.length + l.length + 1 ≤ 128)
    (h : Hist s done) : Hist (feed s (l ++ [NEWLINE])).1 done := by
  obtain ⟨-, -, b1, b2, b3, -⟩ := feed_line s q l hc hl hlen
  unfold Hist
  rw [b1, b2, b3]
  exact h

/-- Reading the next line appends it to the recorded history. -/
theorem Hist_read (s : ConsState) (done : List (List Nat)) (l rest : List Nat)
    (call : Env × Int) (hc : Committed s (l ++ NEWLINE :: rest)) (hwi : s.word_index = 0)
    (hord : ∀ c ∈ l, ordinary c) (hn : ((l.length + 1 : Nat) : Int) ≤ call.2)
    (hcopy : copyOK call.1 (l.length + 1)) (hgood : ∀ m ∈ done, goodBytes m)
    (h : Hist s done) : Hist (consoleread call.1 s call.2).st (done ++ [l]) := by
  obtain ⟨-, -, i1, n1, s1, p1⟩ := read_line_history s l rest call hc hwi hord hn hcopy
    (Hist_slot s done h)
  obtain ⟨hi, -, hslots⟩ := h
  refine ⟨?_, fun _ => n1, ?_⟩
  · rw [i1, hi]
    simp only [List.length_append, List.length_singleton, HISTORY_SIZE]
    omega
  · intro j m hj hlast
    simp only [List.length_append, List.length_singleton, HISTORY_SIZE] at hlast
    by_cases hjd : j < done.length
    · rw [List.getElem?_append_left hjd] at hj
      have hm : m ∈ done := List.getElem?_mem hj
      refine p1 (j % HISTORY_SIZE) m ?_ (by have := (hgood m hm).2; omega)
        (hslots j m hj (by simp only [HISTORY_SIZE]; omega))
      rw [hi]
      simp only [HISTORY_SIZE]
      omega
    · have hjl : j = done.length := by
        have := (List.getElem?_eq_some.1 hj).1
        simp only [List.length_append, List.length_singleton] at this
        omega
      subst hjl
      rw [List.getElem?_append_right (Nat.le_refl _)] at hj
      simp only [Nat.sub_self, List.getElem?_cons_zero, Option.some.injEq] at hj
      subst hj
      rw [← hi]
      exact s1

/-- The history after a schedule: every line typed has been delivered and recorded. -/
theorem run_schedule (pending : List (List Nat)) (evs : List Ev) (lines : List (List Nat))
    (hsched : Schedule pending evs lines) :
    ∀ (s : ConsState) (done : List (List Nat)), Committed s (joinLines pending) →
      s.word_index = 0 → Hist s done → (∀ m ∈ done ++ pending, goodBytes m) →
      Hist (run s evs) (done ++ pending ++ lines) ∧
        (∀ m ∈ done ++ pending ++ lines, goodBytes m) := by
  induction hsched with
  | done =>
    intro s done _ _ h hg
    simp only [List.append_nil] at hg ⊢
    exact ⟨h, hg⟩
  | type pending evs lines l hl hlen _ ih =>
    intro s done hc hwi h hg
    obtain ⟨c1, -, -, -, -, w1⟩ := feed_line s (joinLines pending) l hc hl hlen
    have hc1 : Committed (feed s (l ++ [NEWLINE])).1 (joinLines (pending ++ [l])) := by
      rw [joinLines_append]
      simpa [joinLines] using c1
    have hg1 : ∀ m ∈ done ++ (pending ++ [l]), goodBytes m := by
      intro m hm
      rw [← List.append_assoc] at hm
      rcases List.mem_append.1 hm with h1 | h1
      · exact hg m h1
      · rw [List.mem_singleton.1 h1]
        exact ⟨hl, by omega⟩
    have := ih (feed s (l ++ [NEWLINE])).1 done hc1 (w1.trans hwi)
      (Hist_type s done (joinLines pending) l hc hl hlen h) hg1
    simpa [run] using this
  | read l rest evs lines call hn hcopy _ ih =>
    intro s done hc hwi h hg
    have hgl : goodBytes l := hg l (by simp)
    have hc0 : Committed s (l ++ NEWLINE :: joinLines rest) := by
      simpa [joinLines] using hc
    obtain ⟨c1, w1, -⟩ := read_line_history s l (joinLines rest) call hc0 hwi hgl.1 hn hcopy
      (Hist_slot s done h)
    have h1 := Hist_read s done l (joinLines rest) call hc0 hwi hgl.1 hn hcopy
      (fun m hm => hg m (List.mem_append_left _ hm)) h
    have hg1 : ∀ m ∈ (done ++ [l]) ++ rest, goodBytes m := by
      intro m hm
      exact hg m (by simpa using hm)
    have := ih (consoleread call.1 s call.2).st (done ++ [l]) c1 w1 h1 hg1
    simpa [run] using this

/-- C9. Starting at boot, after six pairwise distinct lines (ordinary bytes, at most
128 bytes each with the newline) have each been typed and delivered by one
`consoleread`, in any interleaving of typing and reading that fits the queue and
with no navigation in between, every echo produced by a subsequent sequence of
Ctrl-W / Ctrl-S bytes is one of the five most recent lines (without its newline),
and never the first line. -/
theorem C9_history_bound (evs : List Ev) (l1 l2 l3 l4 l5 l6 : List Nat) (navs : List Nat)
    (hsched : Schedule [] evs [l1, l2, l3, l4, l5, l6])
    (hd : [l1, l2, l3, l4, l5, l6].Nodup)
    (hnav : ∀ c ∈ navs, c = C 'W' ∨ c = C 'S') :
    ∀ o ∈ feedEchoes (run init evs) navs, o ∈ [l2, l3, l4, l5, l6] ∧ o ≠ l1 := by
  intro o ho
  obtain ⟨⟨-, hcnt, hslot⟩, hgood⟩ := run_schedule [] evs [l1, l2, l3, l4, l5, l6] hsched init []
    ⟨Queue_empty init (by decide) rfl, rfl⟩ rfl Hist_init (by simp)
  simp only [List.nil_append] at hcnt hslot hgood
  have hslots : ∀ k, k < 5 →
      SlotHolds (run init evs).history_buf k ([l6, l2, l3, l4, l5].getD k []) ∧
      (∀ x ∈ [l6, l2, l3, l4, l5].getD k [], ordinary x) ∧
      ([l6, l2, l3, l4, l5].getD k []).length < 128 := by
    intro k hk
    have hcases : k = 0 ∨ k = 1 ∨ k = 2 ∨ k = 3 ∨ k = 4 := by omega
    rcases hcases with rfl | rfl | rfl | rfl | rfl
    · exact ⟨hslot 5 l6 rfl (by simp [HISTORY_SIZE]), hgood l6 (by simp)⟩
    · exact ⟨hslot 1 l2 rfl (by simp [HISTORY_SIZE]), hgood l2 (by simp)⟩
    · exact ⟨hslot 2 l3 rfl (by simp [HISTORY_SIZE]), hgood l3 (by simp)⟩
    · exact ⟨hslot 3 l4 rfl (by simp [HISTORY_SIZE]), hgood l4 (by simp)⟩
    · exact ⟨hslot 4 l5 rfl (by simp [HISTORY_SIZE]), hgood l5 (by simp)⟩
  obtain ⟨k, hk, hok⟩ := nav_echoes (fun k => [l6, l2, l3, l4, l5].getD k []) navs _
    (hcnt (by simp)) hslots hnav o ho
  have hmem : o ∈ [l2, l3, l4, l5, l6] := by
    have hcases : k = 0 ∨ k = 1 ∨ k = 2 ∨ k = 3 ∨ k = 4 := by omega
    rcases hcases with rfl | rfl | rfl | rfl | rfl <;> rw [hok] <;> simp
  refine ⟨hmem, ?_⟩
  intro h
  rw [h] at hmem
  exact (List.nodup_cons.1 hd).1 hmem

/-- The six one-letter lines `a` to `f`, the first two typed ahead of their reads. -/
theorem schedule_a_to_f :
    Schedule [] [.type [97], .type [98], .read (quietEnv, 5), .read (quietEnv, 5),
      .type [99], .read (quietEnv, 5), .type [100], .read (quietEnv, 5),
      .type [101], .read (quietEnv, 5), .type [102], .read (quietEnv, 5)]
      [[97], [98], [99], [100], [101], [102]] :=
  .type [] _ _ [97] (by decide) (by decide) <|
  .type [[97]] _ _ [98] (by decide) (by decide) <|
  .read [97] [[98]] _ _ _ (by decide) (fun _ _ => rfl) <|
  .read [98] [] _ _ _ (by decide) (fun _ _ => rfl) <|
  .type [] _ _ [99] (by decide) (by decide) <|
  .read [99] [] _ _ _ (by decide) (fun _ _ => rfl) <|
  .type [] _ _ [100] (by decide) (by decide) <|
  .read [100] [] _ _ _ (by decide) (fun _ _ => rfl) <|
  .type [] _ _ [101] (by decide) (by decide) <|
  .read [101] [] _ _ _ (by decide) (fun _ _ => rfl) <|
  .type [] _ _ [102] (by decide) (by decide) <|
  .read [102] [] _ _ _ (by decide) (fun _ _ => rfl) .done

set_option maxRecDepth 100000 in
/-- C9 on the six one-letter lines `a` to `f`: the first Ctrl-W echoes `f`, which is
one of the five most recent lines and not `a`. -/
theorem C9_witness :
    [102] ∈ feedEchoes (run init [.type [97], .type [98], .read (quietEnv, 5),
      .read (quietEnv, 5), .type [99], .read (quietEnv, 5), .type [100], .read (quietEnv, 5),
      .type [101], .read (quietEnv, 5), .type [102], .read (quietEnv, 5)])
      [C 'W', C 'W', C 'S'] ∧
    ([102] ∈ [[98], [99], [100], [101], [102]] ∧ [102] ≠ [97]) :=
  ⟨by decide,
    C9_history_bound _ [97] [98] [99] [100] [101] [102] [C 'W', C 'W', C 'S']
      schedule_a_to_f (by decide) (by decide) [102] (by decide)⟩

/-! ## C10: navigation and the write index -/

theorem intr_nav_none (s : ConsState) (c : Nat) (hc : c = C 'W' ∨ c = C 'S')
    (h : ¬ 0 < s.history_count) : consoleintr s c = (s, []) := by
  rcases hc with hc | hc <;> subst hc <;> simp [consoleintr, C_P, C_U, C_H, C_W, C_S, DEL, h]

/-- A navigation byte changes no global but `history_index`. -/
theorem nav_frame (s : ConsState) (c : Nat) (hc : c = C 'W' ∨ c = C 'S') :
    (consoleintr s c).1.buf = s.buf ∧ (consoleintr s c).1.r = s.r ∧
    (consoleintr s c).1.w = s.w ∧ (consoleintr s c).1.e = s.e ∧
    (consoleintr s c).1.history_buf = s.history_buf ∧
    (consoleintr s c).1.history_count = s.history_count ∧
    (consoleintr s c).1.word_index = s.word_index := by
  by_cases h : 0 < s.history_count
  · rcases hc with hc | hc
    · subst hc
      rw [intr_ctrlW s h]
      exact ⟨rfl, rfl, rfl, rfl, rfl, rfl, rfl⟩
    · subst hc
      rw [intr_ctrlS s h]
      exact ⟨rfl, rfl, rfl, rfl, rfl, rfl, rfl⟩
  · rw [intr_nav_none s c hc h]
    exact ⟨rfl, rfl, rfl, rfl, rfl, rfl, rfl⟩

theorem Reachable_typeAndRead (s : ConsState) (l : List Nat) (call : Env × Int)
    (h : Reachable s) (hl : ∀ c ∈ l, ordinary c)
    (hres : (consoleread call.1 (feed s (l ++ [NEWLINE])).1 call.2).res ≠ .fault) :
    Reachable (typeAndRead s l call) := by
  refine Reachable.read _ call.1 call.2 (Reachable_feed _ s h ?_) hres
  intro c hc
  rcases List.mem_append.1 hc with h1 | h1
  · exact (hl c h1).2.1
  · rw [List.mem_singleton.1 h1]
    decide

/-- C11. In every state, `consoleintr` applied to Ctrl-W or Ctrl-S leaves the queue
unchanged (`r`, `w`, `e` and every buffer cell) and leaves the stored history lines,
`history_count` and `word_index` unchanged: the state after the call is the state
before it with at most `history_index` replaced. -/
theorem C11_recall_display_only (s : ConsState) :
    ((consoleintr s (C 'W')).1.buf = s.buf ∧ (consoleintr s (C 'W')).1.r = s.r ∧
      (consoleintr s (C 'W')).1.w = s.w ∧ (consoleintr s (C 'W')).1.e = s.e ∧
      (consoleintr s (C 'W')).1.history_buf = s.history_buf ∧
      (consoleintr s (C 'W')).1.history_count = s.history_count ∧
      (consoleintr s (C 'W')).1.word_index = s.word_index) ∧
    ((consoleintr s (C 'S')).1.buf = s.buf ∧ (consoleintr s (C 'S')).1.r = s.r ∧
      (consoleintr s (C 'S')).1.w = s.w ∧ (consoleintr s (C 'S')).1.e = s.e ∧
      (consoleintr s (C 'S')).1.history_buf = s.history_buf ∧
      (consoleintr s (C 'S')).1.history_count = s.history_count ∧
      (consoleintr s (C 'S')).1.word_index = s.word_index) ∧
    (consoleintr s (C 'W')).1
      = { s with history_index := (consoleintr s (C 'W')).1.history_index } ∧
    (consoleintr s (C 'S')).1
      = { s with history_index := (consoleintr s (C 'S')).1.history_index } := by
  have hW := nav_frame s (C 'W') (Or.inl rfl)
  have hS := nav_frame s (C 'S') (Or.inr rfl)
  refine ⟨hW, hS, ?_, ?_⟩
  · obtain ⟨a1, a2, a3, a4, a5, a6, a7⟩ := hW
    exact ConsState.ext a1 a2 a3 a4 a5 rfl a6 a7
  · obtain ⟨a1, a2, a3, a4, a5, a6, a7⟩ := hS
    exact ConsState.ext a1 a2 a3 a4 a5 rfl a6 a7

/-! ## C14: carriage return is newline -/

theorem intr_newline_rejected (s : ConsState) (h : ¬ usub s.e s.r < INPUT_BUF_SIZE) :
    consoleintr s NEWLINE = (s, []) := by
  simp [consoleintr, C_P, C_U, C_H, C_W, C_S, NEWLINE, DEL, h]

/-- C14. In every state `consoleintr` applied to CR gives exactly the same state
(cursors, buffer, history) and the same echo as `consoleintr` applied to newline.
When the byte is accepted (`e - r < 128`) the cell `buf[e mod 128]` receives a
newline, `e` advances by one and the line is committed (`w = e`); otherwise the
byte is dropped without echo. -/
theorem C14_cr_is_newline (s : ConsState) :
    consoleintr s CR = consoleintr s NEWLINE ∧
    (usub s.e s.r < INPUT_BUF_SIZE →
      (consoleintr s CR).1.buf (s.e % INPUT_BUF_SIZE) = NEWLINE ∧
      (consoleintr s CR).1.e = uadd s.e 1 ∧
      (consoleintr s CR).1.w = (consoleintr s CR).1.e ∧
      (consoleintr s CR).2 = [NEWLINE]) ∧
    (¬ usub s.e s.r < INPUT_BUF_SIZE → consoleintr s CR = (s, [])) := by
  refine ⟨intr_CR s, ?_, ?_⟩
  · intro h
    rw [intr_CR, intr_newline s (by simpa only [INPUT_BUF_SIZE] using h)]
    refine ⟨?_, rfl, rfl, rfl⟩
    simp [push, store]
  · intro h
    rw [intr_CR, intr_newline_rejected s h]

/-- C14 at boot and on a full queue: CR typed at boot stores a newline in cell 0 and
commits it; CR typed on a full queue is dropped. -/
theorem C14_witness :
    ((consoleintr init CR).1.buf (init.e % INPUT_BUF_SIZE) = NEWLINE ∧
      (consoleintr init CR).1.e = uadd init.e 1 ∧
      (consoleintr init CR).1.w = (consoleintr init CR).1.e ∧
      (consoleintr init CR).2 = [NEWLINE]) ∧
    consoleintr { init with e := 128, w := 128 } CR = ({ init with e := 128, w := 128 }, []) :=
  ⟨(C14_cr_is_newline init).2.1 (by decide),
    (C14_cr_is_newline { init with e := 128, w := 128 }).2.2 (by decide)⟩

/-! ## C15: end of file on an empty line and the history -/

/-- C15. In every state with an empty queue (`r = w = e`), processing Ctrl-D with
`consoleintr` and then the `consoleread` that consumes the sentinel (budget at
least 1) returns 0, delivers nothing, leaves the queue empty again, and leaves
every history cell, `history_index`, `history_count` and `word_index` exactly as
they were before the Ctrl-D arrived. -/
theorem C15_eof_commit_keeps_history (env : Env) (s : ConsState) (n : Int)
    (hs : uintOK s) (hempty : emptyQueue s) (hn : 1 ≤ n) :
    (consoleread env (consoleintr s (C 'D')).1 n).res = .ret 0 ∧
    (consoleread env (consoleintr s (C 'D')).1 n).out = [] ∧
    emptyQueue (consoleread env (consoleintr s (C 'D')).1 n).st ∧
    (consoleread env (consoleintr s (C 'D')).1 n).st.history_buf = s.history_buf ∧
    (consoleread env (consoleintr s (C 'D')).1 n).st.history_index = s.history_index ∧
    (consoleread env (consoleintr s (C 'D')).1 n).st.history_count = s.history_count ∧
    (consoleread env (consoleintr s (C 'D')).1 n).st.word_index = s.word_index := by
  have q0 : Queue s [] := Queue_empty s hs (hempty.1.trans hempty.2)
  obtain ⟨q1, -, w1, b1, b2, b3, b4⟩ := intr_ctrlD_Queue s [] q0 (by decide)
  simp only [List.nil_append] at q1
  have hc : Committed (consoleintr s (C 'D')).1 [C 'D'] := ⟨q1, w1⟩
  rw [read_sentinel_first env _ [] n hc hn]
  refine ⟨rfl, rfl, ?_, b1, b2, b3, b4⟩
  have hq := Queue_deliver _ (C 'D') 0 [] q1
  exact ⟨(usub_eq_zero _ _ hq.1.2.2 hq.1.1).1 hq.2.1 |>.symm.trans w1.symm, w1⟩

/-- C15 after the line `"ls"` has been typed and read at boot: Ctrl-D and the read
that consumes it leave `history_index = 1` and `history_count = 1`. -/
theorem C15_witness :
    (consoleread quietEnv (consoleintr (typeAndRead init [108, 115] (quietEnv, 10))
      (C 'D')).1 10).res = .ret 0 ∧
    (consoleread quietEnv (consoleintr (typeAndRead init [108, 115] (quietEnv, 10))
      (C 'D')).1 10).st.history_index
      = (typeAndRead init [108, 115] (quietEnv, 10)).history_index :=
  have h := C15_eof_commit_keeps_history quietEnv (typeAndRead init [108, 115] (quietEnv, 10)) 10
    (by decide) (by decide) (by decide)
  ⟨h.1, h.2.2.2.2.1⟩

/-! ## C16: the default byte -/

theorem inv3_w_ne_succ (r w e : Nat) (h : inv3 r w e) (hroom : usub e r < INPUT_BUF_SIZE) :
    w ≠ uadd e 1 := by
  simp only [inv3, usub, uadd, UINT_MOD, INPUT_BUF_SIZE] at *
  omega

/-- The default case of `consoleintr` when the byte is accepted. -/
theorem intr_default_accept (s : ConsState) (c : Nat) (hP : c ≠ C 'P') (hU : c ≠ C 'U')
    (hH : c ≠ C 'H') (hDEL : c ≠ DEL) (hW : c ≠ C 'W') (hS : c ≠ C 'S') (h0 : c ≠ 0)
    (hroom : usub s.e s.r < INPUT_BUF_SIZE) :
    consoleintr s c
      = (if normCR c = NEWLINE ∨ normCR c = C 'D' ∨ usub (uadd s.e 1) s.r = INPUT_BUF_SIZE
          then { push s (normCR c % CHAR_MOD) with w := uadd s.e 1 }
          else push s (normCR c % CHAR_MOD), consputc (normCR c)) := by
  simp only [consoleintr, hP, hU, hH, hDEL, hW, hS, h0, hroom, normCR, push, if_false,
    or_self, ne_eq, not_false_eq_true, and_self, if_true]
  split_ifs <;> rfl

/-- The default case of `consoleintr` when the byte is rejected. -/
theorem intr_default_reject (s : ConsState) (c : Nat) (hP : c ≠ C 'P') (hU : c ≠ C 'U')
    (hH : c ≠ C 'H') (hDEL : c ≠ DEL) (hW : c ≠ C 'W') (hS : c ≠ C 'S')
    (h : ¬ (c ≠ 0 ∧ usub s.e s.r < INPUT_BUF_SIZE)) : consoleintr s c = (s, []) := by
  simp only [consoleintr, hP, hU, hH, hDEL, hW, hS, h, if_false, or_self]

/-- C16. In a state that satisfies the cursor invariant, for a byte `c` that is not
Ctrl-P, Ctrl-U, Ctrl-H, Ctrl-W, Ctrl-S or DEL: `consoleintr` changes the state only
if `e - r < 128` (and `c ≠ 0`), and otherwise returns the state as it is without
echo. When the byte is accepted, the CR-normalised byte is stored at
`buf[e mod 128]` and echoed, `e` increases by exactly 1, `r` and the history are
unchanged, and `w` becomes the new `e` if and only if the normalised byte is
newline or Ctrl-D or the new `e - r` equals 128; otherwise `w` is unchanged. -/
theorem C16_default_byte (s : ConsState) (c : Nat) (hs : uintOK s) (hinv : cursorInv s)
    (hc : c < CHAR_MOD) (hP : c ≠ C 'P') (hU : c ≠ C 'U') (hH : c ≠ C 'H') (hDEL : c ≠ DEL)
    (hW : c ≠ C 'W') (hS : c ≠ C 'S') :
    ((consoleintr s c).1 ≠ s → c ≠ 0 ∧ usub s.e s.r < INPUT_BUF_SIZE) ∧
    (¬ (c ≠ 0 ∧ usub s.e s.r < INPUT_BUF_SIZE) → consoleintr s c = (s, [])) ∧
    (c ≠ 0 → usub s.e s.r < INPUT_BUF_SIZE →
      (consoleintr s c).1.buf = store s.buf (s.e % INPUT_BUF_SIZE) (normCR c) ∧
      (consoleintr s c).2 = consputc (normCR c) ∧
      (consoleintr s c).1.e = uadd s.e 1 ∧
      usub (consoleintr s c).1.e (consoleintr s c).1.r = usub s.e s.r + 1 ∧
      (consoleintr s c).1.r = s.r ∧
      ((consoleintr s c).1.w = (consoleintr s c).1.e ↔
        (normCR c = NEWLINE ∨ normCR c = C 'D' ∨
          usub (consoleintr s c).1.e (consoleintr s c).1.r = INPUT_BUF_SIZE)) ∧
      (¬ (normCR c = NEWLINE ∨ normCR c = C 'D' ∨
          usub (consoleintr s c).1.e (consoleintr s c).1.r = INPUT_BUF_SIZE) →
        (consoleintr s c).1.w = s.w) ∧
      (consoleintr s c).1.history_buf = s.history_buf ∧
      (consoleintr s c).1.history_index = s.history_index ∧
      (consoleintr s c).1.history_count = s.history_count ∧
      (consoleintr s c).1.word_index = s.word_index) := by
  have hrej := intr_default_reject s c hP hU hH hDEL hW hS
  refine ⟨?_, hrej, ?_⟩
  · intro hne
    by_contra hacc
    rw [hrej hacc] at hne
    exact hne rfl
  · intro h0 hroom
    have hn256 : normCR c % CHAR_MOD = normCR c := by
      apply Nat.mod_eq_of_lt
      unfold normCR
      split
      · decide
      · exact hc
    have hstep := usub_uadd_one s.e s.r (by simpa only [INPUT_BUF_SIZE] using hroom)
    have h3 := (inv3_iff s).1 ⟨hs, hinv⟩
    rw [intr_default_accept s c hP hU hH hDEL hW hS h0 hroom, hn256]
    by_cases hcommit : normCR c = NEWLINE ∨ normCR c = C 'D' ∨
        usub (uadd s.e 1) s.r = INPUT_BUF_SIZE
    · rw [if_pos hcommit]
      exact ⟨rfl, rfl, rfl, hstep, rfl, ⟨fun _ => hcommit, fun _ => rfl⟩,
        fun h => absurd hcommit h, rfl, rfl, rfl, rfl⟩
    · rw [if_neg hcommit]
      refine ⟨rfl, rfl, rfl, hstep, rfl, ⟨fun h => ?_, fun h => absurd h hcommit⟩,
        fun _ => rfl, rfl, rfl, rfl, rfl⟩
      exact absurd h (inv3_w_ne_succ s.r s.w s.e h3 hroom)

/-- C16 at boot: the byte `a` is stored in cell 0 without commit, and CR is stored
as a newline and commits. -/
theorem C16_witness :
    ((consoleintr init 97).1.buf = store init.buf (init.e % INPUT_BUF_SIZE) (normCR 97) ∧
      (consoleintr init 97).1.w = init.w) ∧
    (consoleintr init CR).1.w = (consoleintr init CR).1.e :=
  have h1 := (C16_default_byte init 97 (by decide) (by decide) (by decide) (by decide)
    (by decide) (by decide) (by decide) (by decide) (by decide)).2.2 (by decide) (by decide)
  have h2 := (C16_default_byte init CR (by decide) (by decide) (by decide) (by decide)
    (by decide) (by decide) (by decide) (by decide) (by decide)).2.2 (by decide) (by decide)
  ⟨⟨h1.1, h1.2.2.2.2.2.2.1 (by decide)⟩, h2.2.2.2.2.2.1.2 (Or.inl (by decide))⟩

/-! ## C12: the read budget and the line stop -/

theorem window_shift (buf : Nat → Nat) (r len : Nat) :
    window buf r (len + 1) = buf (r % INPUT_BUF_SIZE) :: window buf (uadd r 1) len := by
  rw [window_congr buf len (uadd r 1) (r + 1) (uadd_mod r)]
  rfl

theorem newline_last_cons (c : Nat) (out : List Nat) (hc : c ≠ NEWLINE)
    (h : ∀ pre post, out = pre ++ NEWLINE :: post → post = []) :
    ∀ pre post, c :: out = pre ++ NEWLINE :: post → post = [] := by
  intro pre post e
  cases pre with
  | nil =>
    simp only [List.nil_append, List.cons.injEq] at e
    exact absurd e.1 hc
  | cons p pre1 =>
    simp only [List.cons_append, List.cons.injEq] at e
    exact h pre1 post e.2

theorem newline_last_nil : ∀ pre post : List Nat, ([] : List Nat) = pre ++ NEWLINE :: post →
    post = [] := by
  intro pre post e
  have := congrArg List.length e
  simp only [List.length_nil, List.length_append, List.length_cons] at this
  omega

theorem newline_last_single : ∀ pre post : List Nat, [NEWLINE] = pre ++ NEWLINE :: post →
    post = [] := by
  intro pre post e
  have := congrArg List.length e
  simp only [List.length_nil, List.length_append, List.length_cons] at this
  have h0 : post.length = 0 := by omega
  exact List.eq_nil_of_length_eq_zero h0

theorem newline_last_one (c : Nat) : ∀ pre post : List Nat, [c] = pre ++ NEWLINE :: post →
    post = [] := by
  intro pre post e
  have := congrArg List.length e
  simp only [List.length_nil, List.length_append, List.length_cons] at this
  have h0 : post.length = 0 := by omega
  exact List.eq_nil_of_length_eq_zero h0

/-- What every run of the loop of `consoleread` guarantees: it leaves the buffer,
`w` and `e` alone; the bytes it copies out are the buffer cells from `r` on, in
order; none of them is Ctrl-D; a newline is at most the last of them; there are at
most `n` of them; and a return value other than -1 is the number of bytes copied
since the call began. -/
theorem loop_shape (env : Env) (target n : Nat) : ∀ s : ConsState, n ≤ target →
    (consoleread_loop env target n s).st.buf = s.buf ∧
    (consoleread_loop env target n s).st.w = s.w ∧
    (consoleread_loop env target n s).st.e = s.e ∧
    (consoleread_loop env target n s).out
      = window s.buf s.r (consoleread_loop env target n s).out.length ∧
    C 'D' ∉ (consoleread_loop env target n s).out ∧
    (∀ pre post, (consoleread_loop env target n s).out = pre ++ NEWLINE :: post → post = []) ∧
    (consoleread_loop env target n s).out.length ≤ n ∧
    (∀ v : Int, (consoleread_loop env target n s).res = .ret v → 0 ≤ v →
      v = ((target - n + (consoleread_loop env target n s).out.length : Nat) : Int)) := by
  induction n with
  | zero =>
    intro s _
    rw [read_zero]
    refine ⟨rfl, rfl, rfl, rfl, by simp, newline_last_nil, Nat.le_refl _, ?_⟩
    intro v hv _
    simp only [Outcome.ret.injEq] at hv
    simp [← hv]
  | succ n ih =>
    intro s hn
    by_cases h1 : s.r = s.w
    · by_cases hk : env.killed = true
      · rw [read_killed env target n s h1 hk]
        refine ⟨rfl, rfl, rfl, rfl, by simp, newline_last_nil, Nat.zero_le _, ?_⟩
        intro v hv h0
        simp only [Outcome.ret.injEq] at hv
        omega
      · rw [read_asleep env target n s h1 (by simpa using hk)]
        refine ⟨rfl, rfl, rfl, rfl, by simp, newline_last_nil, Nat.zero_le _, ?_⟩
        intro v hv
        cases hv
    · by_cases hD : s.buf (s.r % INPUT_BUF_SIZE) = C 'D'
      · by_cases hlt : n + 1 < target
        · rw [read_ctrlD_later env target n s h1 hD hlt]
          refine ⟨rfl, rfl, rfl, rfl, by simp, newline_last_nil, Nat.zero_le _, ?_⟩
          intro v hv _
          simp only [Outcome.ret.injEq] at hv
          simp only [List.length_nil, Nat.add_zero]
          omega
        · rw [read_ctrlD_first env target n s h1 hD hlt]
          refine ⟨rfl, rfl, rfl, rfl, by simp, newline_last_nil, Nat.zero_le _, ?_⟩
          intro v hv _
          simp only [Outcome.ret.injEq] at hv
          simp only [List.length_nil, Nat.add_zero]
          omega
      · by_cases hc : env.copyout (target - (n + 1)) = true
        · by_cases hout : HISTORY_SIZE * INPUT_BUF_SIZE ≤ hidx s.history_index s.word_index
          · rw [read_fault env target n s h1 hD hc hout]
            refine ⟨rfl, rfl, rfl, ?_, ?_, newline_last_one _, by simp, ?_⟩
            · simp only [List.length_singleton, window]
            · intro hmem
              exact hD (List.mem_singleton.1 hmem).symm
            · intro v hv
              cases hv
          · have hin := histRoom_of_not s hout
            by_cases hN : s.buf (s.r % INPUT_BUF_SIZE) = NEWLINE
            · rw [read_newline env target n s h1 hN hc hin]
              refine ⟨rfl, rfl, rfl, ?_, ?_, newline_last_single, by simp, ?_⟩
              · simp only [List.length_singleton, window, hN]
              · simp [C_D, NEWLINE]
              · intro v hv _
                simp only [Outcome.ret.injEq] at hv
                simp only [List.length_singleton]
                omega
            · rw [read_step env target n s h1 hD hN hc hin]
              obtain ⟨a1, a2, a3, a4, a5, a6, a7, a8⟩ :=
                ih (deliver s (s.buf (s.r % INPUT_BUF_SIZE))) (by omega)
              refine ⟨a1, a2, a3, ?_, ?_, newline_last_cons _ _ hN a6, ?_, ?_⟩
              · simp only [List.length_cons]
                rw [window_shift]
                exact congrArg _ a4
              · intro hmem
                rcases List.mem_cons.1 hmem with h | h
                · exact hD h.symm
                · exact a5 h
              · simp only [List.length_cons]
                omega
              · intro v hv h0
                have := a8 v hv h0
                simp only [List.length_cons]
                omega
        · rw [read_copyfail env target n s h1 hD (by simpa using hc)]
          refine ⟨rfl, rfl, rfl, rfl, by simp, newline_last_nil, Nat.zero_le _, ?_⟩
          intro v hv _
          simp only [Outcome.ret.injEq] at hv
          simp only [List.length_nil, Nat.add_zero]
          omega

/-- C12. For every state and every budget `n ≥ 0`, a `consoleread` that returns
normally (a value other than -1) returns a count `v` with `0 ≤ v ≤ n`; `v` is the
number of bytes copied to the destination, also when a copy fails part-way; the
copied bytes are the buffer cells at the positions `r, r+1, ..., r+v-1` of the
entry state, in order; and a newline occurs among them at most as the last byte.
The same holds for a run of the loop resumed after a wake-up, whose return value
counts the bytes copied since the call began. A run that returns has made all
its stores into `history_buf` inside the array (one per copied byte, last
conjunct): a run that would store outside the array ends with `fault`, it does
not return in the embedding, and nothing is stated about it. -/
theorem C12_read_budget_and_line_stop (env : Env) (s : ConsState) :
    (∀ (n v : Int), 0 ≤ n → (consoleread env s n).res = .ret v → 0 ≤ v →
      v ≤ n ∧ v = ((consoleread env s n).out.length : Nat) ∧
      (consoleread env s n).out = window s.buf s.r (consoleread env s n).out.length ∧
      (∀ pre post, (consoleread env s n).out = pre ++ NEWLINE :: post → post = []) ∧
      histRoom s (consoleread env s n).out.length) ∧
    (∀ (target n : Nat) (v : Int), n ≤ target →
      (consoleread_loop env target n s).res = .ret v → 0 ≤ v →
      v ≤ target ∧
      v = ((target - n + (consoleread_loop env target n s).out.length : Nat) : Int) ∧
      (consoleread_loop env target n s).out
        = window s.buf s.r (consoleread_loop env target n s).out.length ∧
      (∀ pre post, (consoleread_loop env target n s).out = pre ++ NEWLINE :: post →
        post = []) ∧
      histRoom s (consoleread_loop env target n s).out.length) := by
  constructor
  · intro n v hn hret hv
    obtain ⟨-, -, -, a4, -, a6, a7, a8⟩ := loop_shape env n.toNat n.toNat s (Nat.le_refl _)
    have h8 := a8 v hret hv
    simp only [Nat.sub_self, Nat.zero_add] at h8
    refine ⟨?_, h8, a4, a6,
      loop_stores_inside env n.toNat n.toNat s (by
        show (consoleread env s n).res ≠ .fault
        rw [hret]; exact nofun)⟩
    have : (consoleread env s n).out.length ≤ n.toNat := a7
    omega
  · intro target n v hn hret hv
    obtain ⟨-, -, -, a4, -, a6, a7, a8⟩ := loop_shape env target n s hn
    have h8 := a8 v hret hv
    refine ⟨?_, h8, a4, a6, loop_stores_inside env target n s (by rw [hret]; exact nofun)⟩
    omega

/-- C12 on the queue `"ab\\ncd\\n"` typed at boot: a read of 10 bytes returns 3,
the bytes `"ab\\n"` of the cells 0 to 2; and a read of 10 bytes whose second copy
fails returns 1, the byte `a`. -/
theorem C12_witness :
    ((3 : Int) ≤ 10 ∧ (3 : Int) = ((consoleread quietEnv
        (feed init [97, 98, 10, 99, 100, 10]).1 10).out.length : Nat) ∧
      (consoleread quietEnv (feed init [97, 98, 10, 99, 100, 10]).1 10).out
        = window (feed init [97, 98, 10, 99, 100, 10]).1.buf
            (feed init [97, 98, 10, 99, 100, 10]).1.r
            (consoleread quietEnv (feed init [97, 98, 10, 99, 100, 10]).1 10).out.length) ∧
    (1 : Int) = ((consoleread ⟨false, fun k => decide (k < 1)⟩
        (feed init [97, 98, 10, 99, 100, 10]).1 10).out.length : Nat) :=
  have h1 := (C12_read_budget_and_line_stop quietEnv (feed init [97, 98, 10, 99, 100, 10]).1).1
    10 3 (by decide) (by decide) (by decide)
  have h2 := (C12_read_budget_and_line_stop ⟨false, fun k => decide (k < 1)⟩
    (feed init [97, 98, 10, 99, 100, 10]).1).1 10 1 (by decide) (by decide) (by decide)
  ⟨⟨h1.1, h1.2.1, h1.2.2.1⟩, h2.2.1⟩

/-! ## C13: the end-of-file sentinel is not data -/

theorem uadd_uadd (r k : Nat) : uadd (uadd r 1) k = uadd r (k + 1) := by
  simp only [uadd, UINT_MOD]
  omega

theorem uadd_zero (r : Nat) (hr : r < UINT_MOD) : uadd r 0 = r := by
  simp only [uadd, UINT_MOD] at *
  omega

theorem foldl_deliver_r (xs : List Nat) : ∀ s : ConsState, s.r < UINT_MOD →
    (xs.foldl deliver s).r = uadd s.r xs.length := by
  induction xs with
  | nil => intro s hs; exact (uadd_zero s.r hs).symm
  | cons c cs ih =>
    intro s _
    simp only [List.foldl_cons, List.length_cons]
    rw [ih (deliver s c) (uadd_lt s.r 1)]
    exact uadd_uadd s.r cs.length

/-- A run of the loop that delivers the data bytes `xs` and then meets Ctrl-D with
budget left: when a byte has been delivered since the call began, the sentinel is
left in the queue; when none has, it is consumed. -/
theorem loop_until_sentinel (env : Env) (target : Nat) (xs rest : List Nat) (s : ConsState)
    (m : Nat) (hq : Queue s (xs ++ C 'D' :: rest)) (hw : xs.length + 1 ≤ usub s.w s.r)
    (hx : ∀ c ∈ xs, c ≠ C 'D' ∧ c ≠ NEWLINE)
    (hcopy : ∀ k, target - (xs.length + (m + 1)) ≤ k → k < target - (m + 1) →
      env.copyout k = true)
    (ht : xs.length + (m + 1) ≤ target) (hin : histRoom s xs.length) :
    consoleread_loop env target (xs.length + (m + 1)) s
      = ⟨if m + 1 < target then xs.foldl deliver s
          else { xs.foldl deliver s with r := uadd (xs.foldl deliver s).r 1 },
        xs, .ret ((target : Int) - ((m + 1 : Nat) : Int))⟩ := by
  have hq1 := Queue_foldl_deliver xs s (C 'D' :: rest) hq
  have hc1 := committed_foldl_deliver xs s hq.1 (by omega)
  have hne := committed_ne (xs.foldl deliver s) hq1.1 (by omega)
  have hD := Queue_head _ _ _ hq1
  rw [read_data env target xs s (m + 1) (C 'D' :: rest) hq (by omega) hx hcopy ht hin]
  by_cases hlt : m + 1 < target
  · rw [read_ctrlD_later env target m _ hne hD hlt, usub_uadd_cancel _ hq1.1.1, if_pos hlt]
    simp
  · rw [read_ctrlD_first env target m _ hne hD hlt, if_neg hlt]
    simp

/-- C13. No byte that `consoleread` copies to the destination is Ctrl-D, in any state
and for any budget. When the committed bytes at the head of the queue are the data
bytes `xs` followed by Ctrl-D and the budget reaches past `xs`, the call delivers
exactly `xs` and returns their number: for `xs` non-empty the sentinel is left in
the queue (`r` points at it on return, still before `w`), and for `xs` empty the
sentinel is consumed and the call returns 0. A run resumed after a wake-up, in
which bytes were delivered before, leaves the sentinel in the queue as well. The
statements about the data bytes `xs` are for a state in which the `|xs|` stores of
the run into `history_buf` stay inside the array (`histRoom`). -/
theorem C13_sentinel_never_delivered (env : Env) (s : ConsState) :
    (∀ n : Int, C 'D' ∉ (consoleread env s n).out) ∧
    (∀ target n : Nat, n ≤ target → C 'D' ∉ (consoleread_loop env target n s).out) ∧
    (∀ (xs rest : List Nat) (n : Int), Queue s (xs ++ C 'D' :: rest) →
      xs.length + 1 ≤ usub s.w s.r → (∀ c ∈ xs, c ≠ C 'D' ∧ c ≠ NEWLINE) →
      copyOK env xs.length → ((xs.length + 1 : Nat) : Int) ≤ n → histRoom s xs.length →
      (consoleread env s n).out = xs ∧
      (consoleread env s n).res = .ret ((xs.length : Nat) : Int) ∧
      (xs ≠ [] →
        (consoleread env s n).st.r = uadd s.r xs.length ∧
        (consoleread env s n).st.r ≠ (consoleread env s n).st.w ∧
        (consoleread env s n).st.buf ((consoleread env s n).st.r % INPUT_BUF_SIZE) = C 'D') ∧
      (xs = [] → (consoleread env s n).st.r = uadd s.r 1)) ∧
    (∀ (xs rest : List Nat) (target m : Nat), Queue s (xs ++ C 'D' :: rest) →
      xs.length + 1 ≤ usub s.w s.r → (∀ c ∈ xs, c ≠ C 'D' ∧ c ≠ NEWLINE) →
      (∀ k, target - (xs.length + (m + 1)) ≤ k → k < target - (m + 1) →
        env.copyout k = true) →
      xs.length + (m + 1) ≤ target → m + 1 < target → histRoom s xs.length →
      (consoleread_loop env target (xs.length + (m + 1)) s).out = xs ∧
      (consoleread_loop env target (xs.length + (m + 1)) s).res
        = .ret ((target : Int) - ((m + 1 : Nat) : Int)) ∧
      (consoleread_loop env target (xs.length + (m + 1)) s).st.r = uadd s.r xs.length ∧
      (consoleread_loop env target (xs.length + (m + 1)) s).st.r
        ≠ (consoleread_loop env target (xs.length + (m + 1)) s).st.w ∧
      (consoleread_loop env target (xs.length + (m + 1)) s).st.buf
        ((consoleread_loop env target (xs.length + (m + 1)) s).st.r % INPUT_BUF_SIZE)
        = C 'D') := by
  have left : ∀ (xs rest : List Nat), Queue s (xs ++ C 'D' :: rest) →
      xs.length + 1 ≤ usub s.w s.r →
      (xs.foldl deliver s).r = uadd s.r xs.length ∧
      (xs.foldl deliver s).r ≠ (xs.foldl deliver s).w ∧
      (xs.foldl deliver s).buf ((xs.foldl deliver s).r % INPUT_BUF_SIZE) = C 'D' := by
    intro xs rest hq hw
    have hq1 := Queue_foldl_deliver xs s (C 'D' :: rest) hq
    have hc1 := committed_foldl_deliver xs s hq.1 (by omega)
    exact ⟨foldl_deliver_r xs s hq.1.1, committed_ne _ hq1.1 (by omega), Queue_head _ _ _ hq1⟩
  refine ⟨fun n => (loop_shape env n.toNat n.toNat s (Nat.le_refl _)).2.2.2.2.1,
    fun target n hn => (loop_shape env target n s hn).2.2.2.2.1, ?_, ?_⟩
  · intro xs rest n hq hw hx hcopy hn hin
    obtain ⟨m, hm⟩ := Int_toNat_split n (xs.length + 1) hn
    have e := loop_until_sentinel env (xs.length + (m + 1)) xs rest s m hq hw hx
      (fun k _ h2 => hcopy k (by omega)) (Nat.le_refl _) hin
    have hcr : consoleread env s n = consoleread_loop env (xs.length + (m + 1))
        (xs.length + (m + 1)) s := by
      simp only [consoleread, hm]
      rw [show xs.length + 1 + m = xs.length + (m + 1) by omega]
    rw [hcr, e]
    have e2 : ((xs.length + (m + 1) : Nat) : Int) - ((m + 1 : Nat) : Int)
        = ((xs.length : Nat) : Int) := by
      push_cast; omega
    refine ⟨rfl, by rw [e2], ?_, ?_⟩
    · intro hne
      have hpos : 0 < xs.length := List.length_pos.2 hne
      simp only [show m + 1 < xs.length + (m + 1) by omega, if_true]
      exact left xs rest hq hw
    · intro hnil
      subst hnil
      simp only [List.length_nil, Nat.zero_add, Nat.lt_irrefl, if_false, List.foldl_nil]
  · intro xs rest target m hq hw hx hcopy ht hlt hin
    rw [loop_until_sentinel env target xs rest s m hq hw hx hcopy ht hin, if_pos hlt]
    exact ⟨rfl, rfl, left xs rest hq hw⟩

/-- C13 on the queue `"hi"`, Ctrl-D typed at boot: a read of 10 bytes delivers `"hi"`,
returns 2 and leaves `r = 2` pointing at the sentinel; on the queue Ctrl-D alone a
read of 10 bytes returns 0 and moves `r` past the sentinel. -/
theorem C13_witness :
    ((consoleread quietEnv (feed init [104, 105, 4]).1 10).out = [104, 105] ∧
      (consoleread quietEnv (feed init [104, 105, 4]).1 10).res = .ret 2 ∧
      (consoleread quietEnv (feed init [104, 105, 4]).1 10).st.r
        = uadd (feed init [104, 105, 4]).1.r 2) ∧
    (consoleread quietEnv (feed init [4]).1 10).st.r = uadd (feed init [4]).1.r 1 :=
  have h1 := (C13_sentinel_never_delivered quietEnv (feed init [104, 105, 4]).1).2.2.1
    [104, 105] [] 10 (by decide) (by decide) (by decide) (fun _ _ => rfl) (by decide)
    (by decide)
  have h2 := (C13_sentinel_never_delivered quietEnv (feed init [4]).1).2.2.1
    [] [] 10 (by decide) (by decide) (by decide) (fun _ _ => rfl) (by decide)
    (by decide)
  ⟨⟨h1.1, h1.2.1, (h1.2.2.1 (by decide)).1⟩, h2.2.2.2 rfl⟩

/-! ## C17: kill-line -/

theorem last_slot (e w k : Nat) (hw : w < UINT_MOD) (h : usub e w = k + 1) :
    (w + k) % INPUT_BUF_SIZE = usub e 1 % INPUT_BUF_SIZE := by
  simp only [usub, UINT_MOD, INPUT_BUF_SIZE] at *
  omega

theorem next_slot (e w : Nat) (hw : w < UINT_MOD) :
    (w + usub e w) % INPUT_BUF_SIZE = e % INPUT_BUF_SIZE := by
  simp only [usub, UINT_MOD, INPUT_BUF_SIZE] at *
  omega

theorem editable_split (r w e : Nat) (h : inv3 r w e) : usub e w + usub w r = usub e r := by
  simp only [inv3, usub, UINT_MOD, INPUT_BUF_SIZE] at *
  omega

theorem usub_uadd_one_any (e w : Nat) (h : usub e w < 128) :
    usub (uadd e 1) w = usub e w + 1 := usub_uadd_one e w h

/-- Shrinking the editable region by one byte keeps it free of newlines. -/
theorem NoNL_dec (s : ConsState) (h : NoNL s) (hne : s.e ≠ s.w) (hs : uintOK s) :
    NoNL { s with e := usub s.e 1 } := by
  intro i hi
  obtain ⟨k, hk⟩ : ∃ k, usub s.e s.w = k + 1 :=
    ⟨usub s.e s.w - 1, by
      have := (usub_eq_zero s.e s.w hs.2.2 hs.2.1).not.2 hne
      omega⟩
  have hi1 : i < k := by
    have := usub_pred s.e s.w k hk
    simp only at hi
    omega
  exact h i (by omega)

/-- In a state whose editable region holds no newline, the loop of Ctrl-U runs until
`e = w` and echoes one erase sequence per byte of the region. -/
theorem killLoop_all (k : Nat) : ∀ s : ConsState, uintOK s → usub s.e s.w = k → NoNL s →
    (killLoop k s).1.e = s.w ∧ (killLoop k s).2 = bsSeq k := by
  induction k with
  | zero =>
    intro s hs hk _
    exact ⟨(usub_eq_zero s.e s.w hs.2.2 hs.2.1).1 hk, rfl⟩
  | succ k ih =>
    intro s hs hk hno
    have hne : s.e ≠ s.w := by
      intro he
      rw [he, usub_self s.w hs.2.1] at hk
      omega
    have hcell : s.buf (usub s.e 1 % INPUT_BUF_SIZE) ≠ NEWLINE := by
      rw [← last_slot s.e s.w k hs.2.1 hk]
      exact hno k (by omega)
    obtain ⟨h1, h2⟩ := ih { s with e := usub s.e 1 } ⟨hs.1, hs.2.1, usub_lt s.e 1⟩
      (usub_pred s.e s.w k hk) (NoNL_dec s hno hne hs)
    simp only [killLoop, hne, hcell, ne_eq, not_false_eq_true, and_self, if_true]
    exact ⟨h1, by rw [h2]; rfl⟩

theorem NoNL_killLoop (k : Nat) : ∀ s : ConsState, uintOK s → NoNL s → NoNL (killLoop k s).1 := by
  induction k with
  | zero => intro s _ h; exact h
  | succ k ih =>
    intro s hs h
    simp only [killLoop]
    split
    · rename_i hc
      exact ih { s with e := usub s.e 1 } ⟨hs.1, hs.2.1, usub_lt s.e 1⟩ (NoNL_dec s h hc.1 hs)
    · exact h

theorem NoNL_congr (s t : ConsState) (hb : t.buf = s.buf) (hw : t.w = s.w) (he : t.e = s.e)
    (h : NoNL s) : NoNL t := by
  intro i hi
  rw [hb, hw]
  rw [hw, he] at hi
  exact h i hi

theorem NoNL_empty (s : ConsState) (hs : uintOK s) (h : s.w = s.e) : NoNL s := by
  intro i hi
  rw [h, usub_self s.e hs.2.2] at hi
  exact absurd hi (Nat.not_lt_zero i)

/-- Appending a byte other than newline keeps the editable region free of newlines. -/
theorem NoNL_push (s : ConsState) (c : Nat) (h3 : inv3 s.r s.w s.e)
    (hroom : usub s.e s.r < INPUT_BUF_SIZE) (hc : c ≠ NEWLINE) (h : NoNL s) :
    NoNL (push s c) := by
  have hsplit := editable_split s.r s.w s.e h3
  have hlt : usub s.e s.w < 128 := by
    simp only [INPUT_BUF_SIZE] at hroom
    omega
  have hnext := next_slot s.e s.w h3.2.1
  intro i hi
  have hi1 : i < usub s.e s.w + 1 := by
    have := usub_uadd_one s.e s.w hlt
    simp only [push] at hi
    omega
  show store s.buf (s.e % INPUT_BUF_SIZE) c ((s.w + i) % INPUT_BUF_SIZE) ≠ NEWLINE
  by_cases hlast : i = usub s.e s.w
  · rw [hlast, hnext]
    simpa [store] using hc
  · have hne := slot_ne s.w i (usub s.e s.w) (by omega) hlt
    rw [hnext] at hne
    simp only [store, hne, if_false]
    exact h i (by omega)

theorem normCR_byte (c : Nat) (hc : c < CHAR_MOD) : normCR c % CHAR_MOD = normCR c := by
  apply Nat.mod_eq_of_lt
  unfold normCR
  split
  · decide
  · exact hc

theorem NoNL_consoleintr (s : ConsState) (c : Nat) (h3 : inv3 s.r s.w s.e) (hc : c < CHAR_MOD)
    (h : NoNL s) : NoNL (consoleintr s c).1 := by
  have hs : uintOK s := ⟨h3.1, h3.2.1, h3.2.2.1⟩
  by_cases hP : c = C 'P'
  · subst hP
    have : consoleintr s (C 'P') = (s, []) := by simp [consoleintr]
    rw [this]
    exact h
  by_cases hU : c = C 'U'
  · subst hU
    rw [intr_ctrlU]
    exact NoNL_killLoop _ s hs h
  by_cases hH : c = C 'H'
  · subst hH
    rw [intr_ctrlH]
    split
    · rename_i hne
      exact NoNL_dec s h hne hs
    · exact h
  by_cases hDEL : c = DEL
  · subst hDEL
    rw [intr_DEL]
    split
    · rename_i hne
      exact NoNL_dec s h hne hs
    · exact h
  by_cases hWS : c = C 'W' ∨ c = C 'S'
  · obtain ⟨f1, -, f3, f4, -⟩ := nav_frame s c hWS
    exact NoNL_congr s _ f1 f3 f4 h
  have hW : c ≠ C 'W' := fun e => hWS (Or.inl e)
  have hS : c ≠ C 'S' := fun e => hWS (Or.inr e)
  by_cases hacc : c ≠ 0 ∧ usub s.e s.r < INPUT_BUF_SIZE
  · rw [intr_default_accept s c hP hU hH hDEL hW hS hacc.1 hacc.2, normCR_byte c hc]
    by_cases hcommit : normCR c = NEWLINE ∨ normCR c = C 'D' ∨
        usub (uadd s.e 1) s.r = INPUT_BUF_SIZE
    · rw [if_pos hcommit]
      exact NoNL_empty _ ⟨hs.1, uadd_lt s.e 1, uadd_lt s.e 1⟩ rfl
    · rw [if_neg hcommit]
      exact NoNL_push s (normCR c) h3 hacc.2 (fun e => hcommit (Or.inl e)) h
  · rw [intr_default_reject s c hP hU hH hDEL hW hS hacc]
    exact h

/-- Every reachable state satisfies the cursor invariant and has no newline in its
editable region. -/
theorem Reachable_inv (s : ConsState) (h : Reachable s) : inv3 s.r s.w s.e ∧ NoNL s := by
  induction h with
  | boot => exact ⟨(inv3_iff init).1 (by decide), NoNL_empty init (by decide) rfl⟩
  | intr s c _ hc ih =>
    exact ⟨inv3_consoleintr s c ih.1, NoNL_consoleintr s c ih.1 hc ih.2⟩
  | read s env n _ _ ih =>
    obtain ⟨f1, f2, f3, -⟩ := loop_shape env n.toNat n.toNat s (Nat.le_refl _)
    exact ⟨inv3_consoleread_loop env _ _ s ih.1, NoNL_congr s _ f1 f2 f3 ih.2⟩
  | resume s env target n _ hn _ ih =>
    obtain ⟨f1, f2, f3, -⟩ := loop_shape env target n s hn
    exact ⟨inv3_consoleread_loop env target n s ih.1, NoNL_congr s _ f1 f2 f3 ih.2⟩

/-- C17. In every state reachable from boot by calls of `consoleintr` (on input
bytes) and `consoleread`, the editable region holds no newline, so `consoleintr`
applied to Ctrl-U erases all of it: afterwards `e = w`, with `w`, `r` and the
buffer unchanged, and the echo is exactly `e - w` (old values) erase sequences
backspace, space, backspace. The states are those of `Reachable`: reached by
calls none of which has made a store outside `history_buf`, after which the
behaviour of the program is undefined. -/
theorem C17_kill_line (s : ConsState) (h : Reachable s) :
    NoNL s ∧
    (consoleintr s (C 'U')).1.e = (consoleintr s (C 'U')).1.w ∧
    (consoleintr s (C 'U')).1.w = s.w ∧ (consoleintr s (C 'U')).1.r = s.r ∧
    (consoleintr s (C 'U')).1.buf = s.buf ∧
    (consoleintr s (C 'U')).2 = bsSeq (usub s.e s.w) := by
  obtain ⟨h3, hno⟩ := Reachable_inv s h
  have hs : uintOK s := ⟨h3.1, h3.2.1, h3.2.2.1⟩
  obtain ⟨k1, k2⟩ := killLoop_all (usub s.e s.w) s hs rfl hno
  obtain ⟨f1, f2, f3, -⟩ := killLoop_frame (usub s.e s.w) s
  rw [intr_ctrlU]
  exact ⟨hno, k1.trans f2.symm, f2, f1, f3, k2⟩

/-- C17 after `"ok\\n"` and `"abc"` have been typed at boot: Ctrl-U moves `e` from 6
back to `w = 3` and echoes three erase sequences. -/
theorem C17_witness :
    (consoleintr (feed init [111, 107, 10, 97, 98, 99]).1 (C 'U')).1.e = 3 ∧
    (consoleintr (feed init [111, 107, 10, 97, 98, 99]).1 (C 'U')).2
      = [8, 32, 8, 8, 32, 8, 8, 32, 8] :=
  have h := C17_kill_line (feed init [111, 107, 10, 97, 98, 99]).1
    (Reachable_feed _ init Reachable.boot (by decide))
  ⟨h.2.1.trans h.2.2.1, h.2.2.2.2.2⟩

/-! ## C18: what navigation recalls -/

set_option maxRecDepth 100000 in
/-- C18, the code at the failing input. After the single line `"ls\\n"` has been
typed and read at boot (`history_count = 1`, the line is in slot 0), Ctrl-W moves
`history_index` to slot 0 and echoes `ls`; the following Ctrl-S moves it to slot 1,
which was never written, and echoes its 128 zero bytes. -/
theorem C18_recall_unwritten_slot :
    Reachable (typeAndRead init [108, 115] (quietEnv, 10)) ∧
    (typeAndRead init [108, 115] (quietEnv, 10)).history_count = 1 ∧
    SlotHolds (typeAndRead init [108, 115] (quietEnv, 10)).history_buf 0 [108, 115] ∧
    (consoleintr (typeAndRead init [108, 115] (quietEnv, 10)) (C 'W')).1.history_index = 0 ∧
    (consoleintr (typeAndRead init [108, 115] (quietEnv, 10)) (C 'W')).2 = [108, 115] ∧
    (consoleintr (consoleintr (typeAndRead init [108, 115] (quietEnv, 10)) (C 'W')).1
      (C 'S')).1.history_index = 1 ∧
    (consoleintr (consoleintr (typeAndRead init [108, 115] (quietEnv, 10)) (C 'W')).1
      (C 'S')).2 = List.replicate 128 0 ∧
    (∀ j, j < INPUT_BUF_SIZE →
      (typeAndRead init [108, 115] (quietEnv, 10)).history_buf (hidx 1 j) = 0) :=
  ⟨Reachable_typeAndRead init _ _ Reachable.boot (by decide) (by decide), by decide,
    by unfold SlotHolds; decide, by decide, by decide, by decide, by decide, by decide⟩

/-! ## C19: bounds of the history accesses -/

/-- One round: 128 ordinary bytes typed into an empty queue and read back by one
call, whose stores stay inside `history_buf`, leave the queue empty and
`history_index` as it was, and advance `word_index` by 128. -/
theorem full_round (s : ConsState) (xs : List Nat) (env : Env) (hc : Committed s [])
    (hxs : ∀ c ∈ xs, ordinary c) (hlen : xs.length = 128) (hcopy : copyOK env 128)
    (hin : histRoom s 128) :
    (consoleread env (feed s xs).1 128).res = .ret 128 ∧
    Committed (feedAndRead s xs (env, 128)) [] ∧
    (feedAndRead s xs (env, 128)).history_index = s.history_index ∧
    (feedAndRead s xs (env, 128)).word_index = s.word_index + 128 ∧
    (∀ j, hidx s.history_index (s.word_index + 128) ≤ j →
      (feedAndRead s xs (env, 128)).history_buf j = s.history_buf j) := by
  have hne : xs ≠ [] := by
    intro h0
    rw [h0] at hlen
    exact absurd hlen (by decide)
  obtain ⟨c1, -, -⟩ := feed_fill xs s [] hc.1 hxs hne (by rw [hlen]; rfl)
  simp only [List.nil_append] at c1
  obtain ⟨b1, b2, -, b4⟩ := feed_history_frame xs s (fun c h => ordinary_not_nav c (hxs c h))
  have e := read_exact env (feed s xs).1 xs c1 (fun c h => ordinary_data c (hxs c h))
    (by rw [hlen]; exact hcopy) (histRoom_congr s _ _ b2 b4 (by rw [hlen]; exact hin))
  rw [hlen] at e
  have est : feedAndRead s xs (env, 128) = xs.foldl deliver (feed s xs).1 := by
    show (consoleread env (feed s xs).1 ((128 : Nat) : Int)).st = _
    rw [e]
  have eres : (consoleread env (feed s xs).1 128).res = .ret 128 := by
    show (consoleread env (feed s xs).1 ((128 : Nat) : Int)).res = _
    rw [e]
    rfl
  obtain ⟨-, f2, f3, f4, -, f6, f7⟩ := foldl_deliver_frame xs (feed s xs).1
  rw [est]
  refine ⟨eres, ⟨Queue_foldl_deliver xs _ [] (by simpa using c1.1), ?_⟩, f4.trans b2, ?_, ?_⟩
  · rw [f2, f3]
    exact c1.2
  · rw [f6, b4, hlen]
  · intro j hj
    rw [f7, b1, b2, b4]
    exact storeList_above xs _ _ j (by simp only [hidx] at hj ⊢; omega)

theorem Reachable_feedAndRead (s : ConsState) (xs : List Nat) (call : Env × Int)
    (h : Reachable s) (hxs : ∀ c ∈ xs, c < CHAR_MOD)
    (hres : (consoleread call.1 (feed s xs).1 call.2).res ≠ .fault) :
    Reachable (feedAndRead s xs call) :=
  Reachable.read _ call.1 call.2 (Reachable_feed xs s h hxs) hres

/-- Rounds of 128 bytes whose stores all stay inside `history_buf`. -/
theorem fullRounds_spec (k : Nat) : ∀ s : ConsState, Committed s [] → Reachable s →
    histRoom s (128 * k) →
    Committed (fullRounds k s) [] ∧ Reachable (fullRounds k s) ∧
    (fullRounds k s).history_index = s.history_index ∧
    (fullRounds k s).word_index = s.word_index + 128 * k ∧
    (∀ j, hidx s.history_index (s.word_index + 128 * k) ≤ j →
      (fullRounds k s).history_buf j = s.history_buf j) := by
  induction k with
  | zero => intro s hc hr _; exact ⟨hc, hr, rfl, rfl, fun _ _ => rfl⟩
  | succ k ih =>
    intro s hc hr hin
    obtain ⟨e1, c1, i1, w1, g1⟩ := full_round s (List.replicate 128 97) quietEnv hc
      ordinary_replicate_a (List.length_replicate 128 97) (fun _ _ => rfl)
      (histRoom_mono s _ _ (by omega) hin)
    have hin1 : histRoom (feedAndRead s (List.replicate 128 97) (quietEnv, 128)) (128 * k) := by
      intro i hi
      have := hin (128 + i) (by omega)
      rw [i1, w1]
      simp only [hidx] at this ⊢
      omega
    obtain ⟨c2, r2, i2, w2, g2⟩ := ih _ c1
      (Reachable_feedAndRead s _ _ hr (fun c h => (ordinary_replicate_a c h).2.1)
        (by
          show (consoleread quietEnv (feed s (List.replicate 128 97)).1 128).res ≠ .fault
          rw [e1]
          exact nofun))
      hin1
    rw [i1, w1] at g2
    refine ⟨c2, r2, i2.trans i1, ?_, ?_⟩
    · show (fullRounds k (feedAndRead s (List.replicate 128 97) (quietEnv, 128))).word_index = _
      rw [w2, w1]
      omega
    · intro j hj
      show (fullRounds k (feedAndRead s (List.replicate 128 97) (quietEnv, 128))).history_buf j
        = _
      rw [g2 j (by simp only [hidx] at hj ⊢; omega), g1 j (by simp only [hidx] at hj ⊢; omega)]

/-- In every reachable state `history_index < 5` and `history_count ≤ 5`. -/
theorem Reachable_history_bounds (s : ConsState) (h : Reachable s) :
    s.history_index < HISTORY_SIZE ∧ s.history_count ≤ HISTORY_SIZE := by
  have loop : ∀ (env : Env) (target n : Nat) (t : ConsState),
      t.history_index < HISTORY_SIZE ∧ t.history_count ≤ HISTORY_SIZE →
      (consoleread_loop env target n t).st.history_index < HISTORY_SIZE ∧
      (consoleread_loop env target n t).st.history_count ≤ HISTORY_SIZE := by
    intro env target n
    induction n with
    | zero => intro t ht; exact ht
    | succ n ih =>
      intro t ht
      simp only [consoleread_loop]
      split_ifs <;>
        first
        | exact ht
        | exact ⟨Nat.mod_lt _ (by decide), ht.2⟩
        | exact ⟨Nat.mod_lt _ (by decide), by
            show t.history_count + 1 ≤ HISTORY_SIZE
            omega⟩
        | exact ih (deliver t (t.buf (t.r % INPUT_BUF_SIZE))) ht
  induction h with
  | boot => decide
  | intr s c _ _ ih =>
    by_cases hWS : c = C 'W' ∨ c = C 'S'
    · obtain ⟨-, -, -, -, -, f6, -⟩ := nav_frame s c hWS
      refine ⟨?_, by rw [f6]; exact ih.2⟩
      by_cases hcnt : 0 < s.history_count
      · rcases hWS with hc | hc
        · subst hc
          rw [intr_ctrlW s hcnt]
          exact Nat.mod_lt _ (by decide)
        · subst hc
          rw [intr_ctrlS s hcnt]
          exact Nat.mod_lt _ (by decide)
      · rw [intr_nav_none s c hWS hcnt]
        exact ih.1
    · obtain ⟨-, a2, a3, -⟩ := intr_history_frame s c (fun e => hWS (Or.inl e))
        (fun e => hWS (Or.inr e))
      rw [a2, a3]
      exact ih
  | read s env n _ _ ih => exact loop env _ _ s ih
  | resume s env target n _ _ _ ih => exact loop env target n s ih

/-- Every state of a schedule of typed lines and reads is reachable: no read of a
schedule makes a store outside `history_buf`. -/
theorem run_schedule_reachable (pending : List (List Nat)) (evs : List Ev)
    (lines : List (List Nat)) (hsched : Schedule pending evs lines) :
    ∀ s : ConsState, Committed s (joinLines pending) → s.word_index = 0 → Reachable s →
      (∀ m ∈ pending, ∀ c ∈ m, ordinary c) → Reachable (run s evs) := by
  induction hsched with
  | done => intro s _ _ hr _; exact hr
  | type pending evs lines l hl hlen _ ih =>
    intro s hc hwi hr hg
    obtain ⟨c1, -, -, -, -, w1⟩ := feed_line s (joinLines pending) l hc hl hlen
    have hc1 : Committed (feed s (l ++ [NEWLINE])).1 (joinLines (pending ++ [l])) := by
      rw [joinLines_append]
      simpa [joinLines] using c1
    have hr1 : Reachable (feed s (l ++ [NEWLINE])).1 := by
      refine Reachable_feed _ s hr ?_
      intro c hc
      rcases List.mem_append.1 hc with h1 | h1
      · exact (hl c h1).2.1
      · rw [List.mem_singleton.1 h1]
        decide
    refine ih (feed s (l ++ [NEWLINE])).1 hc1 (w1.trans hwi) hr1 ?_
    intro m hm
    rcases List.mem_append.1 hm with h1 | h1
    · exact hg m h1
    · rw [List.mem_singleton.1 h1]
      exact hl
  | read l rest evs lines call hn hcopy _ ih =>
    intro s hc hwi hr hg
    have hc0 : Committed s (l ++ NEWLINE :: joinLines rest) := by
      simpa [joinLines] using hc
    have hlen : l.length + 1 ≤ 128 := by
      have := hc0.1.2.2.1
      simp only [List.length_append, List.length_cons] at this
      omega
    have hord : ∀ c ∈ l, ordinary c := hg l (List.mem_cons_self l rest)
    have hslot := (Reachable_history_bounds s hr).1
    obtain ⟨c1, w1, -⟩ := read_line_history s l (joinLines rest) call hc0 hwi hord hn hcopy hslot
    have e := read_first_line call.1 s l (joinLines rest) call.2 hc0 hord hn hcopy
      (histRoom_row s _ hslot (by rw [hwi]; simp only [INPUT_BUF_SIZE]; omega))
    refine ih (consoleread call.1 s call.2).st c1 w1 (Reachable.read s call.1 call.2 hr ?_)
      (fun m hm => hg m (List.mem_cons_of_mem l hm))
    rw [e]
    exact nofun

/-- The navigation loop reads only cells of the array: two contents of
`history_buf` that agree on the 640 cells give the same echo. -/
theorem echoLoop_inside (h1 h2 : Nat → Nat) (row : Nat) (hrow : row < HISTORY_SIZE)
    (hagree : ∀ j, j < HISTORY_SIZE * INPUT_BUF_SIZE → h1 j = h2 j) :
    ∀ k i, i + k ≤ INPUT_BUF_SIZE → echoLoop h1 row k i = echoLoop h2 row k i := by
  intro k
  induction k with
  | zero => intro i _; rfl
  | succ k ih =>
    intro i hik
    have hcell : h1 (hidx row i) = h2 (hidx row i) := by
      apply hagree
      simp only [hidx, HISTORY_SIZE, INPUT_BUF_SIZE] at *
      omega
    simp only [echoLoop]
    rw [hcell, ih (i + 1) (by omega)]

theorem killLoop_history (h2 : Nat → Nat) (k : Nat) : ∀ s : ConsState,
    killLoop k { s with history_buf := h2 }
      = ({ (killLoop k s).1 with history_buf := h2 }, (killLoop k s).2) := by
  induction k with
  | zero => intro s; rfl
  | succ k ih =>
    intro s
    simp only [killLoop]
    split
    · have := ih { s with e := usub s.e 1 }
      simp only [] at this ⊢
      rw [this]
    · rfl

/-- The result of `consoleintr` depends on `history_buf` only through the 640
cells of the array. -/
theorem consoleintr_inside (s : ConsState) (h2 : Nat → Nat) (c : Nat)
    (hagree : ∀ j, j < HISTORY_SIZE * INPUT_BUF_SIZE → s.history_buf j = h2 j) :
    consoleintr { s with history_buf := h2 } c
      = ({ (consoleintr s c).1 with history_buf := h2 }, (consoleintr s c).2) := by
  have hk := killLoop_history h2 (usub s.e s.w) s
  have hW := echoLoop_inside s.history_buf h2 ((s.history_index + HISTORY_SIZE - 1) % HISTORY_SIZE)
    (Nat.mod_lt _ (by decide)) hagree INPUT_BUF_SIZE 0 (by omega)
  have hS := echoLoop_inside s.history_buf h2 ((s.history_index + 1) % HISTORY_SIZE)
    (Nat.mod_lt _ (by decide)) hagree INPUT_BUF_SIZE 0 (by omega)
  unfold consoleintr
  simp only []
  split_ifs <;> first | rfl | exact hk | (rw [hW]) | (rw [hS])

/-- In every reachable state `word_index ≤ 640`: the `int` counter never
overflows while the behaviour of the program is defined. -/
theorem Reachable_word_index (s : ConsState) (h : Reachable s) :
    s.word_index ≤ HISTORY_SIZE * INPUT_BUF_SIZE := by
  induction h with
  | boot => decide
  | intr s c _ _ ih =>
    by_cases hWS : c = C 'W' ∨ c = C 'S'
    · rw [(nav_frame s c hWS).2.2.2.2.2.2]
      exact ih
    · rw [(intr_history_frame s c (fun e => hWS (Or.inl e)) (fun e => hWS (Or.inr e))).2.2.2]
      exact ih
  | read s env n _ _ ih => exact loop_word_index env _ _ s ih
  | resume s env target n _ _ _ ih => exact loop_word_index env target n s ih

/-- C19, the code at the failing input. After five rounds of 128 bytes `a` typed at
boot and read by one `consoleread` of 128 bytes each, every store so far has been
inside the array, `history_index` is still 0 and `word_index` is 640. The next
line `"b\\n"` is typed, and the read that is to deliver it copies `b` to the
destination and then reaches the store `history_buf[0][640] = b`, at the flat
offset `640 = 5 * 128`, the first cell past the end of the array: the run ends
with `fault`. Already after the first round `word_index` is 128, outside row 0. -/
theorem C19_out_of_bounds_write :
    Reachable (fullRounds 5 init) ∧
    (fullRounds 1 init).word_index = 128 ∧
    (fullRounds 5 init).history_index = 0 ∧
    (fullRounds 5 init).word_index = 640 ∧
    Reachable (feed (fullRounds 5 init) [98, 10]).1 ∧
    (feed (fullRounds 5 init) [98, 10]).1.history_index = 0 ∧
    (feed (fullRounds 5 init) [98, 10]).1.word_index = 640 ∧
    hidx (feed (fullRounds 5 init) [98, 10]).1.history_index
      (feed (fullRounds 5 init) [98, 10]).1.word_index = HISTORY_SIZE * INPUT_BUF_SIZE ∧
    (consoleread quietEnv (feed (fullRounds 5 init) [98, 10]).1 10).res = .fault ∧
    (consoleread quietEnv (feed (fullRounds 5 init) [98, 10]).1 10).out = [98] ∧
    hidx 0 640 = HISTORY_SIZE * INPUT_BUF_SIZE := by
  have c0 : Committed init [] := ⟨Queue_empty init (by decide) rfl, rfl⟩
  have hroom : ∀ k, k ≤ 640 → histRoom init k := by
    intro k hk i hi
    show hidx 0 (0 + i) < HISTORY_SIZE * INPUT_BUF_SIZE
    simp only [hidx, HISTORY_SIZE, INPUT_BUF_SIZE]
    omega
  obtain ⟨-, -, -, w1, -⟩ := fullRounds_spec 1 init c0 Reachable.boot (hroom _ (by decide))
  obtain ⟨c5, r5, i5, w5, -⟩ := fullRounds_spec 5 init c0 Reachable.boot (hroom _ (by decide))
  have hi : (fullRounds 5 init).history_index = 0 := i5
  have hw : (fullRounds 5 init).word_index = 640 := w5
  obtain ⟨c6, -, -, b2, -, b4⟩ := feed_line (fullRounds 5 init) [] [98] c5 (by decide)
    (by decide)
  have efeed : feed (fullRounds 5 init) [98, 10] = feed (fullRounds 5 init) ([98] ++ [NEWLINE]) :=
    rfl
  rw [efeed]
  rw [hi] at b2
  rw [hw] at b4
  have hq : Queue (feed (fullRounds 5 init) ([98] ++ [NEWLINE])).1 (98 :: [NEWLINE]) := by
    simpa using c6.1
  have hhead := Queue_head _ _ _ hq
  have hne : (feed (fullRounds 5 init) ([98] ++ [NEWLINE])).1.r
      ≠ (feed (fullRounds 5 init) ([98] ++ [NEWLINE])).1.w := by
    apply committed_ne _ hq.1
    rw [c6.2, hq.2.1]
    decide
  have e := read_fault quietEnv 10 9 (feed (fullRounds 5 init) ([98] ++ [NEWLINE])).1 hne
    (by rw [hhead]; decide) rfl (by rw [b2, b4]; decide)
  have e2 : consoleread quietEnv (feed (fullRounds 5 init) ([98] ++ [NEWLINE])).1 10
      = consoleread_loop quietEnv 10 (9 + 1) (feed (fullRounds 5 init) ([98] ++ [NEWLINE])).1 :=
    rfl
  rw [e2, e, hhead]
  exact ⟨r5, w1, hi, hw, Reachable_feed _ _ r5 (by decide), b2, b4, by rw [b2, b4]; rfl,
    rfl, rfl, rfl⟩

end Console
